import Mathlib

/-!
Confab report format (`src/formats/confabreport.cpp`)

A shallow embedding of `ConfabReport::WriteOutput` and
`ConfabReport::WriteMolecule`, and theorems about the report they write.

Modelling conventions

* `double` values are the finite doubles, embedded in `ℚ` (every finite double
  is a rational and `<`, `<=`, `>` on finite doubles agree with the order of
  `ℚ`).  The literal `0.2` is not a dyadic rational; `binvals_arr` holds the
  exact value of the double nearest to it.
* An `ostream` is the list of the items inserted into it with `<<`, oldest
  first.  Number formatting is not modelled: an inserted number is one item.
* `unsigned int` counters wrap modulo `2^32`.
* Undefined behaviour (a `vector::operator[]` access outside the vector, an
  overflowing `int` addition) is the result `none`.
-/

namespace OpenBabel

/-! ## Data model -/

/-- One item inserted into an output stream with `<<`. -/
inductive Item where
  | str (s : String)
  | dbl (x : ℚ)
  | int (n : Int)
  | uint (n : Nat)
  deriving DecidableEq, Repr

/-- An `OBMol` as far as the report looks at it: its title, and the rest of the
molecule (atoms, coordinates), which only the aligner consumes. -/
structure OBMol where
  title : String
  geom : Nat
  deriving DecidableEq, Repr

/-- A default-constructed `OBMol` (the member `rmol` before anything is read). -/
def OBMol.empty : OBMol := ⟨"", 0⟩

/-- The object handed to `WriteMolecule`: a molecule, or something for which
`dynamic_cast<OBMol*>` gives `NULL`. -/
inductive OBBase where
  | mol (m : OBMol)
  | other
  deriving DecidableEq, Repr

/-- The member `rfs`, a `std::ifstream`: whether a file is associated with it,
its fail bit, and the reference entries still to be read from it. -/
structure ifstream where
  is_open : Bool
  fail : Bool
  pending : List OBMol
  deriving DecidableEq, Repr

/-- The data members of `class ConfabReport` (lines 79-89).  `binvals` is
assigned once in the constructor and never written again; it is the constant
`binvals` below.  `align_ref` is the reference molecule held by the member
`align` (set by `align.SetRefMol`). -/
structure ConfabReport where
  rfs : ifstream
  rfilename : Option String
  rmol : OBMol
  align_ref : OBMol
  cutoff_passed : Nat
  N : Nat
  oldtitle : String
  rmsd : List ℚ
  rmsd_cutoff : ℚ
  deriving DecidableEq, Repr

/-- The array `binvals_arr` of the constructor (line 49):
`{0.2, 0.5, 1.0, 1.5, 2.0, 3.0, 4.0, 100.0}` as doubles. -/
def binvals_arr : List ℚ :=
  [3602879701896397 / 18014398509481984, 1 / 2, 1, 3 / 2, 2, 3, 4, 100]

/-- The member `binvals` (line 50). -/
def binvals : List ℚ := binvals_arr

set_option linter.dupNamespace false in
/-- The constructor `ConfabReport::ConfabReport` (lines 46-55). -/
def ConfabReport.ConfabReport : ConfabReport where
  rfs := ⟨false, false, []⟩
  rfilename := none
  rmol := OBMol.empty
  align_ref := OBMol.empty
  cutoff_passed := 0
  N := 0
  oldtitle := ""
  rmsd := []
  rmsd_cutoff := 1 / 2

/-- Increment of an `unsigned int` (`N++`, `cutoff_passed++`). -/
def uincr (n : Nat) : Nat := (n + 1) % 2 ^ 32

/-- Addition of two `int` values; an overflow is undefined behaviour. -/
def iadd (a b : Int) : Option Int :=
  if -(2 : Int) ^ 31 ≤ a + b ∧ a + b < (2 : Int) ^ 31 then some (a + b) else none

/-! ## `WriteOutput` (lines 98-136) -/

/-- The inner loop `while (*it > binvals[bin_idx]) bin_idx++;` (lines 107-108).
Reading `binvals[bin_idx]` with `bin_idx` outside the vector is undefined. -/
def advance (bv : List ℚ) (x : ℚ) (bin_idx : Nat) : Option Nat :=
  if h : bin_idx < bv.length then
    if x > bv[bin_idx] then advance bv x (bin_idx + 1) else some bin_idx
  else none
termination_by bv.length - bin_idx

/-- The loop over the sorted RMSD values (lines 106-110): advance the running
bin index, then `bins[bin_idx]++`. -/
def binLoop (bv : List ℚ) : List ℚ → Nat → List Int → Option (Nat × List Int)
  | [], bin_idx, bins => some (bin_idx, bins)
  | x :: rest, bin_idx, bins =>
    match advance bv x bin_idx with
    | none => none
    | some j =>
      match bins[j]? with
      | none => none
      | some c =>
        match iadd c 1 with
        | none => none
        | some c1 => binLoop bv rest j (bins.set j c1)

/-- Lines 104-110: `bin_idx = 0`, `bins` is a zero-filled vector of
`binvals.size()` counters, then the loop. -/
def binCounts (bv : List ℚ) (sorted : List ℚ) : Option (List Int) :=
  (binLoop bv sorted 0 (List.replicate bv.length 0)).map Prod.snd

/-- One round of `cumbins[i] += cumbins[i-1]` (line 114). -/
def cumStep (cumbins : List Int) (i : Nat) : Option (List Int) :=
  match cumbins[i]?, cumbins[i - 1]? with
  | some a, some b => (iadd a b).map (fun c => cumbins.set i c)
  | _, _ => none

/-- Lines 112-114: `cumbins` is a copy of `bins`, and
`for (int i=1; i<8; ++i) cumbins[i] += cumbins[i-1];`. -/
def cumulate (bins : List Int) : Option (List Int) :=
  (List.range' 1 7).foldlM cumStep bins

/-- Lines 116-120: the label and the thresholds, separated by blanks. -/
def cutoffsLine (bv : List ℚ) : List Item :=
  match bv with
  | [] => [Item.str "..confs less than cutoffs: "]
  | b :: bs =>
    [Item.str "..confs less than cutoffs: ", Item.dbl b]
      ++ bs.flatMap (fun t => [Item.str " ", Item.dbl t]) ++ [Item.str "\n"]

/-- Lines 122-125: the cumulative counts, separated by blanks. -/
def countsLine (cumbins : List Int) : List Item :=
  match cumbins with
  | [] => [Item.str ".."]
  | c :: cs =>
    [Item.str "..", Item.int c]
      ++ cs.flatMap (fun k => [Item.str " ", Item.int k]) ++ [Item.str "\n"]

/-- Lines 127-134: the pass/fail line for minimum `m` and cutoff `c`. -/
def passedLine (m c : ℚ) : List Item :=
  [Item.str "..cutoff (", Item.dbl c, Item.str ") passed = "]
    ++ (if m ≤ c then [Item.str " Yes\n"] else [Item.str " No\n"]) ++ [Item.str "\n"]

/-- The method `ConfabReport::WriteOutput` (lines 98-136): the closing report of
the molecule group whose RMSD values are in `rmsd`. -/
def WriteOutput (self : ConfabReport) (ofs : List Item) :
    Option (ConfabReport × List Item) :=
  match List.insertionSort (· ≤ ·) self.rmsd with
  | [] => some (self, ofs)
  | m :: rest =>
    match binCounts binvals (m :: rest) with
    | none => none
    | some bins =>
      match cumulate bins with
      | none => none
      | some cumbins =>
        let ofs1 := ofs ++ [Item.str "..minimum rmsd = ", Item.dbl m, Item.str "\n"]
          ++ cutoffsLine binvals ++ countsLine cumbins ++ passedLine m self.rmsd_cutoff
        some ({ self with
                  rmsd := m :: rest
                  cutoff_passed :=
                    if m ≤ self.rmsd_cutoff then uincr self.cutoff_passed
                    else self.cutoff_passed }, ofs1)

/-! ## `WriteMolecule` (lines 138-210) -/

/-- Modelled from the spec: the collaborators of section 6, which are not part
of the shown source.  `FormatFromExt` is `OBConversion::FormatFromExt` (the
format found for a file name, if any); `files` gives, for a file name that can
be opened, the reference entries that `StructureSource.ReadNext` delivers from
it in order; `Align` is the aligner's RMSD for a reference and a target
(`SetRefMol`, `SetTargetMol`, `Align`, `GetRMSD`), deterministic. -/
structure World where
  FormatFromExt : String → Option Nat
  files : String → Option (List OBMol)
  Align : OBMol → OBMol → ℚ

/-- What `WriteMolecule` asks of its argument `pConv`: `GetOutputIndex()`,
`IsOption("f")`, `IsOption("r")`, `GetInFilename()` and `IsLast()`. -/
structure OBConversion where
  OutputIndex : Nat
  opt_f : Option String
  opt_r : Option String
  InFilename : String
  IsLast : Bool
  deriving DecidableEq, Repr

/-- The outcome of a call of `WriteMolecule`: the value returned, the object
after the call, and the streams `ofs` (the report) and `cerr`. -/
structure Ret where
  ret : Bool
  self : ConfabReport
  ofs : List Item
  cerr : List Item
  deriving DecidableEq, Repr

/-- The call `rfs.open(rfilename)` (line 160): it fails, setting the fail bit,
when the stream is already open or the file cannot be opened. -/
def ifstream_open (W : World) (rfs : ifstream) (filename : String) : ifstream :=
  if rfs.is_open then { rfs with fail := true }
  else
    match W.files filename with
    | none => { rfs with fail := true }
    | some entries => { is_open := true, fail := false, pending := entries }

/-- Modelled from the spec: `rconv.Read(&rmol)` is `Source.ReadNext()`, which
yields the next reference entry (stored in `rmol`) or reports the end of the
stream by returning `false`. -/
def Read (self : ConfabReport) : Bool × ConfabReport :=
  match self.rfs.pending with
  | [] => (false, self)
  | m :: rest => (true, { self with rmol := m, rfs := { self.rfs with pending := rest } })

/-- The block `if(firstMol) { ... }` (lines 146-172).  `ret = false` is the
early `return false`. -/
def openReference (W : World) (self : ConfabReport) (pConv : OBConversion)
    (ofs cerr : List Item) : Ret :=
  match pConv.opt_f with
  | none =>
    ⟨false, { self with rfilename := none }, ofs,
      cerr ++ [Item.str "Need to specify a reference file\n"]⟩
  | some f =>
    let self1 := { self with rfilename := some f }
    match W.FormatFromExt f with
    | none => ⟨false, self1, ofs, cerr ++ [Item.str "Cannot read reference format!", Item.str "\n"]⟩
    | some _ =>
      let self2 := { self1 with rfs := ifstream_open W self1.rfs f }
      if self2.rfs.fail then
        ⟨false, self2, ofs, cerr ++ [Item.str "Cannot read reference file!", Item.str "\n"]⟩
      else
        ⟨true, self2,
          ofs ++ [Item.str "**Generating Confab Report ", Item.str "\n",
                  Item.str "..Reference file = ", Item.str f, Item.str "\n",
                  Item.str "..Conformer file = ", Item.str pConv.InFilename, Item.str "\n\n"],
          cerr⟩

/-- Lines 178 and 203: `ofs << "..number of confs = " << rmsd.size() << "\n"`. -/
def numConfsLine (n : Nat) : List Item :=
  [Item.str "..number of confs = ", Item.uint n, Item.str "\n"]

/-- Lines 184-186: the report for a reference entry without conformers. -/
def zeroConfReport (n : Nat) (title : String) : List Item :=
  [Item.str "..Molecule ", Item.uint n, Item.str "\n..title = ", Item.str title,
    Item.str "\n..number of confs = 0\n"]

/-- Line 192: the header of a molecule group. -/
def moleculeHeader (n : Nat) (title : String) : List Item :=
  [Item.str "..Molecule ", Item.uint n, Item.str "\n..title = ", Item.str title, Item.str "\n"]

/-- Lines 205-206: the summary block. -/
def summaryBlock (self : ConfabReport) : List Item :=
  [Item.str "\n**Summary\n..number of molecules = ", Item.uint self.N,
    Item.str "\n..less than cutoff(", Item.dbl self.rmsd_cutoff, Item.str ") = ",
    Item.uint self.cutoff_passed, Item.str "\n"]

set_option linter.unusedVariables false in
/-- The loop `while (rmol.GetTitle() != title) { ... }` (lines 183-190): report
the entry just read as a molecule without conformers and read the next one.
The `Bool` is `false` when the loop is left by `return false`. -/
def skipLoop (title : String) (self : ConfabReport) (ofs : List Item) :
    Bool × ConfabReport × List Item :=
  if self.rmol.title ≠ title then
    let ofs1 := ofs ++ zeroConfReport self.N self.rmol.title
    let r := Read { self with N := uincr self.N }
    if h : r.1 = true then skipLoop title r.2 ofs1 else (false, r.2, ofs1)
  else (true, self, ofs)
termination_by self.rfs.pending.length
decreasing_by
  simp only [r] at h ⊢
  unfold Read at h ⊢
  split
  · next hp =>
    rw [hp] at h
    simp at h
  · next m rest hp =>
    simp only [] at hp
    simp [hp]

/-- The block `if (oldtitle != title) { ... }` (lines 175-194).  The `Bool` is
`false` when the block is left by `return false`. -/
def titleChange (self : ConfabReport) (title : String) (firstMol : Bool)
    (ofs : List Item) : Option (Bool × ConfabReport × List Item) :=
  let ofs1 := if !firstMol then ofs ++ numConfsLine self.rmsd.length else ofs
  match WriteOutput self ofs1 with
  | none => none
  | some (self1, ofs2) =>
    match Read self1 with
    | (false, self2) => some (false, self2, ofs2)
    | (true, self2) =>
      match skipLoop title { self2 with N := uincr self2.N } ofs2 with
      | (false, self3, ofs3) => some (false, self3, ofs3)
      | (true, self3, ofs3) =>
        some (true, { self3 with align_ref := self3.rmol, rmsd := [] },
          ofs3 ++ moleculeHeader self3.N self3.rmol.title)

/-- Lines 196-209: align the conformer, record its RMSD, remember its title
and, on the last conformer, close the group and write the summary. -/
def alignAndFinish (W : World) (self : ConfabReport) (pmol : OBMol) (title : String)
    (isLast : Bool) (ofs : List Item) : Option (ConfabReport × List Item) :=
  let self1 := { self with rmsd := self.rmsd ++ [W.Align self.align_ref pmol],
                           oldtitle := title }
  if isLast then
    match WriteOutput self1 (ofs ++ numConfsLine self1.rmsd.length) with
    | none => none
    | some (self2, ofs1) => some (self2, ofs1 ++ summaryBlock self2)
  else some (self1, ofs)

/-- Lines 174-209: everything after the `firstMol` block. -/
def processConformer (W : World) (self : ConfabReport) (pmol : OBMol) (firstMol isLast : Bool)
    (ofs cerr : List Item) : Option Ret :=
  let title := pmol.title
  if self.oldtitle ≠ title then
    match titleChange self title firstMol ofs with
    | none => none
    | some (false, self1, ofs1) => some ⟨false, self1, ofs1, cerr⟩
    | some (true, self1, ofs1) =>
      (alignAndFinish W self1 pmol title isLast ofs1).map
        (fun r => ⟨true, r.1, r.2, cerr⟩)
  else
    (alignAndFinish W self pmol title isLast ofs).map (fun r => ⟨true, r.1, r.2, cerr⟩)

/-- Lines 145-172: `firstMol` and the block `if(firstMol) { ... }`.  For a
conformer that is not the first, nothing happens. -/
def firstMolBlock (W : World) (self : ConfabReport) (pConv : OBConversion)
    (ofs cerr : List Item) : Ret :=
  if pConv.OutputIndex == 1 then openReference W self pConv ofs cerr
  else ⟨true, self, ofs, cerr⟩

/-- The method `ConfabReport::WriteMolecule` (lines 138-210). -/
def WriteMolecule (W : World) (self : ConfabReport) (pOb : OBBase) (pConv : OBConversion)
    (ofs cerr : List Item) : Option Ret :=
  match pOb with
  | OBBase.other => some ⟨false, self, ofs, cerr⟩
  | OBBase.mol pmol =>
    let r := firstMolBlock W self pConv ofs cerr
    if r.ret then
      processConformer W r.self pmol (pConv.OutputIndex == 1) pConv.IsLast r.ofs r.cerr
    else some r

/-- Modelled from the spec: the driver of a report run (section 6), which is
not part of the shown source.  It hands the conformers to `WriteMolecule` in
order, numbering them from `idx` (the output index, 1 for the first conformer of
a run), flags the final one as last, and stops at the first call that returns
`false`. -/
def Convert (W : World) (opt_f opt_r : Option String) (inFilename : String) :
    List OBMol → Nat → ConfabReport → List Item → List Item → Option Ret
  | [], _, self, ofs, cerr => some ⟨true, self, ofs, cerr⟩
  | m :: rest, idx, self, ofs, cerr =>
    match WriteMolecule W self (OBBase.mol m)
        ⟨idx, opt_f, opt_r, inFilename, rest.isEmpty⟩ ofs cerr with
    | none => none
    | some r => if r.ret then Convert W opt_f opt_r inFilename rest (idx + 1) r.self r.ofs r.cerr
                else some r

/-- A run after the block for the first conformer: `processConformer` for each
conformer in order, `firstMol` being set for the first one only, up to the
first call that returns `false`.  `Convert` is this after `firstMolBlock`
(theorems `Convert_first` and `Convert_later`). -/
def runBody (W : World) :
    List OBMol → Bool → ConfabReport → List Item → List Item → Option Ret
  | [], _, self, ofs, cerr => some ⟨true, self, ofs, cerr⟩
  | c :: rest, firstMol, self, ofs, cerr =>
    match processConformer W self c firstMol rest.isEmpty ofs cerr with
    | none => none
    | some r => if r.ret then runBody W rest false r.self r.ofs r.cerr else some r

/-- Lines 202-207 for an object whose RMSD list already holds the last
conformer: the count of conformers, the closing report and the summary. -/
def closeRun (self : ConfabReport) (ofs cerr : List Item) : Option Ret :=
  match WriteOutput self (ofs ++ numConfsLine self.rmsd.length) with
  | none => none
  | some (self2, ofs1) => some ⟨true, self2, ofs1 ++ summaryBlock self2, cerr⟩

/-! ## Definitions used to state the properties -/

/-- The index of the first threshold of `bv` that is at least `x` (the length of
`bv` when there is none). -/
def binOf (bv : List ℚ) (x : ℚ) : Nat := bv.findIdx (fun t => decide (x ≤ t))

/-- Spec section 4.1, `AdvanceTo(title)`: read the source forward to the first
entry with the requested title.  The result is the entries skipped on the way,
the entry found, and the rest of the source; `none` when the source is
exhausted first. -/
def AdvanceTo (title : String) : List OBMol → Option (List OBMol × OBMol × List OBMol)
  | [] => none
  | e :: es =>
    if e.title = title then some ([], e, es)
    else (AdvanceTo title es).map (fun r => (e :: r.1, r.2.1, r.2.2))

/-- The molecule groups of a conformer stream: a conformer together with the
conformers that follow it directly and carry the same title. -/
def groupsByTitle : List OBMol → List (List OBMol)
  | [] => []
  | c :: rest =>
    (c :: rest.takeWhile (fun d => d.title == c.title))
      :: groupsByTitle (rest.dropWhile (fun d => d.title == c.title))
termination_by l => l.length
decreasing_by
  simp only [List.length_cons]
  exact Nat.lt_succ_of_le (List.dropWhile_sublist _).length_le

/-- The titles of the molecule groups of a conformer stream, in order. -/
def groupTitles (confs : List OBMol) : List String :=
  (groupsByTitle confs).map (fun g => (g.head?.map (fun c => c.title)).getD "")

/-- What a run does for one molecule group: the reference entries skipped
before its reference was found, its reference, and the RMSD values of its
conformers against that reference. -/
structure GroupPlan where
  skipped : List OBMol
  reference : OBMol
  rmsd : List ℚ
  deriving DecidableEq, Repr

/-- The groups of a run, in order, with the reference cursor of spec section
4.1.  `title` and `ref` are the title and the reference in force before the
first group; a group with another title advances the cursor (every group but
possibly the first does: neighbouring groups differ in title). -/
def planFrom (W : World) : String → OBMol → List OBMol → List (List OBMol) →
    Option (List GroupPlan)
  | _, _, _, [] => some []
  | title, ref, src, g :: gs =>
    let t := (g.head?.map (fun c => c.title)).getD ""
    if t = title then
      (planFrom W t ref src gs).map (fun p => ⟨[], ref, g.map (W.Align ref)⟩ :: p)
    else
      match AdvanceTo t src with
      | none => none
      | some (sk, m, rest) =>
        (planFrom W t m rest gs).map (fun p => ⟨sk, m, g.map (W.Align m)⟩ :: p)

/-- Whether the minimum of a group of RMSD values is at most the cutoff. -/
def minWithin (cutoff : ℚ) (rmsd : List ℚ) : Bool :=
  match rmsd.min? with
  | some m => decide (m ≤ cutoff)
  | none => false

/-- The flat report text for reference entries that are skipped, numbered from
`n` on with the 32-bit molecule counter. -/
def zeroConfReports : Nat → List OBMol → List Item
  | _, [] => []
  | n, e :: es => zeroConfReport n e.title ++ zeroConfReports (uincr n) es

/-- A group of three RMSD values, one of them equal to the threshold 0.5. -/
def exampleGroup : ConfabReport :=
  { ConfabReport.ConfabReport with rmsd := [7 / 10, 1 / 2, 3 / 10] }

/-- A world with one reference file, `ref.sdf`, holding entries titled `A`, `C`
and `B`; the RMSD of a conformer is a tenth of the sum of the two `geom`
values. -/
def exampleWorld : World where
  FormatFromExt := fun _ => some 0
  files := fun f => if f = "ref.sdf" then some [⟨"A", 1⟩, ⟨"C", 5⟩, ⟨"B", 2⟩] else none
  Align := fun r t => ((r.geom + t.geom : Nat) : ℚ) / 10

/-- The object in the middle of a run over `exampleWorld`: two conformers of
`A` have been processed, the entries `C` and `B` are still to be read. -/
def exampleMidRun : ConfabReport where
  rfs := ⟨true, false, [⟨"C", 5⟩, ⟨"B", 2⟩]⟩
  rfilename := some "ref.sdf"
  rmol := ⟨"A", 1⟩
  align_ref := ⟨"A", 1⟩
  cutoff_passed := 0
  N := 1
  oldtitle := "A"
  rmsd := [3 / 10, 7 / 10]
  rmsd_cutoff := 1 / 2

/-- The conversion options of a call that is neither first nor last. -/
def exampleConv : OBConversion := ⟨3, some "ref.sdf", none, "confs.sdf", false⟩

/-- The conversion options of a first call without option `f`. -/
def exampleConvNoRef : OBConversion := ⟨1, none, none, "confs.sdf", false⟩

/-- A group with a value above the last threshold 100.0. -/
def exampleOutOfRange : ConfabReport :=
  { ConfabReport.ConfabReport with rmsd := [3 / 10, 150] }

/-- A world whose reference file starts with an entry that has the empty
title. -/
def exampleWorldUntitled : World where
  FormatFromExt := fun _ => some 0
  files := fun f => if f = "ref.sdf" then some [⟨"", 9⟩, ⟨"A", 1⟩] else none
  Align := fun r t => ((r.geom + t.geom : Nat) : ℚ) / 10

/-- The conformers of the example run: two of `A`, one of `B`. -/
def exampleConfs : List OBMol := [⟨"A", 2⟩, ⟨"A", 6⟩, ⟨"B", 3⟩]

/-- The outcome of the example run over `exampleWorld`: `A` has the RMSD values
0.3 and 0.7, the entry `C` is skipped, `B` has the RMSD value 0.5. -/
def exampleRunResult : Ret where
  ret := true
  self :=
    { rfs := ⟨true, false, []⟩, rfilename := some "ref.sdf", rmol := ⟨"B", 2⟩,
      align_ref := ⟨"B", 2⟩, cutoff_passed := 2, N := 3, oldtitle := "B", rmsd := [1 / 2],
      rmsd_cutoff := 1 / 2 }
  ofs :=
    [Item.str "**Generating Confab Report ", Item.str "\n",
      Item.str "..Reference file = ", Item.str "ref.sdf", Item.str "\n",
      Item.str "..Conformer file = ", Item.str "confs.sdf", Item.str "\n\n"]
      ++ moleculeHeader 1 "A" ++ numConfsLine 2
      ++ [Item.str "..minimum rmsd = ", Item.dbl (3 / 10), Item.str "\n"]
      ++ cutoffsLine binvals ++ countsLine [0, 1, 2, 2, 2, 2, 2, 2]
      ++ [Item.str "..cutoff (", Item.dbl (1 / 2), Item.str ") passed = ", Item.str " Yes\n",
          Item.str "\n"]
      ++ zeroConfReport 2 "C"
      ++ moleculeHeader 3 "B" ++ numConfsLine 1
      ++ [Item.str "..minimum rmsd = ", Item.dbl (1 / 2), Item.str "\n"]
      ++ cutoffsLine binvals ++ countsLine [0, 1, 1, 1, 1, 1, 1, 1]
      ++ [Item.str "..cutoff (", Item.dbl (1 / 2), Item.str ") passed = ", Item.str " Yes\n",
          Item.str "\n",
          Item.str "\n**Summary\n..number of molecules = ", Item.uint 3,
          Item.str "\n..less than cutoff(", Item.dbl (1 / 2), Item.str ") = ", Item.uint 2,
          Item.str "\n"]
  cerr := []

/-- A world whose reference file holds the entries `A`, `B` and `A` again. -/
def exampleWorldABA : World where
  FormatFromExt := fun _ => some 0
  files := fun f => if f = "ref.sdf" then some [⟨"A", 1⟩, ⟨"B", 2⟩, ⟨"A", 3⟩] else none
  Align := fun r t => ((r.geom + t.geom : Nat) : ℚ) / 10

/-- A conformer stream in which the title `A` comes back after `B`. -/
def exampleConfsABA : List OBMol := [⟨"A", 2⟩, ⟨"B", 3⟩, ⟨"A", 4⟩]

/-- The object of the run over `exampleWorldABA` after the `k`-th conformer
(`k` from 1 to 3). -/
def exampleStateABA : Nat → ConfabReport
  | 0 => ConfabReport.ConfabReport
  | 1 =>
    { rfs := ⟨true, false, [⟨"B", 2⟩, ⟨"A", 3⟩]⟩, rfilename := some "ref.sdf", rmol := ⟨"A", 1⟩,
      align_ref := ⟨"A", 1⟩, cutoff_passed := 0, N := 1, oldtitle := "A", rmsd := [3 / 10],
      rmsd_cutoff := 1 / 2 }
  | 2 =>
    { rfs := ⟨true, false, [⟨"A", 3⟩]⟩, rfilename := some "ref.sdf", rmol := ⟨"B", 2⟩,
      align_ref := ⟨"B", 2⟩, cutoff_passed := 1, N := 2, oldtitle := "B", rmsd := [1 / 2],
      rmsd_cutoff := 1 / 2 }
  | _ =>
    { rfs := ⟨true, false, []⟩, rfilename := some "ref.sdf", rmol := ⟨"A", 3⟩,
      align_ref := ⟨"A", 3⟩, cutoff_passed := 2, N := 3, oldtitle := "A", rmsd := [7 / 10],
      rmsd_cutoff := 1 / 2 }

/-! ## Definitions for the report of a complete run -/

/-- The world of the scenario of spec section 8: the reference file `ref.sdf`
holds the entries `A` and `B`; the RMSD of a conformer is a tenth of the sum of
the two `geom` values. -/
def scenarioWorld : World where
  FormatFromExt := fun _ => some 0
  files := fun f => if f = "ref.sdf" then some [⟨"A", 1⟩, ⟨"B", 0⟩] else none
  Align := fun r t => ((r.geom + t.geom : Nat) : ℚ) / 10

/-- The conformer stream of the scenario: two conformers of `A` (RMSD 0.3 and
0.7 against the entry `A`) and one of `B` (RMSD 0.1 against the entry `B`). -/
def scenarioConfs : List OBMol := [⟨"A", 2⟩, ⟨"A", 6⟩, ⟨"B", 1⟩]

/-- The object of the scenario run after the `k`-th conformer (`k` from 1 to
3). -/
def scenarioState : Nat → ConfabReport
  | 0 => ConfabReport.ConfabReport
  | 1 =>
    { rfs := ⟨true, false, [⟨"B", 0⟩]⟩, rfilename := some "ref.sdf", rmol := ⟨"A", 1⟩,
      align_ref := ⟨"A", 1⟩, cutoff_passed := 0, N := 1, oldtitle := "A", rmsd := [3 / 10],
      rmsd_cutoff := 1 / 2 }
  | 2 =>
    { rfs := ⟨true, false, [⟨"B", 0⟩]⟩, rfilename := some "ref.sdf", rmol := ⟨"A", 1⟩,
      align_ref := ⟨"A", 1⟩, cutoff_passed := 0, N := 1, oldtitle := "A",
      rmsd := [3 / 10, 7 / 10], rmsd_cutoff := 1 / 2 }
  | _ =>
    { rfs := ⟨true, false, []⟩, rfilename := some "ref.sdf", rmol := ⟨"B", 0⟩,
      align_ref := ⟨"B", 0⟩, cutoff_passed := 2, N := 2, oldtitle := "B", rmsd := [1 / 10],
      rmsd_cutoff := 1 / 2 }

/-- Lines 167-169: the header of a report. -/
def fileHeader (rfilename inFilename : String) : List Item :=
  [Item.str "**Generating Confab Report ", Item.str "\n",
    Item.str "..Reference file = ", Item.str rfilename, Item.str "\n",
    Item.str "..Conformer file = ", Item.str inFilename, Item.str "\n\n"]

/-- The report of the scenario run, item by item. -/
def scenarioReport : List Item :=
  [Item.str "**Generating Confab Report ", Item.str "\n",
    Item.str "..Reference file = ", Item.str "ref.sdf", Item.str "\n",
    Item.str "..Conformer file = ", Item.str "confs.sdf", Item.str "\n\n",
    Item.str "..Molecule ", Item.uint 1, Item.str "\n..title = ", Item.str "A", Item.str "\n",
    Item.str "..number of confs = ", Item.uint 2, Item.str "\n",
    Item.str "..minimum rmsd = ", Item.dbl (3 / 10), Item.str "\n"]
    ++ cutoffsLine binvals
    ++ [Item.str "..", Item.int 0, Item.str " ", Item.int 1, Item.str " ", Item.int 2,
        Item.str " ", Item.int 2, Item.str " ", Item.int 2, Item.str " ", Item.int 2,
        Item.str " ", Item.int 2, Item.str " ", Item.int 2, Item.str "\n",
        Item.str "..cutoff (", Item.dbl (1 / 2), Item.str ") passed = ", Item.str " Yes\n",
        Item.str "\n",
        Item.str "..Molecule ", Item.uint 2, Item.str "\n..title = ", Item.str "B",
        Item.str "\n",
        Item.str "..number of confs = ", Item.uint 1, Item.str "\n",
        Item.str "..minimum rmsd = ", Item.dbl (1 / 10), Item.str "\n"]
    ++ cutoffsLine binvals
    ++ [Item.str "..", Item.int 1, Item.str " ", Item.int 1, Item.str " ", Item.int 1,
        Item.str " ", Item.int 1, Item.str " ", Item.int 1, Item.str " ", Item.int 1,
        Item.str " ", Item.int 1, Item.str " ", Item.int 1, Item.str "\n",
        Item.str "..cutoff (", Item.dbl (1 / 2), Item.str ") passed = ", Item.str " Yes\n",
        Item.str "\n",
        Item.str "\n**Summary\n..number of molecules = ", Item.uint 2,
        Item.str "\n..less than cutoff(", Item.dbl (1 / 2), Item.str ") = ", Item.uint 2,
        Item.str "\n"]

/-- The object in the middle of a title change over `exampleWorld`: the group
`A` has been closed, the entry `C` has been read and counted, the entry `B` is
still to be read. -/
def exampleAfterRead : ConfabReport :=
  { exampleMidRun with rfs := ⟨true, false, [⟨"B", 2⟩]⟩, rmol := ⟨"C", 5⟩, N := 2,
                       cutoff_passed := 1 }

/-- The closing report of a group with the RMSD values `rmsd`, as the spec
describes it (section 4.2): nothing for an empty group; otherwise the minimum,
the thresholds, under each threshold the number of values that are at most the
threshold, and the pass/fail line for the minimum. -/
def closingReport (cutoff : ℚ) (rmsd : List ℚ) : List Item :=
  match rmsd.min? with
  | none => []
  | some m =>
    [Item.str "..minimum rmsd = ", Item.dbl m, Item.str "\n"] ++ cutoffsLine binvals
      ++ countsLine (binvals.map (fun t => (rmsd.countP (fun x => decide (x ≤ t)) : Int)))
      ++ passedLine m cutoff

/-- The bin indices of the loop of lines 106-110, in order: for each value the
running index after `while (*it > binvals[bin_idx]) bin_idx++;`, which is the
index whose counter line 109 increments.  It is `binLoop` with the index
recorded instead of the counter incremented. -/
def binTrace (bv : List ℚ) : List ℚ → Nat → Option (List Nat)
  | [], _ => some []
  | x :: rest, bin_idx =>
    match advance bv x bin_idx with
    | none => none
    | some j => (binTrace bv rest j).map (fun t => j :: t)

/-- The outcome of the run over `exampleWorldUntitled` whose only conformer has
the empty title: no reference entry is read, no molecule is counted, and the
group of the conformer is closed and counted as passed. -/
def exampleUntitledResult : Ret where
  ret := true
  self :=
    { rfs := ⟨true, false, [⟨"", 9⟩, ⟨"A", 1⟩]⟩, rfilename := some "ref.sdf",
      rmol := OBMol.empty, align_ref := OBMol.empty, cutoff_passed := 1, N := 0,
      oldtitle := "", rmsd := [3 / 10], rmsd_cutoff := 1 / 2 }
  ofs :=
    [Item.str "**Generating Confab Report ", Item.str "\n",
      Item.str "..Reference file = ", Item.str "ref.sdf", Item.str "\n",
      Item.str "..Conformer file = ", Item.str "confs.sdf", Item.str "\n\n",
      Item.str "..number of confs = ", Item.uint 1, Item.str "\n",
      Item.str "..minimum rmsd = ", Item.dbl (3 / 10), Item.str "\n"]
      ++ cutoffsLine binvals
      ++ [Item.str "..", Item.int 0, Item.str " ", Item.int 1, Item.str " ", Item.int 1,
          Item.str " ", Item.int 1, Item.str " ", Item.int 1, Item.str " ", Item.int 1,
          Item.str " ", Item.int 1, Item.str " ", Item.int 1, Item.str "\n",
          Item.str "..cutoff (", Item.dbl (1 / 2), Item.str ") passed = ", Item.str " Yes\n",
          Item.str "\n",
          Item.str "\n**Summary\n..number of molecules = ", Item.uint 0,
          Item.str "\n..less than cutoff(", Item.dbl (1 / 2), Item.str ") = ", Item.uint 1,
          Item.str "\n"]
  cerr := []

/-- The report text of the molecule groups of a run, group after group, as the
spec lays it out (section 6): for each group the reports of the reference
entries skipped before it and its header, then the count of its conformers and
its closing report.  `title` is the title in force before the first group and
`n` the molecule counter there; a group whose reference carries the title in
force has no header and reads no reference entry. -/
def runReport (cutoff : ℚ) : String → Nat → List GroupPlan → List Item
  | _, _, [] => []
  | title, n, p :: ps =>
    if p.reference.title = title then
      numConfsLine p.rmsd.length ++ closingReport cutoff p.rmsd
        ++ runReport cutoff title n ps
    else
      zeroConfReports (uincr n) p.skipped
        ++ moleculeHeader (uincr^[p.skipped.length + 1] n) p.reference.title
        ++ numConfsLine p.rmsd.length ++ closingReport cutoff p.rmsd
        ++ runReport cutoff p.reference.title (uincr^[p.skipped.length + 1] n) ps

/-- Whether every group of a plan has a reference with a title other than the
title in force before it, so that every group has a header. -/
def allHeaded : String → List GroupPlan → Bool
  | _, [] => true
  | title, p :: ps => decide (p.reference.title ≠ title) && allHeaded p.reference.title ps

/-- The molecule numbers printed in a report, in order: the numbers that
follow the label `..Molecule `. -/
def moleculeNumbers : List Item → List Nat
  | Item.str s :: Item.uint n :: rest =>
    if s = "..Molecule " then n :: moleculeNumbers rest else moleculeNumbers rest
  | _ :: rest => moleculeNumbers rest
  | [] => []

/-- The number of reference entries a plan reads: one for each group and one
for each entry skipped. -/
def entriesRead (plan : List GroupPlan) : Nat :=
  plan.length + (plan.map (fun p => p.skipped.length)).sum

/-- The conversion options of the last call of the example run. -/
def exampleConvLast : OBConversion := ⟨3, some "ref.sdf", none, "confs.sdf", true⟩

/-! ## The binning loop -/

theorem binOf_le (bv : List ℚ) (x : ℚ) (h : binOf bv x < bv.length) :
    x ≤ bv[binOf bv x] := by
  have h1 := @List.findIdx_getElem _ (fun t => decide (x ≤ t)) bv h
  simpa using h1

theorem lt_of_lt_binOf (bv : List ℚ) (x : ℚ) (k : Nat) (hk : k < binOf bv x)
    (hlen : k < bv.length) : bv[k] < x := by
  have h1 := @List.not_of_lt_findIdx _ (fun t => decide (x ≤ t)) bv k hk
  simpa using h1

theorem binOf_le_of_le (bv : List ℚ) (x : ℚ) (k : Nat) (hlen : k < bv.length)
    (hx : x ≤ bv[k]) : binOf bv x ≤ k := by
  by_contra hcon
  have h1 := lt_of_lt_binOf bv x k (by omega) hlen
  exact absurd hx (not_le.mpr h1)

theorem binOf_mono (bv : List ℚ) (x y : ℚ) (hxy : x ≤ y) (hy : binOf bv y < bv.length) :
    binOf bv x ≤ binOf bv y :=
  binOf_le_of_le bv x _ hy (le_trans hxy (binOf_le bv y hy))

theorem advance_eq_binOf (bv : List ℚ) (x : ℚ) (n i : Nat) (hn : binOf bv x - i = n)
    (hi : i ≤ binOf bv x) (hb : binOf bv x < bv.length) :
    advance bv x i = some (binOf bv x) := by
  induction n generalizing i with
  | zero =>
    have hib : i = binOf bv x := by omega
    have hle := binOf_le bv x hb
    rw [advance, dif_pos (by omega), if_neg]
    · rw [hib]
    · simp only [hib]
      exact not_lt.mpr hle
  | succ n ih =>
    have hlt : i < binOf bv x := by omega
    have hgt := lt_of_lt_binOf bv x i hlt (by omega)
    rw [advance, dif_pos (by omega), if_pos hgt]
    exact ih (i + 1) (by omega) (by omega)

theorem advance_eq_none (bv : List ℚ) (x : ℚ) (n i : Nat) (hn : bv.length - i = n)
    (hall : ∀ k (hk : k < bv.length), i ≤ k → bv[k] < x) :
    advance bv x i = none := by
  induction n generalizing i with
  | zero => rw [advance, dif_neg (by omega)]
  | succ n ih =>
    have hi : i < bv.length := by omega
    rw [advance, dif_pos hi, if_pos (hall i hi (le_refl i))]
    exact ih (i + 1) (by omega) (fun k hk hik => hall k hk (by omega))

theorem iadd_one (c : Int) (h0 : 0 ≤ c) (h1 : c + 1 < 2 ^ 31) : iadd c 1 = some (c + 1) := by
  unfold iadd
  rw [if_pos]
  constructor
  · have : (0 : Int) ≤ 2 ^ 31 := by norm_num
    omega
  · exact h1

/-- The loop on a sorted list counts every value in the bin `binOf` names. -/
theorem binLoop_spec (bv : List ℚ) (l : List ℚ) (i : Nat) (bins : List Int)
    (hsorted : l.Sorted (· ≤ ·))
    (hbin : ∀ x ∈ l, i ≤ binOf bv x ∧ binOf bv x < bv.length)
    (hlen : bins.length = bv.length)
    (hnonneg : ∀ c ∈ bins, 0 ≤ c ∧ c + l.length < 2 ^ 31) :
    ∃ i1 bins1, binLoop bv l i bins = some (i1, bins1) ∧ bins1.length = bv.length ∧
      ∀ j (hj : j < bins.length), bins1[j]? = some (bins[j] + l.countP (fun x => decide (binOf bv x = j))) := by
  induction l generalizing i bins with
  | nil =>
    refine ⟨i, bins, rfl, hlen, ?_⟩
    intro j hj
    simp [List.getElem?_eq_getElem hj]
  | cons x rest ih =>
    obtain ⟨hix, hxb⟩ := hbin x (List.mem_cons_self _ _)
    have hs := List.sorted_cons.mp hsorted
    have hadv := advance_eq_binOf bv x _ i rfl hix hxb
    have hjb : binOf bv x < bins.length := by omega
    obtain ⟨hc0, hc1⟩ := hnonneg bins[binOf bv x] (List.getElem_mem hjb)
    simp only [List.length_cons, Nat.cast_add, Nat.cast_one] at hc1
    have hadd := iadd_one bins[binOf bv x] hc0 (by omega)
    obtain ⟨i1, bins1, hrun, hlen1, hget⟩ :=
      ih (binOf bv x) (bins.set (binOf bv x) (bins[binOf bv x] + 1)) hs.2
        (fun y hy => ⟨binOf_mono bv x y (hs.1 y hy) (hbin y (List.mem_cons_of_mem _ hy)).2,
          (hbin y (List.mem_cons_of_mem _ hy)).2⟩)
        (by simpa using hlen)
        (by
          intro c hc
          rcases List.mem_or_eq_of_mem_set hc with hmem | heq
          · have := hnonneg c hmem
            simp only [List.length_cons, Nat.cast_add, Nat.cast_one] at this
            omega
          · subst heq
            omega)
    refine ⟨i1, bins1, ?_, hlen1, ?_⟩
    · rw [binLoop, hadv]
      simp only [List.getElem?_eq_getElem hjb, hadd]
      exact hrun
    · intro j hj
      have h1 := hget j (by simpa using hj)
      rw [h1, List.getElem_set, List.countP_cons]
      congr 1
      by_cases hjx : binOf bv x = j
      · subst hjx
        simp
        ring
      · simp [hjx]

theorem iadd_eq (a b : Int) (h0 : -(2 : Int) ^ 31 ≤ a + b) (h1 : a + b < 2 ^ 31) :
    iadd a b = some (a + b) := by
  unfold iadd
  rw [if_pos ⟨h0, h1⟩]

theorem cumulate_eq (c0 c1 c2 c3 c4 c5 c6 c7 : Int)
    (h0 : 0 ≤ c0) (h1 : 0 ≤ c1) (h2 : 0 ≤ c2) (h3 : 0 ≤ c3) (h4 : 0 ≤ c4) (h5 : 0 ≤ c5)
    (h6 : 0 ≤ c6) (h7 : 0 ≤ c7) (hsum : c0 + c1 + c2 + c3 + c4 + c5 + c6 + c7 < 2 ^ 31) :
    cumulate [c0, c1, c2, c3, c4, c5, c6, c7] =
      some [c0, c1 + c0, c2 + (c1 + c0), c3 + (c2 + (c1 + c0)), c4 + (c3 + (c2 + (c1 + c0))),
        c5 + (c4 + (c3 + (c2 + (c1 + c0)))), c6 + (c5 + (c4 + (c3 + (c2 + (c1 + c0))))),
        c7 + (c6 + (c5 + (c4 + (c3 + (c2 + (c1 + c0))))))] := by
  have e1 := iadd_eq c1 c0 (by omega) (by omega)
  have e2 := iadd_eq c2 (c1 + c0) (by omega) (by omega)
  have e3 := iadd_eq c3 (c2 + (c1 + c0)) (by omega) (by omega)
  have e4 := iadd_eq c4 (c3 + (c2 + (c1 + c0))) (by omega) (by omega)
  have e5 := iadd_eq c5 (c4 + (c3 + (c2 + (c1 + c0)))) (by omega) (by omega)
  have e6 := iadd_eq c6 (c5 + (c4 + (c3 + (c2 + (c1 + c0))))) (by omega) (by omega)
  have e7 := iadd_eq c7 (c6 + (c5 + (c4 + (c3 + (c2 + (c1 + c0)))))) (by omega) (by omega)
  simp [cumulate, List.range', cumStep, e1, e2, e3, e4, e5, e6, e7]

theorem binvals_length : binvals.length = 8 := rfl

theorem binvals_sorted : binvals.Sorted (· < ·) := by
  norm_num [binvals, binvals_arr, List.Sorted]

theorem getElem_lt_of_sorted (bv : List ℚ) (hs : bv.Sorted (· < ·)) (i j : Nat)
    (hj : j < bv.length) (hij : i < j) : bv[i] < bv[j] :=
  List.pairwise_iff_getElem.mp hs i j (by omega) hj hij

theorem getElem_le_of_sorted (bv : List ℚ) (hs : bv.Sorted (· < ·)) (i j : Nat)
    (hj : j < bv.length) (hij : i ≤ j) : bv[i] ≤ bv[j] := by
  rcases Nat.lt_or_eq_of_le hij with h | h
  · exact le_of_lt (getElem_lt_of_sorted bv hs i j hj h)
  · subst h
    exact le_refl _

theorem binOf_le_iff (bv : List ℚ) (hs : bv.Sorted (· < ·)) (x : ℚ) (i : Nat)
    (hi : i < bv.length) : binOf bv x ≤ i ↔ x ≤ bv[i] := by
  constructor
  · intro h
    exact le_trans (binOf_le bv x (by omega)) (getElem_le_of_sorted bv hs _ i hi h)
  · exact binOf_le_of_le bv x i hi

theorem binOf_eq_iff (bv : List ℚ) (hs : bv.Sorted (· < ·)) (x : ℚ) (j : Nat)
    (hj : j < bv.length) :
    binOf bv x = j ↔ (x ≤ bv[j] ∧ ∀ u ∈ bv, x ≤ u → bv[j] ≤ u) := by
  constructor
  · intro h
    subst h
    refine ⟨binOf_le bv x hj, ?_⟩
    intro u hu hxu
    obtain ⟨k, hk, rfl⟩ := List.getElem_of_mem hu
    exact getElem_le_of_sorted bv hs _ k hk (binOf_le_of_le bv x k hk hxu)
  · rintro ⟨hle, hmin⟩
    have h1 : binOf bv x ≤ j := binOf_le_of_le bv x j hj hle
    rcases Nat.lt_or_eq_of_le h1 with h | h
    · have h2 := hmin bv[binOf bv x] (List.getElem_mem (by omega)) (binOf_le bv x (by omega))
      have h3 := getElem_lt_of_sorted bv hs _ j hj h
      exact absurd h2 (not_le.mpr h3)
    · exact h

theorem countP_le_succ (f : ℚ → Nat) (l : List ℚ) (i : Nat) :
    l.countP (fun x => decide (f x ≤ i + 1)) =
      l.countP (fun x => decide (f x = i + 1)) + l.countP (fun x => decide (f x ≤ i)) := by
  induction l with
  | nil => rfl
  | cons x rest ih =>
    simp only [List.countP_cons, ih]
    by_cases h1 : f x ≤ i
    · have h2 : f x ≤ i + 1 := by omega
      have h3 : ¬ f x = i + 1 := by omega
      simp [h1, h2, h3]
      omega
    · by_cases h3 : f x = i + 1
      · have h2 : f x ≤ i + 1 := by omega
        simp [h1, h2, h3]
        omega
      · have h2 : ¬ f x ≤ i + 1 := by omega
        simp [h1, h2, h3]

theorem countP_le_zero (f : ℚ → Nat) (l : List ℚ) :
    l.countP (fun x => decide (f x ≤ 0)) = l.countP (fun x => decide (f x = 0)) := by
  apply List.countP_congr
  intro x _
  simp

/-- The counters after the loop, for a sorted list within the last threshold. -/
theorem binCounts_sorted (l : List ℚ) (hsorted : l.Sorted (· ≤ ·))
    (hle : ∀ x ∈ l, x ≤ 100) (hlen : l.length < 2 ^ 31) :
    binCounts binvals l =
      some ((List.range 8).map (fun j => (l.countP (fun x => decide (binOf binvals x = j)) : Int))) := by
  have hb : ∀ x ∈ l, 0 ≤ binOf binvals x ∧ binOf binvals x < binvals.length := by
    intro x hx
    refine ⟨Nat.zero_le _, ?_⟩
    have h7 : binOf binvals x ≤ 7 :=
      binOf_le_of_le binvals x 7 (by decide) (by simpa [binvals, binvals_arr] using hle x hx)
    rw [binvals_length]
    omega
  obtain ⟨i1, bins1, hrun, hlen1, hget⟩ :=
    binLoop_spec binvals l 0 (List.replicate binvals.length 0) hsorted hb (by simp)
      (by
        intro c hc
        have hc0 : c = 0 := (List.mem_replicate.mp hc).2
        subst hc0
        have : (l.length : Int) < 2 ^ 31 := by exact_mod_cast hlen
        constructor <;> omega)
  unfold binCounts
  rw [hrun]
  simp only [Option.map_some']
  congr 1
  apply List.ext_getElem
  · simp [hlen1, binvals_length]
  · intro j h1 h2
    have hj : j < 8 := by simpa using h2
    have h3 := hget j (by simpa [binvals_length] using hj)
    rw [List.getElem?_eq_getElem h1] at h3
    simp only [Option.some.injEq] at h3
    rw [h3]
    simp

/-- The eight cumulative counters on a sorted list within the last threshold. -/
theorem cumulate_sorted (l : List ℚ) (hlen : l.length < 2 ^ 31) :
    cumulate ((List.range 8).map
        (fun j => (l.countP (fun x => decide (binOf binvals x = j)) : Int))) =
      some ((List.range 8).map
        (fun i => (l.countP (fun x => decide (binOf binvals x ≤ i)) : Int))) := by
  have hbound : (l.countP (fun x => decide (binOf binvals x ≤ 7)) : Int) < 2 ^ 31 := by
    have h1 : l.countP (fun x => decide (binOf binvals x ≤ 7)) ≤ l.length := List.countP_le_length _
    have h2 : (l.length : Int) < 2 ^ 31 := by exact_mod_cast hlen
    have h3 : (l.countP (fun x => decide (binOf binvals x ≤ 7)) : Int) ≤ (l.length : Int) := by
      exact_mod_cast h1
    omega
  have e7 := countP_le_succ (binOf binvals) l 6
  have e6 := countP_le_succ (binOf binvals) l 5
  have e5 := countP_le_succ (binOf binvals) l 4
  have e4 := countP_le_succ (binOf binvals) l 3
  have e3 := countP_le_succ (binOf binvals) l 2
  have e2 := countP_le_succ (binOf binvals) l 1
  have e1 := countP_le_succ (binOf binvals) l 0
  have e0 := countP_le_zero (binOf binvals) l
  simp only [Nat.reduceAdd] at e1 e2 e3 e4 e5 e6 e7
  have hmap : ∀ f : Nat → Int, (List.range 8).map f = [f 0, f 1, f 2, f 3, f 4, f 5, f 6, f 7] :=
    fun f => rfl
  rw [hmap, hmap, cumulate_eq _ _ _ _ _ _ _ _ (by positivity) (by positivity) (by positivity)
    (by positivity) (by positivity) (by positivity) (by positivity) (by positivity)
    (by rw [e7, e6, e5, e4, e3, e2, e1, e0] at hbound; push_cast at hbound; omega)]
  rw [e7, e6, e5, e4, e3, e2, e1, e0]
  push_cast
  rfl

theorem insertionSort_ne_nil (l : List ℚ) (h : l ≠ []) :
    ∃ m rest, List.insertionSort (· ≤ ·) l = m :: rest := by
  cases hs : List.insertionSort (· ≤ ·) l with
  | nil =>
    have h1 := List.length_insertionSort (· ≤ ·) l
    rw [hs] at h1
    exact absurd (List.length_eq_zero.mp h1.symm) h
  | cons m rest => exact ⟨m, rest, rfl⟩

theorem WriteOutput_cons (self : ConfabReport) (ofs : List Item) (m : ℚ) (rest : List ℚ)
    (bins cumbins : List Int)
    (hs : List.insertionSort (· ≤ ·) self.rmsd = m :: rest)
    (hb : binCounts binvals (m :: rest) = some bins) (hc : cumulate bins = some cumbins) :
    WriteOutput self ofs =
      some ({ self with
                rmsd := m :: rest
                cutoff_passed :=
                  if m ≤ self.rmsd_cutoff then uincr self.cutoff_passed
                  else self.cutoff_passed },
        ofs ++ [Item.str "..minimum rmsd = ", Item.dbl m, Item.str "\n"]
          ++ cutoffsLine binvals ++ countsLine cumbins ++ passedLine m self.rmsd_cutoff) := by
  unfold WriteOutput
  rw [hs]
  simp only [hb, hc]

/-- The closing report of a group within the last threshold, in terms of the
sorted list: the counters of the bins and the report written. -/
theorem WriteOutput_sorted (self : ConfabReport) (ofs : List Item) (m : ℚ) (rest : List ℚ)
    (hs : List.insertionSort (· ≤ ·) self.rmsd = m :: rest)
    (hle : ∀ x ∈ self.rmsd, x ≤ 100) (hlen : self.rmsd.length < 2 ^ 31) :
    WriteOutput self ofs =
      some ({ self with
                rmsd := m :: rest
                cutoff_passed :=
                  if m ≤ self.rmsd_cutoff then uincr self.cutoff_passed
                  else self.cutoff_passed },
        ofs ++ [Item.str "..minimum rmsd = ", Item.dbl m, Item.str "\n"]
          ++ cutoffsLine binvals
          ++ countsLine (binvals.map
              (fun t => (self.rmsd.countP (fun x => decide (x ≤ t)) : Int)))
          ++ passedLine m self.rmsd_cutoff) := by
  have hperm := List.perm_insertionSort (· ≤ ·) self.rmsd
  have hsorted := List.sorted_insertionSort (· ≤ ·) self.rmsd
  rw [hs] at hperm hsorted
  have hle1 : ∀ x ∈ m :: rest, x ≤ 100 := fun x hx => hle x (hperm.mem_iff.mp hx)
  have hlen1 : (m :: rest).length < 2 ^ 31 := by rw [hperm.length_eq]; exact hlen
  have hcum : (List.range 8).map
        (fun i => ((m :: rest).countP (fun x => decide (binOf binvals x ≤ i)) : Int)) =
      binvals.map (fun t => (self.rmsd.countP (fun x => decide (x ≤ t)) : Int)) := by
    apply List.ext_getElem
    · simp [binvals_length]
    · intro j h1 h2
      have hj : j < 8 := by simpa using h1
      simp only [List.getElem_map, List.getElem_range]
      rw [hperm.countP_eq]
      congr 1
      apply List.countP_congr
      intro x _
      simp only [decide_eq_true_eq]
      exact binOf_le_iff binvals binvals_sorted x j (by rw [binvals_length]; exact hj)
  have hb := binCounts_sorted (m :: rest) hsorted hle1 hlen1
  have hc := cumulate_sorted (m :: rest) hlen1
  rw [hcum] at hc
  exact WriteOutput_cons self ofs m rest _ _ hs hb hc

theorem advance_none_of_gt (x : ℚ) (hx : 100 < x) (i : Nat) : advance binvals x i = none := by
  apply advance_eq_none binvals x _ i rfl
  intro k hk _
  have h7 : binvals[k] ≤ binvals[7] :=
    getElem_le_of_sorted binvals binvals_sorted k 7 (by decide)
      (by rw [binvals_length] at hk; omega)
  have h100 : binvals[7] = 100 := rfl
  rw [h100] at h7
  exact lt_of_le_of_lt h7 hx

theorem binLoop_none_of_gt (l : List ℚ) (h : ∃ x ∈ l, 100 < x) (i : Nat) (bins : List Int) :
    binLoop binvals l i bins = none := by
  induction l generalizing i bins with
  | nil =>
    obtain ⟨x, hx, _⟩ := h
    simp at hx
  | cons y rest ih =>
    rw [binLoop]
    by_cases hy : 100 < y
    · rw [advance_none_of_gt y hy]
    · have hrest : ∃ x ∈ rest, 100 < x := by
        obtain ⟨x, hx, hgt⟩ := h
        rcases List.mem_cons.mp hx with rfl | hmem
        · exact absurd hgt hy
        · exact ⟨x, hmem, hgt⟩
      cases advance binvals y i with
      | none => rfl
      | some j =>
        simp only []
        cases bins[j]? with
        | none => rfl
        | some c =>
          simp only []
          cases iadd c 1 with
          | none => rfl
          | some c1 => exact ih hrest j _

/-- A group with a value above the last threshold: the bin index is advanced
to 8 and `binvals[8]` is read, which is undefined. -/
theorem WriteOutput_none_of_gt (self : ConfabReport) (ofs : List Item)
    (h : ∃ x ∈ self.rmsd, 100 < x) : WriteOutput self ofs = none := by
  have hperm := List.perm_insertionSort (· ≤ ·) self.rmsd
  have h1 : ∃ x ∈ List.insertionSort (· ≤ ·) self.rmsd, 100 < x := by
    obtain ⟨x, hx, hgt⟩ := h
    exact ⟨x, hperm.mem_iff.mpr hx, hgt⟩
  unfold WriteOutput
  cases hs : List.insertionSort (· ≤ ·) self.rmsd with
  | nil =>
    rw [hs] at h1
    obtain ⟨x, hx, _⟩ := h1
    simp at hx
  | cons m rest =>
    rw [hs] at h1
    have hb : binCounts binvals (m :: rest) = none := by
      unfold binCounts
      rw [binLoop_none_of_gt (m :: rest) h1]
      rfl
    simp only [hb]

/-! ## Claims about the closing report -/

/-- C1: for a non-empty group whose RMSD values are all at most 100.0 (and
fewer than 2^31, the range of the `int` counters), the binning loop of
`WriteOutput` counts each value in the bin of the smallest threshold that is at
least the value, and the cumulative count written under a threshold `t` is the
number of values of the group that are at most `t`. -/
theorem C1_bins_and_cumulative_counts (self : ConfabReport) (ofs : List Item)
    (hne : self.rmsd ≠ []) (hle : ∀ x ∈ self.rmsd, x ≤ 100)
    (hlen : self.rmsd.length < 2 ^ 31) :
    binCounts binvals (List.insertionSort (· ≤ ·) self.rmsd) =
        some (binvals.map (fun t => (self.rmsd.countP
          (fun x => decide (x ≤ t ∧ ∀ u ∈ binvals, x ≤ u → t ≤ u)) : Int))) ∧
    ∃ self1 m, WriteOutput self ofs = some (self1,
        ofs ++ [Item.str "..minimum rmsd = ", Item.dbl m, Item.str "\n"]
          ++ cutoffsLine binvals
          ++ countsLine (binvals.map
              (fun t => (self.rmsd.countP (fun x => decide (x ≤ t)) : Int)))
          ++ passedLine m self.rmsd_cutoff) := by
  obtain ⟨m, rest, hs⟩ := insertionSort_ne_nil self.rmsd hne
  have hperm := List.perm_insertionSort (· ≤ ·) self.rmsd
  have hsorted := List.sorted_insertionSort (· ≤ ·) self.rmsd
  constructor
  · rw [binCounts_sorted _ hsorted (fun x hx => hle x (hperm.mem_iff.mp hx))
      (by rw [hperm.length_eq]; exact hlen)]
    congr 1
    apply List.ext_getElem
    · simp [binvals_length]
    · intro j h1 h2
      have hj : j < 8 := by simpa using h1
      simp only [List.getElem_map, List.getElem_range]
      rw [hperm.countP_eq]
      congr 1
      apply List.countP_congr
      intro x _
      simp only [decide_eq_true_eq]
      exact binOf_eq_iff binvals binvals_sorted x j (by rw [binvals_length]; exact hj)
  · exact ⟨_, m, WriteOutput_sorted self ofs m rest hs hle hlen⟩

/-- C1 at the group `[0.7, 0.5, 0.3]`. -/
theorem C1_bins_and_cumulative_counts_witness :
    (exampleGroup.rmsd ≠ [] ∧ (∀ x ∈ exampleGroup.rmsd, x ≤ 100) ∧
      exampleGroup.rmsd.length < 2 ^ 31) ∧
    (binCounts binvals (List.insertionSort (· ≤ ·) exampleGroup.rmsd) =
        some (binvals.map (fun t => (exampleGroup.rmsd.countP
          (fun x => decide (x ≤ t ∧ ∀ u ∈ binvals, x ≤ u → t ≤ u)) : Int))) ∧
    ∃ self1 m, WriteOutput exampleGroup [] = some (self1,
        [] ++ [Item.str "..minimum rmsd = ", Item.dbl m, Item.str "\n"]
          ++ cutoffsLine binvals
          ++ countsLine (binvals.map
              (fun t => (exampleGroup.rmsd.countP (fun x => decide (x ≤ t)) : Int)))
          ++ passedLine m exampleGroup.rmsd_cutoff)) :=
  have h1 : exampleGroup.rmsd ≠ [] := by simp [exampleGroup]
  have h2 : ∀ x ∈ exampleGroup.rmsd, x ≤ 100 := by
    intro x hx
    simp only [exampleGroup, List.mem_cons, List.mem_singleton, List.not_mem_nil, or_false] at hx
    rcases hx with rfl | rfl | rfl <;> norm_num
  have h3 : exampleGroup.rmsd.length < 2 ^ 31 := by simp [exampleGroup]
  ⟨⟨h1, h2, h3⟩, C1_bins_and_cumulative_counts exampleGroup [] h1 h2 h3⟩

/-- C2 (the code departs from the claim): for the group `[0.3, 150.0]` the
binning loop leaves the vector `binvals`, so `WriteOutput` has no defined
result and no cumulative counts that add up to the two conformers. -/
theorem C2_counts_undefined_above_last_threshold : WriteOutput exampleOutOfRange [] = none :=
  WriteOutput_none_of_gt exampleOutOfRange [] ⟨150, by simp [exampleOutOfRange], by norm_num⟩

/-- C3 (the code departs from the claim): the value 100.0 stays in the last bin
(index 7), but for the value 150.0 the bin index is advanced past 7 and
`binvals[8]` is read; the loop does not clamp. -/
theorem C3_bin_index_leaves_binvals :
    advance binvals 100 0 = some 7 ∧ advance binvals 150 7 = advance binvals 150 8 ∧
      binvals[8]? = none ∧ binCounts binvals [150] = none := by
  refine ⟨?_, ?_, rfl, ?_⟩
  · have h7 : binOf binvals 100 = 7 := by
      rw [binOf_eq_iff binvals binvals_sorted 100 7 (by decide)]
      norm_num [binvals, binvals_arr]
    have h := advance_eq_binOf binvals 100 _ 0 rfl (Nat.zero_le _) (by rw [h7]; decide)
    rw [h7] at h
    exact h
  · rw [advance_none_of_gt 150 (by norm_num) 7, advance_none_of_gt 150 (by norm_num) 8]
  · unfold binCounts
    rw [binLoop_none_of_gt [150] ⟨150, by simp, by norm_num⟩]
    rfl

/-! ## General facts about `WriteOutput` -/

theorem min?_of_sorted (l : List ℚ) (m : ℚ) (rest : List ℚ)
    (hs : List.insertionSort (· ≤ ·) l = m :: rest) : l.min? = some m := by
  have hperm := List.perm_insertionSort (· ≤ ·) l
  have hsorted := List.sorted_insertionSort (· ≤ ·) l
  rw [hs] at hperm hsorted
  haveI : Std.Antisymm (fun (x1 x2 : ℚ) => x1 ≤ x2) := ⟨fun h1 h2 => le_antisymm h1 h2⟩
  rw [List.min?_eq_some_iff (fun a => le_refl a) (fun a b => min_choice a b)
    (fun a b c => le_min_iff)]
  refine ⟨hperm.mem_iff.mp (List.mem_cons_self _ _), ?_⟩
  intro b hb
  rcases List.mem_cons.mp (hperm.mem_iff.mpr hb) with rfl | hmem
  · exact le_refl _
  · exact (List.sorted_cons.mp hsorted).1 b hmem

/-- The text `WriteOutput` adds to the report for a group, and the object
afterwards, do not depend on what the stream already holds. -/
theorem WriteOutput_some (self : ConfabReport) (ofs : List Item) (self1 : ConfabReport)
    (ofs1 : List Item) (h : WriteOutput self ofs = some (self1, ofs1)) :
    self1 = { self with
                rmsd := List.insertionSort (· ≤ ·) self.rmsd
                cutoff_passed :=
                  if minWithin self.rmsd_cutoff self.rmsd then uincr self.cutoff_passed
                  else self.cutoff_passed } ∧
    ∃ t, ofs1 = ofs ++ t ∧ ∀ ofs2, WriteOutput self ofs2 = some (self1, ofs2 ++ t) := by
  unfold WriteOutput at h
  cases hs : List.insertionSort (· ≤ ·) self.rmsd with
  | nil =>
    rw [hs] at h
    simp only [Option.some.injEq, Prod.mk.injEq] at h
    obtain ⟨h1, h2⟩ := h
    subst h1 h2
    have hnil : self.rmsd = [] := by
      have := List.length_insertionSort (· ≤ ·) self.rmsd
      rw [hs] at this
      exact List.length_eq_zero.mp this.symm
    refine ⟨?_, [], by simp, ?_⟩
    · cases self
      simp only [] at hnil
      subst hnil
      simp [minWithin]
    · intro ofs2
      unfold WriteOutput
      rw [hs]
      simp
  | cons m rest =>
    rw [hs] at h
    simp only [] at h
    cases hb : binCounts binvals (m :: rest) with
    | none => rw [hb] at h; simp at h
    | some bins =>
      rw [hb] at h
      simp only [] at h
      cases hc : cumulate bins with
      | none => rw [hc] at h; simp at h
      | some cumbins =>
        rw [hc] at h
        simp only [Option.some.injEq, Prod.mk.injEq] at h
        obtain ⟨h1, h2⟩ := h
        have hmin := min?_of_sorted self.rmsd m rest hs
        refine ⟨?_, [Item.str "..minimum rmsd = ", Item.dbl m, Item.str "\n"]
          ++ cutoffsLine binvals ++ countsLine cumbins ++ passedLine m self.rmsd_cutoff, ?_, ?_⟩
        · rw [← h1]
          simp [minWithin, hmin]
        · rw [← h2]
          simp only [List.append_assoc]
        · intro ofs2
          rw [WriteOutput_cons self ofs2 m rest bins cumbins hs hb hc, h1]
          simp only [List.append_assoc]

/-! ## The reference cursor -/

theorem skipLoop_found (title : String) (src : List OBMol) :
    ∀ (self : ConfabReport) (ofs : List Item) (sk : List OBMol) (m : OBMol) (rest : List OBMol),
      self.rfs.pending = src →
      AdvanceTo title (self.rmol :: src) = some (sk, m, rest) →
      skipLoop title self ofs =
        (true, { self with N := uincr^[sk.length] self.N, rmol := m,
                           rfs := { self.rfs with pending := rest } },
          ofs ++ zeroConfReports self.N sk) := by
  induction src with
  | nil =>
    intro self ofs sk m rest hsrc hadv
    rw [AdvanceTo] at hadv
    by_cases ht : self.rmol.title = title
    · rw [if_pos ht] at hadv
      simp only [Option.some.injEq, Prod.mk.injEq] at hadv
      obtain ⟨rfl, rfl, rfl⟩ := hadv
      rw [skipLoop, if_neg (by simpa using ht)]
      rcases self with ⟨⟨io, fl, pd⟩, rfn, rmol, aref, cp, n, ot, rmsd, cut⟩
      simp_all [zeroConfReports]
    · rw [if_neg ht] at hadv
      simp [AdvanceTo] at hadv
  | cons e es ih =>
    intro self ofs sk m rest hsrc hadv
    rw [AdvanceTo] at hadv
    by_cases ht : self.rmol.title = title
    · rw [if_pos ht] at hadv
      simp only [Option.some.injEq, Prod.mk.injEq] at hadv
      obtain ⟨rfl, rfl, rfl⟩ := hadv
      rw [skipLoop, if_neg (by simpa using ht)]
      rcases self with ⟨⟨io, fl, pd⟩, rfn, rmol, aref, cp, n, ot, rmsd, cut⟩
      simp_all [zeroConfReports]
    · rw [if_neg ht] at hadv
      cases hrec : AdvanceTo title (e :: es) with
      | none => rw [hrec] at hadv; simp at hadv
      | some res =>
        obtain ⟨sk1, m1, rest1⟩ := res
        rw [hrec] at hadv
        simp only [Option.map_some', Option.some.injEq, Prod.mk.injEq] at hadv
        obtain ⟨rfl, rfl, rfl⟩ := hadv
        rw [skipLoop, if_pos (by simpa using ht)]
        have hread : Read { self with N := uincr self.N } =
            (true, { self with N := uincr self.N, rmol := e,
                               rfs := { self.rfs with pending := es } }) := by
          simp [Read, hsrc]
        simp only [hread, dite_true]
        rw [ih _ _ sk1 m1 rest1 rfl hrec]
        simp [zeroConfReports, Function.iterate_succ_apply]

theorem getLastD_cons_cons (d e : OBMol) (es : List OBMol) :
    (e :: es).getLastD d = es.getLastD e := by
  cases es <;> rfl

theorem skipLoop_exhausted (title : String) (src : List OBMol) :
    ∀ (self : ConfabReport) (ofs : List Item),
      self.rfs.pending = src →
      AdvanceTo title (self.rmol :: src) = none →
      skipLoop title self ofs =
        (false, { self with N := uincr^[src.length + 1] self.N, rmol := src.getLastD self.rmol,
                            rfs := { self.rfs with pending := [] } },
          ofs ++ zeroConfReports self.N (self.rmol :: src)) := by
  induction src with
  | nil =>
    intro self ofs hsrc hadv
    rw [AdvanceTo] at hadv
    by_cases ht : self.rmol.title = title
    · rw [if_pos ht] at hadv
      simp at hadv
    · rw [skipLoop, if_pos (by simpa using ht)]
      have hread : Read { self with N := uincr self.N } = (false, { self with N := uincr self.N }) := by
        simp [Read, hsrc]
      simp only [hread]
      rcases self with ⟨⟨io, fl, pd⟩, rfn, rmol, aref, cp, n, ot, rmsd, cut⟩
      simp_all [zeroConfReports]
  | cons e es ih =>
    intro self ofs hsrc hadv
    rw [AdvanceTo] at hadv
    by_cases ht : self.rmol.title = title
    · rw [if_pos ht] at hadv
      simp at hadv
    · rw [if_neg ht] at hadv
      have hrec : AdvanceTo title (e :: es) = none := by
        cases hr : AdvanceTo title (e :: es) with
        | none => rfl
        | some res => rw [hr] at hadv; simp at hadv
      rw [skipLoop, if_pos (by simpa using ht)]
      have hread : Read { self with N := uincr self.N } =
          (true, { self with N := uincr self.N, rmol := e,
                             rfs := { self.rfs with pending := es } }) := by
        simp [Read, hsrc]
      simp only [hread, dite_true]
      rw [ih _ _ rfl hrec]
      simp only [getLastD_cons_cons]
      simp [zeroConfReports, Function.iterate_succ_apply]

/-- The title-change block when the source holds an entry with the title. -/
theorem titleChange_found (self : ConfabReport) (title : String) (firstMol : Bool)
    (ofs : List Item) (self1 : ConfabReport) (ofs1 : List Item)
    (sk : List OBMol) (m : OBMol) (rest : List OBMol)
    (hclose : WriteOutput self
      (if !firstMol then ofs ++ numConfsLine self.rmsd.length else ofs) = some (self1, ofs1))
    (hadv : AdvanceTo title self.rfs.pending = some (sk, m, rest)) :
    titleChange self title firstMol ofs =
      some (true,
        { self1 with N := uincr^[sk.length + 1] self.N, rmol := m, align_ref := m, rmsd := [],
                     rfs := { self.rfs with pending := rest } },
        ofs1 ++ zeroConfReports (uincr self.N) sk
          ++ moleculeHeader (uincr^[sk.length + 1] self.N) m.title) := by
  obtain ⟨hs1, -⟩ := WriteOutput_some _ _ _ _ hclose
  unfold titleChange
  simp only [hclose]
  cases hp : self.rfs.pending with
  | nil => rw [hp] at hadv; simp [AdvanceTo] at hadv
  | cons e es =>
    have hp1 : self1.rfs.pending = e :: es := by rw [hs1]; exact hp
    have hread : Read self1 =
        (true, { self1 with rfs := { self1.rfs with pending := es }, rmol := e }) := by
      simp [Read, hp1]
    simp only [hread]
    rw [hp] at hadv
    rw [skipLoop_found title es _ _ sk m rest rfl hadv]
    simp only []
    rw [hs1]
    simp [Function.iterate_succ_apply]

/-- The title-change block when the source runs out first. -/
theorem titleChange_exhausted (self : ConfabReport) (title : String) (firstMol : Bool)
    (ofs : List Item) (self1 : ConfabReport) (ofs1 : List Item)
    (hclose : WriteOutput self
      (if !firstMol then ofs ++ numConfsLine self.rmsd.length else ofs) = some (self1, ofs1))
    (hadv : AdvanceTo title self.rfs.pending = none) :
    titleChange self title firstMol ofs =
      some (false,
        { self1 with N := if self.rfs.pending = [] then self.N
                          else uincr^[self.rfs.pending.length + 1] self.N,
                     rmol := self.rfs.pending.getLastD self.rmol,
                     rfs := { self.rfs with pending := [] } },
        ofs1 ++ zeroConfReports (uincr self.N) self.rfs.pending) := by
  obtain ⟨hs1, -⟩ := WriteOutput_some _ _ _ _ hclose
  unfold titleChange
  simp only [hclose]
  cases hp : self.rfs.pending with
  | nil =>
    have hp1 : self1.rfs.pending = [] := by rw [hs1]; exact hp
    have hread : Read self1 = (false, self1) := by simp [Read, hp1]
    simp only [hread]
    rw [hs1]
    rcases self with ⟨⟨io, fl, pd⟩, rfn, rmol, aref, cp, n, ot, rmsd, cut⟩
    simp_all [zeroConfReports]
  | cons e es =>
    have hp1 : self1.rfs.pending = e :: es := by rw [hs1]; exact hp
    have hread : Read self1 =
        (true, { self1 with rfs := { self1.rfs with pending := es }, rmol := e }) := by
      simp [Read, hp1]
    simp only [hread]
    rw [hp] at hadv
    rw [skipLoop_exhausted title es _ _ rfl hadv]
    simp only [getLastD_cons_cons]
    rw [hs1]
    simp [Function.iterate_succ_apply]

/-- Within the last threshold and the range of `int`, `WriteOutput` returns. -/
theorem WriteOutput_defined (self : ConfabReport) (hle : ∀ x ∈ self.rmsd, x ≤ 100)
    (hlen : self.rmsd.length < 2 ^ 31) :
    ∃ self1 t, ∀ ofs, WriteOutput self ofs = some (self1, ofs ++ t) := by
  by_cases hne : self.rmsd = []
  · refine ⟨self, [], ?_⟩
    intro ofs
    unfold WriteOutput
    rw [hne]
    simp
  · obtain ⟨m, rest, hs⟩ := insertionSort_ne_nil self.rmsd hne
    refine ⟨{ self with
                rmsd := m :: rest
                cutoff_passed :=
                  if m ≤ self.rmsd_cutoff then uincr self.cutoff_passed
                  else self.cutoff_passed },
      [Item.str "..minimum rmsd = ", Item.dbl m, Item.str "\n"] ++ cutoffsLine binvals
        ++ countsLine (binvals.map
            (fun t => (self.rmsd.countP (fun x => decide (x ≤ t)) : Int)))
        ++ passedLine m self.rmsd_cutoff, ?_⟩
    intro ofs
    rw [WriteOutput_sorted self ofs m rest hs hle hlen]
    simp only [List.append_assoc]

theorem uincr_iterate (k n : Nat) : uincr^[k + 1] n = (n + k + 1) % 2 ^ 32 := by
  induction k generalizing n with
  | zero => simp [uincr]
  | succ k ih =>
    rw [Function.iterate_succ_apply, ih]
    unfold uincr
    omega

/-- The block for the first conformer either fails and leaves the report
stream as it was, or succeeds and appends the header. -/
theorem firstMolBlock_cases (W : World) (self : ConfabReport) (pConv : OBConversion)
    (ofs cerr : List Item) :
    ((firstMolBlock W self pConv ofs cerr).ret = false ∧
        (firstMolBlock W self pConv ofs cerr).ofs = ofs) ∨
    ((firstMolBlock W self pConv ofs cerr).ret = true ∧
        ∃ t, (firstMolBlock W self pConv ofs cerr).ofs = ofs ++ t) := by
  unfold firstMolBlock
  by_cases h1 : (pConv.OutputIndex == 1) = true
  · simp only [h1, if_true]
    unfold openReference
    cases pConv.opt_f with
    | none => simp
    | some f =>
      simp only []
      cases W.FormatFromExt f with
      | none => simp
      | some fmt =>
        simp only []
        cases hfail : (ifstream_open W self.rfs f).fail <;> simp
  · simp only [h1]
    right
    exact ⟨rfl, [], by simp⟩

theorem AdvanceTo_append (title : String) (skipped : List OBMol) (m : OBMol) (rest : List OBMol)
    (hskip : ∀ e ∈ skipped, e.title ≠ title) (hm : m.title = title) :
    AdvanceTo title (skipped ++ m :: rest) = some (skipped, m, rest) := by
  induction skipped with
  | nil => simp [AdvanceTo, hm]
  | cons e es ih =>
    rw [List.cons_append, AdvanceTo, if_neg (hskip e (List.mem_cons_self _ _)),
      ih (fun x hx => hskip x (List.mem_cons_of_mem _ hx))]
    rfl

theorem AdvanceTo_some (title : String) (src skipped : List OBMol) (m : OBMol)
    (rest : List OBMol) (h : AdvanceTo title src = some (skipped, m, rest)) :
    src = skipped ++ m :: rest ∧ (∀ e ∈ skipped, e.title ≠ title) ∧ m.title = title := by
  induction src generalizing skipped with
  | nil => simp [AdvanceTo] at h
  | cons e es ih =>
    rw [AdvanceTo] at h
    by_cases ht : e.title = title
    · rw [if_pos ht] at h
      simp only [Option.some.injEq, Prod.mk.injEq] at h
      obtain ⟨rfl, rfl, rfl⟩ := h
      simp [ht]
    · rw [if_neg ht] at h
      cases hrec : AdvanceTo title es with
      | none => rw [hrec] at h; simp at h
      | some res =>
        obtain ⟨sk1, m1, rest1⟩ := res
        rw [hrec] at h
        simp only [Option.map_some', Option.some.injEq, Prod.mk.injEq] at h
        obtain ⟨rfl, rfl, rfl⟩ := h
        obtain ⟨h1, h2, h3⟩ := ih sk1 hrec
        refine ⟨by rw [h1]; rfl, ?_, h3⟩
        intro x hx
        rcases List.mem_cons.mp hx with rfl | hmem
        · exact ht
        · exact h2 x hmem

/-! ## Claims about a single call of `WriteMolecule` -/

/-- C10: on the first conformer of a run, when option `f` is absent, or no
format is found for the reference file name, or the reference file cannot be
opened, `WriteMolecule` returns `false` and the report stream is left exactly
as it was. -/
theorem C10_reference_errors_write_nothing (W : World) (self : ConfabReport) (pOb : OBBase)
    (pConv : OBConversion) (ofs cerr : List Item) (hfirst : pConv.OutputIndex = 1)
    (hbad : pConv.opt_f = none ∨
      ∃ f, pConv.opt_f = some f ∧ (W.FormatFromExt f = none ∨ W.files f = none)) :
    ∃ r, WriteMolecule W self pOb pConv ofs cerr = some r ∧ r.ret = false ∧ r.ofs = ofs := by
  cases pOb with
  | other => exact ⟨_, rfl, rfl, rfl⟩
  | mol pmol =>
    have hret : (firstMolBlock W self pConv ofs cerr).ret = false := by
      unfold firstMolBlock openReference
      rw [if_pos (by simp [hfirst])]
      rcases hbad with h | ⟨f, hf, h | h⟩
      · simp [h]
      · simp [hf, h]
      · rw [hf]
        simp only []
        cases W.FormatFromExt f with
        | none => simp
        | some fmt =>
          simp only []
          have hfail : (ifstream_open W self.rfs f).fail = true := by
            unfold ifstream_open
            split
            · rfl
            · rw [h]
          simp [hfail]
    have hofs : (firstMolBlock W self pConv ofs cerr).ofs = ofs := by
      rcases firstMolBlock_cases W self pConv ofs cerr with h | h
      · exact h.2
      · rw [hret] at h
        simp at h
    refine ⟨firstMolBlock W self pConv ofs cerr, ?_, hret, hofs⟩
    unfold WriteMolecule
    simp [hret]

/-- C10 at a first call without option `f`. -/
theorem C10_reference_errors_write_nothing_witness :
    (exampleConvNoRef.OutputIndex = 1 ∧
      (exampleConvNoRef.opt_f = none ∨
        ∃ f, exampleConvNoRef.opt_f = some f ∧
          (exampleWorld.FormatFromExt f = none ∨ exampleWorld.files f = none))) ∧
    ∃ r, WriteMolecule exampleWorld ConfabReport.ConfabReport (OBBase.mol ⟨"A", 2⟩)
        exampleConvNoRef [] [] = some r ∧ r.ret = false ∧ r.ofs = [] :=
  ⟨⟨rfl, Or.inl rfl⟩,
    C10_reference_errors_write_nothing exampleWorld ConfabReport.ConfabReport
      (OBBase.mol ⟨"A", 2⟩) exampleConvNoRef [] [] rfl (Or.inl rfl)⟩

/-- C9: when the reference source holds no entry with the title of a conformer
that starts a new group, `WriteMolecule` returns `false`.  The report then
consists of what it held before the call, the header if the call is the first
of the run, the close of the previous group, and one report without conformers
for each entry left in the source: no header for the missing title and no
summary.  No RMSD is recorded for the conformer. -/
theorem C9_exhausted_source_fails (W : World) (self : ConfabReport) (pmol : OBMol)
    (pConv : OBConversion) (ofs cerr : List Item)
    (self0 : ConfabReport) (ofs0 cerr0 : List Item)
    (hopen : firstMolBlock W self pConv ofs cerr = ⟨true, self0, ofs0, cerr0⟩)
    (hchange : self0.oldtitle ≠ pmol.title)
    (hmissing : ∀ e ∈ self0.rfs.pending, e.title ≠ pmol.title)
    (hle : ∀ x ∈ self0.rmsd, x ≤ 100) (hlen : self0.rmsd.length < 2 ^ 31) :
    ∃ r self1 closing,
      WriteMolecule W self (OBBase.mol pmol) pConv ofs cerr = some r ∧ r.ret = false ∧
      (∀ o, WriteOutput self0 o = some (self1, o ++ closing)) ∧
      (∃ t, ofs0 = ofs ++ t) ∧
      r.ofs = ofs0
        ++ (if pConv.OutputIndex = 1 then []
            else numConfsLine self0.rmsd.length)
        ++ closing ++ zeroConfReports (uincr self0.N) self0.rfs.pending ∧
      r.self.rmsd = self1.rmsd ∧ r.self.oldtitle = self0.oldtitle ∧
      r.self.align_ref = self0.align_ref := by
  obtain ⟨self1, closing, hclose⟩ := WriteOutput_defined self0 hle hlen
  have hadv : AdvanceTo pmol.title self0.rfs.pending = none := by
    generalize self0.rfs.pending = src at hmissing
    induction src with
    | nil => rfl
    | cons e es ih =>
      rw [AdvanceTo, if_neg (hmissing e (List.mem_cons_self _ _)),
        ih (fun x hx => hmissing x (List.mem_cons_of_mem _ hx))]
      rfl
  have hs1 := (WriteOutput_some _ _ _ _ (hclose [])).1
  obtain ⟨s2, o2, htc, ho2, hr2, ht2, ha2⟩ : ∃ s2 o2,
      titleChange self0 pmol.title (pConv.OutputIndex == 1) ofs0 = some (false, s2, o2) ∧
      o2 = (if (!(pConv.OutputIndex == 1)) = true then
              ofs0 ++ numConfsLine self0.rmsd.length
            else ofs0) ++ closing ++ zeroConfReports (uincr self0.N) self0.rfs.pending ∧
      s2.rmsd = self1.rmsd ∧ s2.oldtitle = self1.oldtitle ∧ s2.align_ref = self1.align_ref :=
    ⟨_, _, titleChange_exhausted self0 pmol.title (pConv.OutputIndex == 1) ofs0 self1 _
      (hclose _) hadv, rfl, rfl, rfl, rfl⟩
  have hext : ∃ t, ofs0 = ofs ++ t := by
    rcases firstMolBlock_cases W self pConv ofs cerr with h | h
    · rw [hopen] at h
      simp at h
    · rw [hopen] at h
      exact h.2
  refine ⟨⟨false, s2, o2, cerr0⟩, self1, closing, ?_, rfl, hclose, hext, ?_, hr2, ?_, ?_⟩
  · unfold WriteMolecule
    simp only [hopen, if_true]
    unfold processConformer
    rw [if_pos hchange, htc]
  · simp only [ho2]
    by_cases h1 : pConv.OutputIndex = 1 <;> simp [h1]
  · simp only [ht2, hs1]
  · simp only [ha2, hs1]

/-- C8: on a title change the cursor reads forward to the first entry of the
source with the new title.  Each entry read before it gets one report without
conformers (molecule number, its title, `number of confs = 0`), in source
order, and one increment of `N`; these reports follow the close of the
previous group and precede the header of the new group. -/
theorem C8_cursor_skips_and_reports (W : World) (self : ConfabReport) (pmol : OBMol)
    (pConv : OBConversion) (ofs cerr : List Item)
    (self0 : ConfabReport) (ofs0 cerr0 : List Item)
    (skipped : List OBMol) (m : OBMol) (rest : List OBMol)
    (hopen : firstMolBlock W self pConv ofs cerr = ⟨true, self0, ofs0, cerr0⟩)
    (hchange : self0.oldtitle ≠ pmol.title)
    (hsrc : self0.rfs.pending = skipped ++ m :: rest)
    (hskip : ∀ e ∈ skipped, e.title ≠ pmol.title) (hm : m.title = pmol.title)
    (hle : ∀ x ∈ self0.rmsd, x ≤ 100) (hlen : self0.rmsd.length < 2 ^ 31)
    (hlast : pConv.IsLast = true → W.Align m pmol ≤ 100) :
    ∃ r self1 closing tail,
      WriteMolecule W self (OBBase.mol pmol) pConv ofs cerr = some r ∧ r.ret = true ∧
      (∀ o, WriteOutput self0 o = some (self1, o ++ closing)) ∧
      r.ofs = ofs0
        ++ (if pConv.OutputIndex = 1 then []
            else numConfsLine self0.rmsd.length)
        ++ closing ++ zeroConfReports (uincr self0.N) skipped
        ++ moleculeHeader ((self0.N + skipped.length + 1) % 2 ^ 32) m.title
        ++ tail ∧
      (pConv.IsLast = false → tail = []) ∧
      r.self.N = (self0.N + skipped.length + 1) % 2 ^ 32 ∧
      r.self.rfs.pending = rest ∧ r.self.align_ref = m := by
  obtain ⟨self1, closing, hclose⟩ := WriteOutput_defined self0 hle hlen
  have hadv : AdvanceTo pmol.title self0.rfs.pending = some (skipped, m, rest) := by
    rw [hsrc]
    exact AdvanceTo_append pmol.title skipped m rest hskip hm
  obtain ⟨s2, o2, htc, ho2, hN2, hp2, ha2, hr2⟩ : ∃ s2 o2,
      titleChange self0 pmol.title (pConv.OutputIndex == 1) ofs0 = some (true, s2, o2) ∧
      o2 = (if (!(pConv.OutputIndex == 1)) = true then
              ofs0 ++ numConfsLine self0.rmsd.length
            else ofs0) ++ closing ++ zeroConfReports (uincr self0.N) skipped
          ++ moleculeHeader (uincr^[skipped.length + 1] self0.N) m.title ∧
      s2.N = uincr^[skipped.length + 1] self0.N ∧ s2.rfs.pending = rest ∧ s2.align_ref = m ∧
      s2.rmsd = [] :=
    ⟨_, _, titleChange_found self0 pmol.title (pConv.OutputIndex == 1) ofs0 self1 _
      skipped m rest (hclose _) hadv, rfl, rfl, rfl, rfl, rfl⟩
  rw [uincr_iterate] at ho2 hN2
  have hpc : ∀ res, alignAndFinish W s2 pmol pmol.title pConv.IsLast o2 = some res →
      WriteMolecule W self (OBBase.mol pmol) pConv ofs cerr = some ⟨true, res.1, res.2, cerr0⟩ := by
    intro res hres
    unfold WriteMolecule
    simp only [hopen, if_true]
    unfold processConformer
    rw [if_pos hchange, htc]
    simp only [hres, Option.map_some']
  have hpre : o2 = ofs0
        ++ (if pConv.OutputIndex = 1 then []
            else numConfsLine self0.rmsd.length)
        ++ closing ++ zeroConfReports (uincr self0.N) skipped
        ++ moleculeHeader ((self0.N + skipped.length + 1) % 2 ^ 32) m.title := by
    rw [ho2]
    by_cases h1 : pConv.OutputIndex = 1 <;> simp [h1]
  by_cases hl : pConv.IsLast = true
  · have hx : W.Align m pmol ≤ 100 := hlast hl
    obtain ⟨s3, t3, hclose3⟩ := WriteOutput_defined
      { s2 with rmsd := s2.rmsd ++ [W.Align s2.align_ref pmol], oldtitle := pmol.title }
      (by
        intro x hxm
        simp only [hr2, ha2, List.nil_append, List.mem_singleton] at hxm
        rw [hxm]
        exact hx)
      (by simp [hr2])
    have hs3 := (WriteOutput_some _ _ _ _ (hclose3 [])).1
    have haf : alignAndFinish W s2 pmol pmol.title pConv.IsLast o2 =
        some (s3, o2 ++ numConfsLine (s2.rmsd ++ [W.Align s2.align_ref pmol]).length ++ t3
          ++ summaryBlock s3) := by
      unfold alignAndFinish
      simp only [hl, if_true, hclose3]
    refine ⟨_, self1, closing, numConfsLine (s2.rmsd ++ [W.Align s2.align_ref pmol]).length ++ t3
          ++ summaryBlock s3,
      hpc _ haf, rfl, hclose, ?_, ?_, ?_, ?_, ?_⟩
    · simp only [hpre, List.append_assoc]
    · intro h
      rw [hl] at h
      simp at h
    · simp only [hs3]
      exact hN2
    · simp only [hs3]
      exact hp2
    · simp only [hs3]
      exact ha2
  · have haf : alignAndFinish W s2 pmol pmol.title pConv.IsLast o2 =
        some ({ s2 with rmsd := s2.rmsd ++ [W.Align s2.align_ref pmol],
                        oldtitle := pmol.title }, o2) := by
      unfold alignAndFinish
      simp [hl]
    refine ⟨_, self1, closing, [], hpc _ haf, rfl, hclose, ?_, fun _ => rfl, hN2, hp2, ha2⟩
    simp only [List.append_nil]
    exact hpre

/-- C9 at a conformer titled `D` arriving in the middle of the example run. -/
theorem C9_exhausted_source_fails_witness :
    (firstMolBlock exampleWorld exampleMidRun exampleConv [] [] = ⟨true, exampleMidRun, [], []⟩ ∧
      exampleMidRun.oldtitle ≠ "D" ∧
      (∀ e ∈ exampleMidRun.rfs.pending, e.title ≠ "D") ∧
      (∀ x ∈ exampleMidRun.rmsd, x ≤ 100) ∧ exampleMidRun.rmsd.length < 2 ^ 31) ∧
    ∃ r self1 closing,
      WriteMolecule exampleWorld exampleMidRun (OBBase.mol ⟨"D", 4⟩) exampleConv [] [] = some r ∧
      r.ret = false ∧
      (∀ o, WriteOutput exampleMidRun o = some (self1, o ++ closing)) ∧
      (∃ t, ([] : List Item) = [] ++ t) ∧
      r.ofs = []
        ++ (if exampleConv.OutputIndex = 1 then []
            else numConfsLine exampleMidRun.rmsd.length)
        ++ closing ++ zeroConfReports (uincr exampleMidRun.N) exampleMidRun.rfs.pending ∧
      r.self.rmsd = self1.rmsd ∧ r.self.oldtitle = exampleMidRun.oldtitle ∧
      r.self.align_ref = exampleMidRun.align_ref :=
  have h1 : firstMolBlock exampleWorld exampleMidRun exampleConv [] [] =
      ⟨true, exampleMidRun, [], []⟩ := rfl
  have h2 : exampleMidRun.oldtitle ≠ "D" := by decide
  have h3 : ∀ e ∈ exampleMidRun.rfs.pending, e.title ≠ "D" := by decide
  have h4 : ∀ x ∈ exampleMidRun.rmsd, x ≤ 100 := by
    intro x hx
    simp only [exampleMidRun, List.mem_cons, List.mem_singleton, List.not_mem_nil, or_false] at hx
    rcases hx with rfl | rfl <;> norm_num
  have h5 : exampleMidRun.rmsd.length < 2 ^ 31 := by simp [exampleMidRun]
  ⟨⟨h1, h2, h3, h4, h5⟩,
    C9_exhausted_source_fails exampleWorld exampleMidRun ⟨"D", 4⟩ exampleConv [] []
      exampleMidRun [] [] h1 h2 h3 h4 h5⟩

/-- C8 at a conformer titled `B` arriving in the middle of the example run:
the entry `C` is skipped. -/
theorem C8_cursor_skips_and_reports_witness :
    (firstMolBlock exampleWorld exampleMidRun exampleConv [] [] = ⟨true, exampleMidRun, [], []⟩ ∧
      exampleMidRun.oldtitle ≠ "B" ∧
      exampleMidRun.rfs.pending = [⟨"C", 5⟩] ++ ⟨"B", 2⟩ :: [] ∧
      (∀ e ∈ [(⟨"C", 5⟩ : OBMol)], e.title ≠ "B") ∧ (⟨"B", 2⟩ : OBMol).title = "B" ∧
      (∀ x ∈ exampleMidRun.rmsd, x ≤ 100) ∧ exampleMidRun.rmsd.length < 2 ^ 31 ∧
      (exampleConv.IsLast = true → exampleWorld.Align ⟨"B", 2⟩ ⟨"B", 3⟩ ≤ 100)) ∧
    ∃ r self1 closing tail,
      WriteMolecule exampleWorld exampleMidRun (OBBase.mol ⟨"B", 3⟩) exampleConv [] [] = some r ∧
      r.ret = true ∧
      (∀ o, WriteOutput exampleMidRun o = some (self1, o ++ closing)) ∧
      r.ofs = []
        ++ (if exampleConv.OutputIndex = 1 then []
            else numConfsLine exampleMidRun.rmsd.length)
        ++ closing ++ zeroConfReports (uincr exampleMidRun.N) [⟨"C", 5⟩]
        ++ moleculeHeader ((exampleMidRun.N + [(⟨"C", 5⟩ : OBMol)].length + 1) % 2 ^ 32)
            (⟨"B", 2⟩ : OBMol).title
        ++ tail ∧
      (exampleConv.IsLast = false → tail = []) ∧
      r.self.N = (exampleMidRun.N + [(⟨"C", 5⟩ : OBMol)].length + 1) % 2 ^ 32 ∧
      r.self.rfs.pending = [] ∧ r.self.align_ref = ⟨"B", 2⟩ :=
  have h1 : firstMolBlock exampleWorld exampleMidRun exampleConv [] [] =
      ⟨true, exampleMidRun, [], []⟩ := rfl
  have h2 : exampleMidRun.oldtitle ≠ "B" := by decide
  have h3 : exampleMidRun.rfs.pending = [⟨"C", 5⟩] ++ ⟨"B", 2⟩ :: [] := rfl
  have h4 : ∀ e ∈ [(⟨"C", 5⟩ : OBMol)], e.title ≠ "B" := by decide
  have h5 : ∀ x ∈ exampleMidRun.rmsd, x ≤ 100 := by
    intro x hx
    simp only [exampleMidRun, List.mem_cons, List.mem_singleton, List.not_mem_nil, or_false] at hx
    rcases hx with rfl | rfl <;> norm_num
  have h6 : exampleMidRun.rmsd.length < 2 ^ 31 := by simp [exampleMidRun]
  have h7 : exampleConv.IsLast = true → exampleWorld.Align ⟨"B", 2⟩ ⟨"B", 3⟩ ≤ 100 := by
    intro h
    exact absurd h (by decide)
  ⟨⟨h1, h2, h3, h4, rfl, h5, h6, h7⟩,
    C8_cursor_skips_and_reports exampleWorld exampleMidRun ⟨"B", 3⟩ exampleConv [] []
      exampleMidRun [] [] [⟨"C", 5⟩] ⟨"B", 2⟩ [] h1 h2 h3 h4 rfl h5 h6 h7⟩

/-! ## Evaluating a run -/

theorem WriteOutput_nil (self : ConfabReport) (ofs : List Item) (hr : self.rmsd = []) :
    WriteOutput self ofs = some (self, ofs) := by
  unfold WriteOutput
  rw [hr]
  rfl

theorem WriteOutput_single (self : ConfabReport) (x : ℚ) (ofs : List Item)
    (hr : self.rmsd = [x]) (hx : x ≤ 100) :
    WriteOutput self ofs =
      some ({ self with
                cutoff_passed :=
                  if x ≤ self.rmsd_cutoff then uincr self.cutoff_passed
                  else self.cutoff_passed },
        ofs ++ [Item.str "..minimum rmsd = ", Item.dbl x, Item.str "\n"]
          ++ cutoffsLine binvals
          ++ countsLine (binvals.map (fun t => if x ≤ t then (1 : Int) else 0))
          ++ passedLine x self.rmsd_cutoff) := by
  have hs : List.insertionSort (· ≤ ·) self.rmsd = x :: [] := by rw [hr]; rfl
  rw [WriteOutput_sorted self ofs x [] hs (by rw [hr]; simpa using hx) (by rw [hr]; simp)]
  rcases self with ⟨⟨io, fl, pd⟩, rfn, rmol, aref, cp, n, ot, rmsd, cut⟩
  simp only [] at hr
  subst hr
  simp [List.countP_cons]

set_option maxRecDepth 4000 in
/-- C6 (the code departs from the claim): a run with options `f = ref.sdf` and
`r = 1.0` over one conformer of `A` whose RMSD is 0.7.  Option `r` is never
read: the cutoff printed is 0.5, the group is reported as not passed and
`cutoff_passed` is 0, although 0.7 is within the cutoff the user gave. -/
theorem C6_option_r_is_ignored :
    Convert exampleWorld (some "ref.sdf") (some "1.0") "confs.sdf" [⟨"A", 6⟩] 1
        ConfabReport.ConfabReport [] [] =
      some ⟨true,
        { rfs := ⟨true, false, [⟨"C", 5⟩, ⟨"B", 2⟩]⟩, rfilename := some "ref.sdf",
          rmol := ⟨"A", 1⟩, align_ref := ⟨"A", 1⟩, cutoff_passed := 0, N := 1, oldtitle := "A",
          rmsd := [7 / 10], rmsd_cutoff := 1 / 2 },
        [Item.str "**Generating Confab Report ", Item.str "\n",
          Item.str "..Reference file = ", Item.str "ref.sdf", Item.str "\n",
          Item.str "..Conformer file = ", Item.str "confs.sdf", Item.str "\n\n",
          Item.str "..Molecule ", Item.uint 1, Item.str "\n..title = ", Item.str "A",
          Item.str "\n",
          Item.str "..number of confs = ", Item.uint 1, Item.str "\n",
          Item.str "..minimum rmsd = ", Item.dbl (7 / 10), Item.str "\n"]
          ++ cutoffsLine binvals ++ countsLine [0, 0, 1, 1, 1, 1, 1, 1]
          ++ [Item.str "..cutoff (", Item.dbl (1 / 2), Item.str ") passed = ",
              Item.str " No\n", Item.str "\n",
              Item.str "\n**Summary\n..number of molecules = ", Item.uint 1,
              Item.str "\n..less than cutoff(", Item.dbl (1 / 2), Item.str ") = ", Item.uint 0,
              Item.str "\n"], []⟩ := by
  simp [Convert, WriteMolecule, firstMolBlock, openReference, exampleWorld, ifstream_open,
    ConfabReport.ConfabReport, processConformer, titleChange, OBMol.empty, Read, skipLoop,
    alignAndFinish, WriteOutput_nil]
  rw [WriteOutput_single _ ((1 + 6) / 10) _ rfl (by norm_num)]
  norm_num [binvals, binvals_arr, passedLine, countsLine, uincr, moleculeHeader, numConfsLine,
    summaryBlock]

/-- C7 (the code departs from the claim): the first conformer of a run has the
empty title.  No reference entry is read, although the source starts with an
entry that has the empty title; the RMSD recorded is the aligner's result
against the default-constructed molecule. -/
theorem C7_untitled_first_conformer_has_no_reference :
    WriteMolecule exampleWorldUntitled ConfabReport.ConfabReport (OBBase.mol ⟨"", 2⟩)
        ⟨1, some "ref.sdf", none, "confs.sdf", false⟩ [] [] =
      some ⟨true,
        { rfs := ⟨true, false, [⟨"", 9⟩, ⟨"A", 1⟩]⟩, rfilename := some "ref.sdf",
          rmol := OBMol.empty, align_ref := OBMol.empty, cutoff_passed := 0, N := 0,
          oldtitle := "", rmsd := [exampleWorldUntitled.Align OBMol.empty ⟨"", 2⟩],
          rmsd_cutoff := 1 / 2 },
        [Item.str "**Generating Confab Report ", Item.str "\n",
          Item.str "..Reference file = ", Item.str "ref.sdf", Item.str "\n",
          Item.str "..Conformer file = ", Item.str "confs.sdf", Item.str "\n\n"], []⟩ := by
  simp [WriteMolecule, firstMolBlock, openReference, exampleWorldUntitled, ifstream_open,
    ConfabReport.ConfabReport, processConformer, OBMol.empty, alignAndFinish]

/-! ## A run as a sequence of `processConformer` calls -/

theorem Convert_later (W : World) (f r : Option String) (inF : String) (confs : List OBMol) :
    ∀ (idx : Nat) (self : ConfabReport) (ofs cerr : List Item), 2 ≤ idx →
      Convert W f r inF confs idx self ofs cerr = runBody W confs false self ofs cerr := by
  induction confs with
  | nil => intro idx self ofs cerr _; rfl
  | cons c rest ih =>
    intro idx self ofs cerr hidx
    have h1 : (idx == 1) = false := by
      simp only [beq_eq_false_iff_ne, ne_eq]
      omega
    rw [Convert, runBody]
    have hwm : WriteMolecule W self (OBBase.mol c) ⟨idx, f, r, inF, rest.isEmpty⟩ ofs cerr =
        processConformer W self c false rest.isEmpty ofs cerr := by
      simp [WriteMolecule, firstMolBlock, h1]
    rw [hwm]
    cases processConformer W self c false rest.isEmpty ofs cerr with
    | none => rfl
    | some r1 =>
      simp only []
      by_cases hr : r1.ret = true
      · rw [if_pos hr, if_pos hr]
        exact ih (idx + 1) r1.self r1.ofs r1.cerr (by omega)
      · rw [if_neg hr, if_neg hr]

theorem Convert_first (W : World) (f r : Option String) (inF : String) (c : OBMol)
    (rest : List OBMol) (self : ConfabReport) (ofs cerr : List Item) :
    Convert W f r inF (c :: rest) 1 self ofs cerr =
      if (openReference W self ⟨1, f, r, inF, rest.isEmpty⟩ ofs cerr).ret then
        runBody W (c :: rest) true
          (openReference W self ⟨1, f, r, inF, rest.isEmpty⟩ ofs cerr).self
          (openReference W self ⟨1, f, r, inF, rest.isEmpty⟩ ofs cerr).ofs
          (openReference W self ⟨1, f, r, inF, rest.isEmpty⟩ ofs cerr).cerr
      else some (openReference W self ⟨1, f, r, inF, rest.isEmpty⟩ ofs cerr) := by
  rw [Convert, runBody]
  simp only [WriteMolecule, firstMolBlock, beq_self_eq_true, if_true]
  by_cases h0 : (openReference W self ⟨1, f, r, inF, rest.isEmpty⟩ ofs cerr).ret = true
  · simp only [h0, if_true]
    cases processConformer W (openReference W self ⟨1, f, r, inF, rest.isEmpty⟩ ofs cerr).self
        c true rest.isEmpty (openReference W self ⟨1, f, r, inF, rest.isEmpty⟩ ofs cerr).ofs
        (openReference W self ⟨1, f, r, inF, rest.isEmpty⟩ ofs cerr).cerr with
    | none => rfl
    | some r1 =>
      simp only []
      by_cases hr : r1.ret = true
      · rw [if_pos hr, if_pos hr]
        exact Convert_later W f r inF rest 2 r1.self r1.ofs r1.cerr (le_refl 2)
      · rw [if_neg hr, if_neg hr]
  · simp [h0]

theorem closeRun_fields (self : ConfabReport) (ofs cerr : List Item) (res : Ret)
    (h : closeRun self ofs cerr = some res) :
    res.ret = true ∧
    res.self.cutoff_passed =
      (if minWithin self.rmsd_cutoff self.rmsd then uincr self.cutoff_passed
       else self.cutoff_passed) ∧
    res.self.N = self.N ∧ res.self.rmsd_cutoff = self.rmsd_cutoff ∧
    res.self.rfs = self.rfs ∧
    ∃ t, res.ofs = ofs ++ numConfsLine self.rmsd.length ++ t ++ summaryBlock res.self := by
  unfold closeRun at h
  cases hw : WriteOutput self (ofs ++ numConfsLine self.rmsd.length) with
  | none => rw [hw] at h; simp at h
  | some p =>
    obtain ⟨s2, o1⟩ := p
    rw [hw] at h
    simp only [Option.some.injEq] at h
    subst h
    obtain ⟨hs2, t, ht, -⟩ := WriteOutput_some _ _ _ _ hw
    refine ⟨rfl, by rw [hs2], by rw [hs2], by rw [hs2], by rw [hs2], t, ?_⟩
    simp only [ht]

/-- Lines 196-209 as a step of a run. -/
theorem alignAndFinish_step (W : World) (self : ConfabReport) (c : OBMol) (title : String)
    (isLast : Bool) (ofs cerr : List Item) :
    (alignAndFinish W self c title isLast ofs).map (fun r => (⟨true, r.1, r.2, cerr⟩ : Ret)) =
      if isLast then
        closeRun { self with rmsd := self.rmsd ++ [W.Align self.align_ref c],
                             oldtitle := title } ofs cerr
      else
        some ⟨true, { self with rmsd := self.rmsd ++ [W.Align self.align_ref c],
                                oldtitle := title }, ofs, cerr⟩ := by
  unfold alignAndFinish closeRun
  cases isLast with
  | false => simp
  | true =>
    simp only [if_true]
    generalize WriteOutput _ _ = w
    cases w with
    | none => rfl
    | some p => rfl

theorem runBody_of_closeRun (W : World) (self : ConfabReport) (ofs cerr : List Item) :
    (match closeRun self ofs cerr with
      | none => none
      | some r => if r.ret then runBody W [] false r.self r.ofs r.cerr else some r) =
      closeRun self ofs cerr := by
  cases h : closeRun self ofs cerr with
  | none => rfl
  | some r =>
    have hr := (closeRun_fields self ofs cerr r h).1
    simp only [hr, if_true, runBody]
    cases r
    simp only [] at hr
    subst hr
    rfl

/-- A block of conformers that carry the title in force: their RMSD values are
appended to the list; the last conformer of the run closes the group. -/
theorem runBody_block (W : World) (rest : List OBMol) (cerr : List Item) (g : List OBMol) :
    ∀ (self : ConfabReport) (ofs : List Item),
      (∀ d ∈ g, d.title = self.oldtitle) → g ++ rest ≠ [] →
      runBody W (g ++ rest) false self ofs cerr =
        if rest = [] then
          closeRun { self with rmsd := self.rmsd ++ g.map (W.Align self.align_ref) } ofs cerr
        else
          runBody W rest false
            { self with rmsd := self.rmsd ++ g.map (W.Align self.align_ref) } ofs cerr := by
  induction g with
  | nil =>
    intro self ofs _ hne
    have hrest : rest ≠ [] := by simpa using hne
    simp [hrest]
  | cons d g ih =>
    intro self ofs htitle _
    have hd : d.title = self.oldtitle := htitle d (List.mem_cons_self _ _)
    have hstate : ∀ l : List ℚ, ({ self with rmsd := l, oldtitle := d.title } : ConfabReport) =
        { self with rmsd := l } := by
      intro l
      rw [hd]
    rw [List.cons_append, runBody]
    have hpc : processConformer W self d false (g ++ rest).isEmpty ofs cerr =
        (alignAndFinish W self d d.title (g ++ rest).isEmpty ofs).map
          (fun r => (⟨true, r.1, r.2, cerr⟩ : Ret)) := by
      unfold processConformer
      rw [if_neg (by simp [hd])]
    rw [hpc, alignAndFinish_step, hstate]
    by_cases hgr : g ++ rest = []
    · have hg : g = [] := (List.append_eq_nil.mp hgr).1
      have hr : rest = [] := (List.append_eq_nil.mp hgr).2
      subst hg hr
      simp only [List.isEmpty_nil, if_true, List.nil_append, List.map_cons, List.map_nil]
      exact runBody_of_closeRun W _ ofs cerr
    · have hne : (g ++ rest).isEmpty = false := by
        cases hx : g ++ rest with
        | nil => exact absurd hx hgr
        | cons _ _ => rfl
      simp only [hne, Bool.false_eq_true, if_false, if_true]
      rw [ih _ ofs (fun x hx => by
        simp only []
        exact htitle x (List.mem_cons_of_mem _ hx)) hgr]
      simp only [List.map_cons, List.append_assoc, List.singleton_append]

theorem titleChange_inv (self : ConfabReport) (title : String) (firstMol : Bool)
    (ofs : List Item) (self1 : ConfabReport) (ofs1 : List Item)
    (h : titleChange self title firstMol ofs = some (true, self1, ofs1)) :
    ∃ sk m rest,
      AdvanceTo title self.rfs.pending = some (sk, m, rest) ∧
      self1.rmsd = [] ∧ self1.align_ref = m ∧ self1.rfs.pending = rest ∧
      self1.N = uincr^[sk.length + 1] self.N ∧
      self1.cutoff_passed =
        (if minWithin self.rmsd_cutoff self.rmsd then uincr self.cutoff_passed
         else self.cutoff_passed) ∧
      self1.rmsd_cutoff = self.rmsd_cutoff := by
  cases hw : WriteOutput self
      (if !firstMol then ofs ++ numConfsLine self.rmsd.length else ofs) with
  | none =>
    unfold titleChange at h
    simp only [hw] at h
    simp at h
  | some p =>
    obtain ⟨sA, oA⟩ := p
    have hsA := (WriteOutput_some _ _ _ _ hw).1
    cases ha : AdvanceTo title self.rfs.pending with
    | none =>
      rw [titleChange_exhausted self title firstMol ofs sA oA hw ha] at h
      simp at h
    | some q =>
      obtain ⟨sk, m, rest⟩ := q
      rw [titleChange_found self title firstMol ofs sA oA sk m rest hw ha] at h
      simp only [Option.some.injEq, Prod.mk.injEq, true_and] at h
      obtain ⟨h1, -⟩ := h
      subst h1
      refine ⟨sk, m, rest, rfl, rfl, rfl, rfl, rfl, ?_, ?_⟩
      · simp only [hsA]
      · simp only [hsA]

/-- The first conformer of a group followed by the rest of the group. -/
theorem runBody_group (W : World) (self1 : ConfabReport) (c : OBMol) (g rest : List OBMol)
    (ofs1 cerr : List Item) (hr : self1.rmsd = []) (hg : ∀ d ∈ g, d.title = c.title) :
    (match (alignAndFinish W self1 c c.title (g ++ rest).isEmpty ofs1).map
        (fun r => (⟨true, r.1, r.2, cerr⟩ : Ret)) with
      | none => none
      | some r => if r.ret then runBody W (g ++ rest) false r.self r.ofs r.cerr else some r) =
      if rest = [] then
        closeRun { self1 with rmsd := (c :: g).map (W.Align self1.align_ref),
                              oldtitle := c.title } ofs1 cerr
      else
        runBody W rest false
          { self1 with rmsd := (c :: g).map (W.Align self1.align_ref),
                       oldtitle := c.title } ofs1 cerr := by
  rw [alignAndFinish_step, hr]
  by_cases hgr : g ++ rest = []
  · have hg0 : g = [] := (List.append_eq_nil.mp hgr).1
    have hr0 : rest = [] := (List.append_eq_nil.mp hgr).2
    subst hg0 hr0
    simp only [List.isEmpty_nil, if_true, List.nil_append, List.map_cons, List.map_nil]
    exact runBody_of_closeRun W _ ofs1 cerr
  · have hne : (g ++ rest).isEmpty = false := by
      cases hx : g ++ rest with
      | nil => exact absurd hx hgr
      | cons _ _ => rfl
    simp only [hne, Bool.false_eq_true, if_false, if_true]
    rw [runBody_block W rest cerr g _ ofs1 (fun d hd => by simp only []; exact hg d hd) hgr]
    simp only [List.map_cons, List.nil_append, List.singleton_append]

/-- Entering a group: what the title-change block (or its absence, for a first
group that carries the title in force) leaves for the alignment. -/
theorem runBody_enter (W : World) (c : OBMol) (rest0 : List OBMol) (fm : Bool)
    (self : ConfabReport) (ofs cerr : List Item) (res : Ret)
    (hrun : runBody W (c :: rest0) fm self ofs cerr = some res) (hret : res.ret = true)
    (hsame : self.oldtitle = c.title → self.rmsd = []) :
    ∃ self1 ofs1 sk, self1.rmsd = [] ∧
      (match (alignAndFinish W self1 c c.title rest0.isEmpty ofs1).map
          (fun r => (⟨true, r.1, r.2, cerr⟩ : Ret)) with
        | none => none
        | some r => if r.ret then runBody W rest0 false r.self r.ofs r.cerr else some r)
        = some res ∧
      (self.oldtitle = c.title →
        sk = [] ∧ self1.align_ref = self.align_ref ∧ self1.rfs.pending = self.rfs.pending ∧
          self1.N = self.N) ∧
      (self.oldtitle ≠ c.title →
        AdvanceTo c.title self.rfs.pending = some (sk, self1.align_ref, self1.rfs.pending) ∧
          self1.N = uincr^[sk.length + 1] self.N) ∧
      self1.cutoff_passed =
        uincr^[if minWithin self.rmsd_cutoff self.rmsd then 1 else 0] self.cutoff_passed ∧
      self1.rmsd_cutoff = self.rmsd_cutoff := by
  rw [runBody] at hrun
  by_cases ht : self.oldtitle = c.title
  · have hpc : processConformer W self c fm rest0.isEmpty ofs cerr =
        (alignAndFinish W self c c.title rest0.isEmpty ofs).map
          (fun r => (⟨true, r.1, r.2, cerr⟩ : Ret)) := by
      unfold processConformer
      rw [if_neg (by simp [ht])]
    rw [hpc] at hrun
    refine ⟨self, ofs, [], hsame ht, hrun, fun _ => ⟨rfl, rfl, rfl, rfl⟩,
      fun h => absurd ht h, ?_, rfl⟩
    rw [hsame ht]
    simp [minWithin]
  · unfold processConformer at hrun
    rw [if_pos ht] at hrun
    cases htc : titleChange self c.title fm ofs with
    | none =>
      rw [htc] at hrun
      simp at hrun
    | some p =>
      obtain ⟨b, self1, ofs1⟩ := p
      rw [htc] at hrun
      cases b with
      | false =>
        simp only [Bool.false_eq_true, if_false, Option.some.injEq] at hrun
        rw [← hrun] at hret
        simp at hret
      | true =>
        simp only [] at hrun
        obtain ⟨sk, m, rest, hadv, h1, h2, h3, h4, h5, h6⟩ :=
          titleChange_inv self c.title fm ofs self1 ofs1 htc
        refine ⟨self1, ofs1, sk, h1, hrun, fun h => absurd h ht, fun _ => ?_, ?_, h6⟩
        · rw [h2, h3]
          exact ⟨hadv, h4⟩
        · rw [h5]
          split <;> rfl

theorem groupsByTitle_cons (c : OBMol) (rest0 : List OBMol) :
    ∃ g rest, rest0 = g ++ rest ∧ (∀ d ∈ g, d.title = c.title) ∧
      (∀ d ∈ rest.head?, d.title ≠ c.title) ∧
      groupsByTitle (c :: rest0) = (c :: g) :: groupsByTitle rest := by
  refine ⟨rest0.takeWhile (fun d => d.title == c.title),
    rest0.dropWhile (fun d => d.title == c.title), ?_, ?_, ?_, ?_⟩
  · exact (List.takeWhile_append_dropWhile _ _).symm
  · intro d hd
    have := List.mem_takeWhile_imp hd
    simpa using this
  · intro d hd
    have h := List.head?_dropWhile_not (fun d => d.title == c.title) rest0
    rw [Option.mem_def] at hd
    rw [hd] at h
    simpa using h
  · rw [groupsByTitle]

theorem planFrom_cons (W : World) (title : String) (ref : OBMol) (src : List OBMol)
    (c : OBMol) (g : List OBMol) (gs : List (List OBMol)) :
    planFrom W title ref src ((c :: g) :: gs) =
      if c.title = title then
        (planFrom W c.title ref src gs).map
          (fun p => ⟨[], ref, (c :: g).map (W.Align ref)⟩ :: p)
      else
        match AdvanceTo c.title src with
        | none => none
        | some (sk, m, rest) =>
          (planFrom W c.title m rest gs).map
            (fun p => ⟨sk, m, (c :: g).map (W.Align m)⟩ :: p) := by
  rw [planFrom]
  simp only [List.head?_cons, Option.map_some', Option.getD_some]

theorem uincr_ite (b : Bool) (x : Nat) :
    (if b then uincr x else x) = uincr^[if b then 1 else 0] x := by
  cases b <;> rfl

/-- A successful run follows the plan of its groups: the counters at the end
are the counters at the start advanced once for each group whose minimum is
within the cutoff (the group that is open at the start included) and once for
each reference entry read. -/
theorem runBody_plan (W : World) (n : Nat) :
    ∀ (confs : List OBMol) (fm : Bool) (self : ConfabReport) (ofs cerr : List Item) (res : Ret),
      confs.length ≤ n → confs ≠ [] →
      (∀ c ∈ confs.head?, self.oldtitle = c.title → self.rmsd = []) →
      runBody W confs fm self ofs cerr = some res → res.ret = true →
      ∃ plan,
        planFrom W self.oldtitle self.align_ref self.rfs.pending (groupsByTitle confs)
          = some plan ∧
        res.self.cutoff_passed =
          uincr^[(if minWithin self.rmsd_cutoff self.rmsd then 1 else 0)
            + plan.countP (fun p => minWithin self.rmsd_cutoff p.rmsd)] self.cutoff_passed ∧
        ((∀ c ∈ confs.head?, self.oldtitle ≠ c.title) →
          res.self.N =
              uincr^[plan.length + (plan.map (fun p => p.skipped.length)).sum] self.N ∧
            plan.length + (plan.map (fun p => p.skipped.length)).sum
              + res.self.rfs.pending.length = self.rfs.pending.length) ∧
        res.self.rmsd_cutoff = self.rmsd_cutoff ∧
        ∃ pre, res.ofs = pre ++ summaryBlock res.self := by
  induction n with
  | zero =>
    intro confs fm self ofs cerr res hlen hne
    exact absurd (List.length_eq_zero.mp (Nat.le_zero.mp hlen)) hne
  | succ n ih =>
    intro confs fm self ofs cerr res hlen hne hsame hrun hret
    cases confs with
    | nil => exact absurd rfl hne
    | cons c rest0 =>
      obtain ⟨g, rest, hsplit, hg, hhead, hgroups⟩ := groupsByTitle_cons c rest0
      subst hsplit
      obtain ⟨s1, o1, sk, hr1, hmatch, hA1, hA2, hcp1, hcut1⟩ :=
        runBody_enter W c (g ++ rest) fm self ofs cerr res hrun hret
          (hsame c (by simp))
      rw [runBody_group W s1 c g rest o1 cerr hr1 hg] at hmatch
      have hplan : ∀ gs, planFrom W self.oldtitle self.align_ref self.rfs.pending
          ((c :: g) :: gs) =
          (planFrom W c.title s1.align_ref s1.rfs.pending gs).map
            (fun p => ⟨sk, s1.align_ref, (c :: g).map (W.Align s1.align_ref)⟩ :: p) := by
        intro gs
        rw [planFrom_cons]
        by_cases ht : self.oldtitle = c.title
        · obtain ⟨h1, h2, h3, -⟩ := hA1 ht
          rw [if_pos ht.symm, h1, h2, h3]
        · obtain ⟨h1, -⟩ := hA2 ht
          rw [if_neg (fun h => ht h.symm), h1]
      have hN1 : self.oldtitle ≠ c.title → s1.N = uincr^[sk.length + 1] self.N :=
        fun ht => (hA2 ht).2
      have hsrc1 : self.oldtitle ≠ c.title →
          sk.length + 1 + s1.rfs.pending.length = self.rfs.pending.length := by
        intro ht
        have h := (AdvanceTo_some _ _ _ _ _ (hA2 ht).1).1
        rw [h]
        simp only [List.length_append, List.length_cons]
        omega
      rw [hgroups, hplan]
      by_cases hrest : rest = []
      · subst hrest
        rw [if_pos rfl] at hmatch
        obtain ⟨-, hcp, hN, hcut, hrfs, t, hofs⟩ := closeRun_fields _ _ _ _ hmatch
        refine ⟨[⟨sk, s1.align_ref, (c :: g).map (W.Align s1.align_ref)⟩], ?_, ?_, ?_, ?_, ?_⟩
        · rw [groupsByTitle]
          rfl
        · rw [hcp]
          simp only [hcut1, hcp1]
          rw [uincr_ite, ← Function.iterate_add_apply]
          congr 1
          simp only [List.countP_cons, List.countP_nil]
          omega
        · intro hne1
          have hs := hsrc1 (hne1 c (by simp))
          rw [hN, hrfs]
          simp only []
          rw [hN1 (hne1 c (by simp))]
          constructor
          · congr 1
            simp
            omega
          · simp
            omega
        · rw [hcut]
          exact hcut1
        · exact ⟨_, hofs⟩
      · rw [if_neg hrest] at hmatch
        have hhead1 : ∀ d ∈ rest.head?, c.title ≠ d.title := fun d hd h => hhead d hd h.symm
        obtain ⟨plan, hp, hcp, hN, hcut, hofs⟩ := ih rest false _ o1 cerr res
          (by
            simp only [List.length_cons, List.length_append] at hlen
            omega)
          hrest (fun d hd h => absurd h (hhead1 d hd)) hmatch hret
        simp only [] at hp hcp hN hcut
        refine ⟨⟨sk, s1.align_ref, (c :: g).map (W.Align s1.align_ref)⟩ :: plan, ?_, ?_, ?_, ?_,
          hofs⟩
        · rw [hp]
          rfl
        · rw [hcp]
          simp only [hcut1, hcp1]
          rw [← Function.iterate_add_apply]
          congr 1
          simp only [List.countP_cons]
          omega
        · intro hne1
          have hs := hsrc1 (hne1 c (by simp))
          obtain ⟨hN2, hs2⟩ := hN hhead1
          rw [hN2, hN1 (hne1 c (by simp)), ← Function.iterate_add_apply]
          constructor
          · congr 1
            simp only [List.length_cons, List.map_cons, List.sum_cons]
            omega
          · simp only [List.length_cons, List.map_cons, List.sum_cons]
            omega
        · rw [hcut]
          exact hcut1

theorem planFrom_length (W : World) (gs : List (List OBMol)) :
    ∀ (title : String) (ref : OBMol) (src : List OBMol) (plan : List GroupPlan),
      planFrom W title ref src gs = some plan → plan.length = gs.length := by
  induction gs with
  | nil =>
    intro title ref src plan h
    simp only [planFrom, Option.some.injEq] at h
    subst h
    rfl
  | cons g gs ih =>
    intro title ref src plan h
    rw [planFrom] at h
    split at h
    · cases hp : planFrom W ((g.head?.map (fun c => c.title)).getD "") ref src gs with
      | none => rw [hp] at h; simp at h
      | some p =>
        rw [hp] at h
        simp only [Option.map_some', Option.some.injEq] at h
        rw [← h, List.length_cons, List.length_cons, ih _ _ _ _ hp]
    · split at h
      · simp at h
      · next sk m rest _ =>
        cases hp : planFrom W ((g.head?.map (fun c => c.title)).getD "") m rest gs with
        | none => rw [hp] at h; simp at h
        | some p =>
          rw [hp] at h
          simp only [Option.map_some', Option.some.injEq] at h
          rw [← h, List.length_cons, List.length_cons, ih _ _ _ _ hp]

theorem groupsByTitle_length_le (n : Nat) :
    ∀ confs : List OBMol, confs.length ≤ n → (groupsByTitle confs).length ≤ confs.length := by
  induction n with
  | zero =>
    intro confs h
    have : confs = [] := List.length_eq_zero.mp (Nat.le_zero.mp h)
    subst this
    simp [groupsByTitle]
  | succ n ih =>
    intro confs h
    cases confs with
    | nil => simp [groupsByTitle]
    | cons c rest0 =>
      obtain ⟨g, rest, hsplit, -, -, hgroups⟩ := groupsByTitle_cons c rest0
      subst hsplit
      rw [hgroups]
      simp only [List.length_cons, List.length_append] at h ⊢
      have := ih rest (by omega)
      omega

theorem uincr_iterate_zero (k : Nat) (hk : k < 2 ^ 32) : uincr^[k] 0 = k := by
  cases k with
  | zero => rfl
  | succ k =>
    rw [uincr_iterate]
    omega

theorem openReference_ok (W : World) (pConv : OBConversion) (ofs cerr : List Item)
    (h : (openReference W ConfabReport.ConfabReport pConv ofs cerr).ret = true) :
    ∃ f src, pConv.opt_f = some f ∧ W.files f = some src ∧
      (openReference W ConfabReport.ConfabReport pConv ofs cerr).self =
        { ConfabReport.ConfabReport with rfilename := some f, rfs := ⟨true, false, src⟩ } := by
  unfold openReference at h ⊢
  cases hf : pConv.opt_f with
  | none => rw [hf] at h; simp at h
  | some f =>
    rw [hf] at h
    simp only [] at h ⊢
    cases hfmt : W.FormatFromExt f with
    | none => rw [hfmt] at h; simp at h
    | some fmt =>
      rw [hfmt] at h
      simp only [] at h ⊢
      cases hfile : W.files f with
      | none =>
        simp [ifstream_open, ConfabReport.ConfabReport, hfile] at h
      | some src =>
        refine ⟨f, src, rfl, hfile, ?_⟩
        simp [ifstream_open, ConfabReport.ConfabReport, hfile]

/-- A successful run from a freshly constructed object follows the plan of
its groups over the entries of the reference file. -/
theorem Convert_plan (W : World) (f r : Option String) (inF : String) (confs : List OBMol)
    (res : Ret)
    (hrun : Convert W f r inF confs 1 ConfabReport.ConfabReport [] [] = some res)
    (hret : res.ret = true) (hne : confs ≠ []) :
    ∃ fname src plan, f = some fname ∧ W.files fname = some src ∧
      planFrom W "" OBMol.empty src (groupsByTitle confs) = some plan ∧
      res.self.cutoff_passed =
        uincr^[plan.countP (fun p => minWithin (1 / 2) p.rmsd)] 0 ∧
      ((∀ c ∈ confs.head?, c.title ≠ "") →
        res.self.N = uincr^[plan.length + (plan.map (fun p => p.skipped.length)).sum] 0 ∧
          plan.length + (plan.map (fun p => p.skipped.length)).sum
            + res.self.rfs.pending.length = src.length) ∧
      res.self.rmsd_cutoff = 1 / 2 ∧
      ∃ pre, res.ofs = pre ++ summaryBlock res.self := by
  cases confs with
  | nil => exact absurd rfl hne
  | cons c rest =>
    rw [Convert_first] at hrun
    by_cases h0 : (openReference W ConfabReport.ConfabReport
        ⟨1, f, r, inF, rest.isEmpty⟩ [] []).ret = true
    · rw [if_pos h0] at hrun
      obtain ⟨fname, src, hf, hfile, hself⟩ := openReference_ok W _ [] [] h0
      rw [hself] at hrun
      obtain ⟨plan, hp, hcp, hN, hcut, hofs⟩ := runBody_plan W (c :: rest).length (c :: rest)
        true _ _ _ res (le_refl _) hne
        (fun _ _ _ => rfl) hrun hret
      refine ⟨fname, src, plan, hf, hfile, hp, ?_, ?_, hcut, hofs⟩
      · rw [hcp]
        simp [ConfabReport.ConfabReport, minWithin]
      · intro hfirst
        have := hN (fun d hd h => hfirst d hd h.symm)
        simpa [ConfabReport.ConfabReport] using this
    · rw [if_neg h0] at hrun
      simp only [Option.some.injEq] at hrun
      rw [← hrun] at hret
      exact absurd hret h0

/-! ## The example run -/

theorem WriteOutput_pair (self : ConfabReport) (x y : ℚ) (ofs : List Item)
    (hr : self.rmsd = [x, y]) (hxy : x ≤ y) (hy : y ≤ 100) :
    WriteOutput self ofs =
      some ({ self with
                cutoff_passed :=
                  if x ≤ self.rmsd_cutoff then uincr self.cutoff_passed
                  else self.cutoff_passed },
        ofs ++ [Item.str "..minimum rmsd = ", Item.dbl x, Item.str "\n"]
          ++ cutoffsLine binvals
          ++ countsLine (binvals.map
              (fun t => (if x ≤ t then (1 : Int) else 0) + (if y ≤ t then 1 else 0)))
          ++ passedLine x self.rmsd_cutoff) := by
  have hs : List.insertionSort (· ≤ ·) self.rmsd = x :: [y] := by
    rw [hr]
    simp [List.insertionSort, List.orderedInsert, hxy]
  rw [WriteOutput_sorted self ofs x [y] hs
    (by
      rw [hr]
      intro z hz
      simp only [List.mem_cons, List.mem_singleton, List.not_mem_nil, or_false] at hz
      rcases hz with rfl | rfl
      · exact le_trans hxy hy
      · exact hy)
    (by rw [hr]; simp)]
  rcases self with ⟨⟨io, fl, pd⟩, rfn, rmol, aref, cp, n, ot, rmsd, cut⟩
  simp only [] at hr
  subst hr
  simp only [Option.some.injEq, Prod.mk.injEq, true_and]
  congr 3
  apply List.map_congr_left
  intro t _
  simp only [List.countP_cons, List.countP_nil, decide_eq_true_eq]
  split <;> split <;> simp

theorem exampleRun_step1 (r : Option String) :
    WriteMolecule exampleWorld ConfabReport.ConfabReport (OBBase.mol ⟨"A", 2⟩)
        ⟨1, some "ref.sdf", r, "confs.sdf", false⟩ [] [] =
      some ⟨true,
        { exampleMidRun with rfs := ⟨true, false, [⟨"C", 5⟩, ⟨"B", 2⟩]⟩, rmsd := [3 / 10] },
        [Item.str "**Generating Confab Report ", Item.str "\n",
          Item.str "..Reference file = ", Item.str "ref.sdf", Item.str "\n",
          Item.str "..Conformer file = ", Item.str "confs.sdf", Item.str "\n\n"]
          ++ moleculeHeader 1 "A", []⟩ := by
  simp [WriteMolecule, firstMolBlock, openReference, exampleWorld, ifstream_open,
    ConfabReport.ConfabReport, processConformer, titleChange, OBMol.empty, Read, skipLoop,
    alignAndFinish, WriteOutput_nil, exampleMidRun, uincr]
  norm_num

theorem exampleRun_step2 (r : Option String) (ofs : List Item) :
    WriteMolecule exampleWorld
        { exampleMidRun with rfs := ⟨true, false, [⟨"C", 5⟩, ⟨"B", 2⟩]⟩, rmsd := [3 / 10] }
        (OBBase.mol ⟨"A", 6⟩) ⟨2, some "ref.sdf", r, "confs.sdf", false⟩ ofs [] =
      some ⟨true, exampleMidRun, ofs, []⟩ := by
  simp [WriteMolecule, firstMolBlock, exampleWorld, processConformer, alignAndFinish,
    exampleMidRun]
  norm_num

set_option maxRecDepth 8000 in
theorem exampleRun_step3 (r : Option String) :
    WriteMolecule exampleWorld exampleMidRun (OBBase.mol ⟨"B", 3⟩)
        ⟨3, some "ref.sdf", r, "confs.sdf", true⟩
        ([Item.str "**Generating Confab Report ", Item.str "\n",
          Item.str "..Reference file = ", Item.str "ref.sdf", Item.str "\n",
          Item.str "..Conformer file = ", Item.str "confs.sdf", Item.str "\n\n"]
          ++ moleculeHeader 1 "A") [] =
      some exampleRunResult := by
  simp only [WriteMolecule, firstMolBlock, processConformer, titleChange]
  simp only [exampleMidRun, Nat.reduceBEq, Bool.false_eq_true, if_false, if_true, ne_eq,
    String.reduceEq, not_false_eq_true, Bool.not_false, List.length_cons, List.length_nil]
  rw [WriteOutput_pair _ (3 / 10) (7 / 10) _ rfl (by norm_num) (by norm_num)]
  simp [Read, skipLoop, alignAndFinish, exampleWorld]
  rw [WriteOutput_single _ ((2 + 3) / 10) _ rfl (by norm_num)]
  simp only [exampleRunResult, Option.map_some', Option.some.injEq]
  norm_num [binvals, binvals_arr, passedLine, countsLine, uincr, moleculeHeader, numConfsLine,
    summaryBlock, zeroConfReport]

theorem Ret_eta (r : Ret) (h : r.ret = true) : (⟨true, r.self, r.ofs, r.cerr⟩ : Ret) = r := by
  cases r
  simp only [] at h
  subst h
  rfl

theorem Convert_three (W : World) (f r : Option String) (inF : String) (a b c : OBMol)
    (self : ConfabReport) (ofs cerr : List Item) (r1 r2 r3 : Ret)
    (h1 : WriteMolecule W self (OBBase.mol a) ⟨1, f, r, inF, false⟩ ofs cerr = some r1)
    (hr1 : r1.ret = true)
    (h2 : WriteMolecule W r1.self (OBBase.mol b) ⟨2, f, r, inF, false⟩ r1.ofs r1.cerr = some r2)
    (hr2 : r2.ret = true)
    (h3 : WriteMolecule W r2.self (OBBase.mol c) ⟨3, f, r, inF, true⟩ r2.ofs r2.cerr = some r3)
    (hr3 : r3.ret = true) :
    Convert W f r inF [a, b, c] 1 self ofs cerr = some r3 := by
  rw [Convert]
  simp only [List.isEmpty_cons]
  rw [h1]
  simp only [hr1, if_true]
  rw [Convert]
  simp only [List.isEmpty_cons, Nat.reduceAdd]
  rw [h2]
  simp only [hr2, if_true]
  rw [Convert]
  simp only [List.isEmpty_nil, Nat.reduceAdd]
  rw [h3]
  simp only [hr3, if_true]
  rw [Convert]
  exact congrArg some (Ret_eta r3 hr3)

/-- The example run: three calls of `WriteMolecule`. -/
theorem exampleRun_eq (r : Option String) :
    Convert exampleWorld (some "ref.sdf") r "confs.sdf" exampleConfs 1
      ConfabReport.ConfabReport [] [] = some exampleRunResult :=
  Convert_three exampleWorld (some "ref.sdf") r "confs.sdf" ⟨"A", 2⟩ ⟨"A", 6⟩ ⟨"B", 3⟩
    ConfabReport.ConfabReport [] [] _ _ _ (exampleRun_step1 r) rfl (exampleRun_step2 r _) rfl
    (exampleRun_step3 r) rfl

/-! ## Groups and distinct titles -/

theorem groupTitles_cons (c : OBMol) (rest0 : List OBMol) :
    ∃ g rest, rest0 = g ++ rest ∧ (∀ d ∈ g, d.title = c.title) ∧
      groupTitles (c :: rest0) = c.title :: groupTitles rest := by
  obtain ⟨g, rest, h1, h2, -, h4⟩ := groupsByTitle_cons c rest0
  refine ⟨g, rest, h1, h2, ?_⟩
  unfold groupTitles
  rw [h4]
  rfl

theorem mem_groupTitles_iff (n : Nat) :
    ∀ confs : List OBMol, confs.length ≤ n →
      ∀ t, t ∈ confs.map (fun c => c.title) ↔ t ∈ groupTitles confs := by
  induction n with
  | zero =>
    intro confs h t
    have : confs = [] := List.length_eq_zero.mp (Nat.le_zero.mp h)
    subst this
    simp [groupTitles, groupsByTitle]
  | succ n ih =>
    intro confs h t
    cases confs with
    | nil => simp [groupTitles, groupsByTitle]
    | cons c rest0 =>
      obtain ⟨g, rest, hsplit, hg, htitles⟩ := groupTitles_cons c rest0
      subst hsplit
      rw [htitles]
      have hrest := ih rest (by
        simp only [List.length_cons, List.length_append] at h
        omega) t
      simp only [List.map_cons, List.map_append, List.mem_cons, List.mem_append, List.mem_map]
      constructor
      · rintro (h1 | ⟨d, hd, rfl⟩ | ⟨d, hd, rfl⟩)
        · exact Or.inl h1
        · exact Or.inl (hg d hd)
        · exact Or.inr (hrest.mp (List.mem_map.mpr ⟨d, hd, rfl⟩))
      · rintro (h1 | h1)
        · exact Or.inl h1
        · obtain ⟨d, hd, hdt⟩ := List.mem_map.mp (hrest.mpr h1)
          exact Or.inr (Or.inr ⟨d, hd, hdt⟩)

/-- When no two groups share a title, there are as many groups as distinct
titles. -/
theorem distinct_titles_eq_groups (confs : List OBMol) (hnodup : (groupTitles confs).Nodup) :
    (confs.map (fun c => c.title)).dedup.length = (groupsByTitle confs).length := by
  have hmem := mem_groupTitles_iff confs.length confs (le_refl _)
  have hset : (confs.map (fun c => c.title)).toFinset = (groupTitles confs).toFinset := by
    ext t
    simp only [List.mem_toFinset]
    exact hmem t
  rw [← List.card_toFinset, hset, List.toFinset_card_of_nodup hnodup]
  simp [groupTitles]

/-! ## Claims about a complete run -/

/-- C4: for a group with at least one conformer (within the last threshold
and the `int` range), `WriteOutput` writes `Yes` exactly when the minimum RMSD
of the group is at most the cutoff and increments `cutoff_passed` exactly then;
and after a complete run from a freshly constructed object (fewer than 2^32
conformers) the `cutoff_passed` of the summary is the number of molecule
groups of the run whose minimum RMSD is at most the cutoff. -/
theorem C4_cutoff_passed_counts_passing_groups
    (self : ConfabReport) (ofs : List Item)
    (hgroup : self.rmsd ≠ []) (hle : ∀ x ∈ self.rmsd, x ≤ 100)
    (hlen : self.rmsd.length < 2 ^ 31)
    (W : World) (f r : Option String) (inF : String) (confs : List OBMol) (res : Ret)
    (hrun : Convert W f r inF confs 1 ConfabReport.ConfabReport [] [] = some res)
    (hret : res.ret = true) (hne : confs ≠ []) (hsize : confs.length < 2 ^ 32) :
    (∃ m self1 t, self.rmsd.min? = some m ∧
      WriteOutput self ofs = some (self1,
        ofs ++ t ++ [Item.str "..cutoff (", Item.dbl self.rmsd_cutoff, Item.str ") passed = ",
          Item.str (if m ≤ self.rmsd_cutoff then " Yes\n" else " No\n"), Item.str "\n"]) ∧
      self1.cutoff_passed =
        (if m ≤ self.rmsd_cutoff then uincr self.cutoff_passed else self.cutoff_passed)) ∧
    (∃ fname src plan pre, f = some fname ∧ W.files fname = some src ∧
      planFrom W "" OBMol.empty src (groupsByTitle confs) = some plan ∧
      res.self.cutoff_passed = plan.countP (fun p => minWithin res.self.rmsd_cutoff p.rmsd) ∧
      res.ofs = pre ++ summaryBlock res.self) := by
  constructor
  · obtain ⟨m, rest, hs⟩ := insertionSort_ne_nil self.rmsd hgroup
    refine ⟨m, { self with
                rmsd := m :: rest
                cutoff_passed :=
                  if m ≤ self.rmsd_cutoff then uincr self.cutoff_passed
                  else self.cutoff_passed },
      [Item.str "..minimum rmsd = ", Item.dbl m, Item.str "\n"]
      ++ cutoffsLine binvals
      ++ countsLine (binvals.map (fun t => (self.rmsd.countP (fun x => decide (x ≤ t)) : Int))),
      min?_of_sorted self.rmsd m rest hs, ?_, rfl⟩
    rw [WriteOutput_sorted self ofs m rest hs hle hlen]
    simp only [passedLine, List.append_assoc, Option.some.injEq, Prod.mk.injEq, true_and]
    split <;> simp
  · obtain ⟨fname, src, plan, hf, hfile, hp, hcp, -, hcut, pre, hofs⟩ :=
      Convert_plan W f r inF confs res hrun hret hne
    refine ⟨fname, src, plan, pre, hf, hfile, hp, ?_, hofs⟩
    rw [hcp, hcut]
    apply uincr_iterate_zero
    have h1 : plan.countP (fun p => minWithin (1 / 2) p.rmsd) ≤ plan.length :=
      List.countP_le_length _
    have h2 := planFrom_length W _ _ _ _ _ hp
    have h3 := groupsByTitle_length_le confs.length confs (le_refl _)
    omega

/-- C5, amended: after a complete run from a freshly constructed object whose
first conformer has a non-empty title, and in which no two molecule groups
share a title (and the reference file has fewer than 2^32 entries), the
molecule counter `N` of the summary is the number of distinct conformer titles
plus the number of reference entries read and skipped. -/
theorem C5_molecule_counter (W : World) (f : String) (r : Option String) (inF : String)
    (c : OBMol) (rest : List OBMol) (src : List OBMol) (res : Ret)
    (hrun : Convert W (some f) r inF (c :: rest) 1 ConfabReport.ConfabReport [] [] = some res)
    (hret : res.ret = true) (hfile : W.files f = some src) (hsize : src.length < 2 ^ 32)
    (hfirst : c.title ≠ "") (hnodup : (groupTitles (c :: rest)).Nodup) :
    ∃ plan pre, planFrom W "" OBMol.empty src (groupsByTitle (c :: rest)) = some plan ∧
      res.self.N = ((c :: rest).map (fun d => d.title)).dedup.length
        + (plan.map (fun p => p.skipped.length)).sum ∧
      res.ofs = pre ++ summaryBlock res.self := by
  obtain ⟨fname, src1, plan, hf, hfile1, hp, -, hN, -, pre, hofs⟩ :=
    Convert_plan W (some f) r inF (c :: rest) res hrun hret (List.cons_ne_nil _ _)
  simp only [Option.some.injEq] at hf
  subst hf
  rw [hfile] at hfile1
  simp only [Option.some.injEq] at hfile1
  subst hfile1
  obtain ⟨hN1, hN2⟩ := hN (fun d hd => by
    simp only [List.head?_cons, Option.mem_def, Option.some.injEq] at hd
    rw [← hd]
    exact hfirst)
  refine ⟨plan, pre, hp, ?_, hofs⟩
  rw [hN1, uincr_iterate_zero _ (by omega), distinct_titles_eq_groups _ hnodup,
    planFrom_length W _ _ _ _ _ hp]

/-- C4 at the group `[0.7, 0.5, 0.3]` and at the example run. -/
theorem C4_cutoff_passed_counts_passing_groups_witness :
    (exampleGroup.rmsd ≠ [] ∧ (∀ x ∈ exampleGroup.rmsd, x ≤ 100) ∧
      exampleGroup.rmsd.length < 2 ^ 31 ∧
      Convert exampleWorld (some "ref.sdf") none "confs.sdf" exampleConfs 1
        ConfabReport.ConfabReport [] [] = some exampleRunResult ∧
      exampleRunResult.ret = true ∧ exampleConfs ≠ [] ∧ exampleConfs.length < 2 ^ 32) ∧
    ((∃ m self1 t, exampleGroup.rmsd.min? = some m ∧
      WriteOutput exampleGroup [] = some (self1,
        [] ++ t ++ [Item.str "..cutoff (", Item.dbl exampleGroup.rmsd_cutoff,
          Item.str ") passed = ",
          Item.str (if m ≤ exampleGroup.rmsd_cutoff then " Yes\n" else " No\n"),
          Item.str "\n"]) ∧
      self1.cutoff_passed =
        (if m ≤ exampleGroup.rmsd_cutoff then uincr exampleGroup.cutoff_passed
         else exampleGroup.cutoff_passed)) ∧
    (∃ fname src plan pre, some "ref.sdf" = some fname ∧ exampleWorld.files fname = some src ∧
      planFrom exampleWorld "" OBMol.empty src (groupsByTitle exampleConfs) = some plan ∧
      exampleRunResult.self.cutoff_passed =
        plan.countP (fun p => minWithin exampleRunResult.self.rmsd_cutoff p.rmsd) ∧
      exampleRunResult.ofs = pre ++ summaryBlock exampleRunResult.self)) :=
  have h1 : exampleGroup.rmsd ≠ [] := by simp [exampleGroup]
  have h2 : ∀ x ∈ exampleGroup.rmsd, x ≤ 100 := by
    intro x hx
    simp only [exampleGroup, List.mem_cons, List.mem_singleton, List.not_mem_nil, or_false] at hx
    rcases hx with rfl | rfl | rfl <;> norm_num
  have h3 : exampleGroup.rmsd.length < 2 ^ 31 := by simp [exampleGroup]
  have h4 : exampleConfs ≠ [] := by simp [exampleConfs]
  have h5 : exampleConfs.length < 2 ^ 32 := by simp [exampleConfs]
  ⟨⟨h1, h2, h3, exampleRun_eq none, rfl, h4, h5⟩,
    C4_cutoff_passed_counts_passing_groups exampleGroup [] h1 h2 h3 exampleWorld
      (some "ref.sdf") none "confs.sdf" exampleConfs exampleRunResult (exampleRun_eq none) rfl
      h4 h5⟩

/-- C5 (amended) at the example run. -/
theorem C5_molecule_counter_witness :
    (Convert exampleWorld (some "ref.sdf") none "confs.sdf" (⟨"A", 2⟩ :: [⟨"A", 6⟩, ⟨"B", 3⟩]) 1
        ConfabReport.ConfabReport [] [] = some exampleRunResult ∧
      exampleRunResult.ret = true ∧
      exampleWorld.files "ref.sdf" = some [⟨"A", 1⟩, ⟨"C", 5⟩, ⟨"B", 2⟩] ∧
      [(⟨"A", 1⟩ : OBMol), ⟨"C", 5⟩, ⟨"B", 2⟩].length < 2 ^ 32 ∧
      (⟨"A", 2⟩ : OBMol).title ≠ "" ∧
      (groupTitles (⟨"A", 2⟩ :: [⟨"A", 6⟩, ⟨"B", 3⟩])).Nodup) ∧
    ∃ plan pre,
      planFrom exampleWorld "" OBMol.empty [⟨"A", 1⟩, ⟨"C", 5⟩, ⟨"B", 2⟩]
        (groupsByTitle (⟨"A", 2⟩ :: [⟨"A", 6⟩, ⟨"B", 3⟩])) = some plan ∧
      exampleRunResult.self.N =
        ((⟨"A", 2⟩ :: [⟨"A", 6⟩, ⟨"B", 3⟩] : List OBMol).map (fun d => d.title)).dedup.length
          + (plan.map (fun p => p.skipped.length)).sum ∧
      exampleRunResult.ofs = pre ++ summaryBlock exampleRunResult.self :=
  have h1 : Convert exampleWorld (some "ref.sdf") none "confs.sdf"
      (⟨"A", 2⟩ :: [⟨"A", 6⟩, ⟨"B", 3⟩]) 1 ConfabReport.ConfabReport [] [] =
      some exampleRunResult := exampleRun_eq none
  have h2 : exampleWorld.files "ref.sdf" = some [⟨"A", 1⟩, ⟨"C", 5⟩, ⟨"B", 2⟩] := by
    simp [exampleWorld]
  have h3 : [(⟨"A", 1⟩ : OBMol), ⟨"C", 5⟩, ⟨"B", 2⟩].length < 2 ^ 32 := by simp
  have h4 : (⟨"A", 2⟩ : OBMol).title ≠ "" := by decide
  have h5 : (groupTitles (⟨"A", 2⟩ :: [⟨"A", 6⟩, ⟨"B", 3⟩])).Nodup := by
    simp [groupTitles, groupsByTitle]
  ⟨⟨h1, rfl, h2, h3, h4, h5⟩,
    C5_molecule_counter exampleWorld "ref.sdf" none "confs.sdf" ⟨"A", 2⟩
      [⟨"A", 6⟩, ⟨"B", 3⟩] [⟨"A", 1⟩, ⟨"C", 5⟩, ⟨"B", 2⟩] exampleRunResult h1 rfl h2 h3 h4 h5⟩

/-! ## A run in which a title comes back -/

theorem Convert_three_state (W : World) (f r : Option String) (inF : String) (a b c : OBMol)
    (s s1 s2 s3 : ConfabReport)
    (h1 : ∀ ofs, (WriteMolecule W s (OBBase.mol a) ⟨1, f, r, inF, false⟩ ofs []).map
      (fun x => (x.ret, x.self, x.cerr)) = some (true, s1, []))
    (h2 : ∀ ofs, (WriteMolecule W s1 (OBBase.mol b) ⟨2, f, r, inF, false⟩ ofs []).map
      (fun x => (x.ret, x.self, x.cerr)) = some (true, s2, []))
    (h3 : ∀ ofs, (WriteMolecule W s2 (OBBase.mol c) ⟨3, f, r, inF, true⟩ ofs []).map
      (fun x => (x.ret, x.self, x.cerr)) = some (true, s3, [])) :
    (Convert W f r inF [a, b, c] 1 s [] []).map (fun x => (x.ret, x.self)) =
      some (true, s3) := by
  obtain ⟨r1, hr1, hp1⟩ := Option.map_eq_some'.mp (h1 [])
  simp only [Prod.mk.injEq] at hp1
  obtain ⟨hret1, hs1, hc1⟩ := hp1
  have h2a : (WriteMolecule W r1.self (OBBase.mol b) ⟨2, f, r, inF, false⟩ r1.ofs r1.cerr).map
      (fun x => (x.ret, x.self, x.cerr)) = some (true, s2, []) := by
    rw [hs1, hc1]
    exact h2 r1.ofs
  obtain ⟨r2, hr2, hp2⟩ := Option.map_eq_some'.mp h2a
  simp only [Prod.mk.injEq] at hp2
  obtain ⟨hret2, hs2, hc2⟩ := hp2
  have h3a : (WriteMolecule W r2.self (OBBase.mol c) ⟨3, f, r, inF, true⟩ r2.ofs r2.cerr).map
      (fun x => (x.ret, x.self, x.cerr)) = some (true, s3, []) := by
    rw [hs2, hc2]
    exact h3 r2.ofs
  obtain ⟨r3, hr3, hp3⟩ := Option.map_eq_some'.mp h3a
  simp only [Prod.mk.injEq] at hp3
  obtain ⟨hret3, hs3, -⟩ := hp3
  rw [Convert_three W f r inF a b c s [] [] r1 r2 r3 hr1 hret1 hr2 hret2 hr3 hret3]
  simp [hret3, hs3]

theorem exampleABA_step1 (ofs : List Item) :
    (WriteMolecule exampleWorldABA (exampleStateABA 0) (OBBase.mol ⟨"A", 2⟩)
        ⟨1, some "ref.sdf", none, "confs.sdf", false⟩ ofs []).map
      (fun x => (x.ret, x.self, x.cerr)) = some (true, exampleStateABA 1, []) := by
  simp [WriteMolecule, firstMolBlock, openReference, exampleWorldABA, ifstream_open,
    ConfabReport.ConfabReport, processConformer, titleChange, OBMol.empty, Read, skipLoop,
    alignAndFinish, WriteOutput_nil, exampleStateABA, uincr]
  norm_num

theorem exampleABA_step2 (ofs : List Item) :
    (WriteMolecule exampleWorldABA (exampleStateABA 1) (OBBase.mol ⟨"B", 3⟩)
        ⟨2, some "ref.sdf", none, "confs.sdf", false⟩ ofs []).map
      (fun x => (x.ret, x.self, x.cerr)) = some (true, exampleStateABA 2, []) := by
  simp only [WriteMolecule, firstMolBlock, processConformer, titleChange]
  simp only [exampleStateABA, Nat.reduceBEq, Bool.false_eq_true, if_false, if_true, ne_eq,
    String.reduceEq, not_false_eq_true, Bool.not_false, List.length_cons, List.length_nil]
  rw [WriteOutput_single _ (3 / 10) _ rfl (by norm_num)]
  simp [Read, skipLoop, alignAndFinish, exampleWorldABA, uincr]
  norm_num

theorem exampleABA_step3 (ofs : List Item) :
    (WriteMolecule exampleWorldABA (exampleStateABA 2) (OBBase.mol ⟨"A", 4⟩)
        ⟨3, some "ref.sdf", none, "confs.sdf", true⟩ ofs []).map
      (fun x => (x.ret, x.self, x.cerr)) = some (true, exampleStateABA 3, []) := by
  simp only [WriteMolecule, firstMolBlock, processConformer, titleChange]
  simp only [exampleStateABA, Nat.reduceBEq, Bool.false_eq_true, if_false, if_true, ne_eq,
    String.reduceEq, not_false_eq_true, Bool.not_false, List.length_cons, List.length_nil]
  rw [WriteOutput_single _ (1 / 2) _ rfl (by norm_num)]
  simp [Read, skipLoop, alignAndFinish, exampleWorldABA]
  rw [WriteOutput_single _ ((3 + 4) / 10) _ rfl (by norm_num)]
  simp [uincr]
  norm_num

/-- C5 as stated fails: the run over the conformers `A`, `B`, `A` with the
reference entries `A`, `B`, `A` completes and reports `N = 3`, but the stream
has two distinct titles and no reference entry is skipped. -/
theorem C5_titles_reappear_counterexample :
    (Convert exampleWorldABA (some "ref.sdf") none "confs.sdf" exampleConfsABA 1
        ConfabReport.ConfabReport [] []).map (fun x => (x.ret, x.self.N)) = some (true, 3) ∧
    (exampleConfsABA.map (fun d => d.title)).dedup.length = 2 ∧
    (planFrom exampleWorldABA "" OBMol.empty [⟨"A", 1⟩, ⟨"B", 2⟩, ⟨"A", 3⟩]
        (groupsByTitle exampleConfsABA)).map
      (fun plan => (plan.map (fun p => p.skipped.length)).sum) = some 0 := by
  refine ⟨?_, ?_, ?_⟩
  · have h := Convert_three_state exampleWorldABA (some "ref.sdf") none "confs.sdf"
      ⟨"A", 2⟩ ⟨"B", 3⟩ ⟨"A", 4⟩ (exampleStateABA 0) (exampleStateABA 1) (exampleStateABA 2)
      (exampleStateABA 3) exampleABA_step1 exampleABA_step2 exampleABA_step3
    obtain ⟨res, hres, hp⟩ := Option.map_eq_some'.mp h
    simp only [Prod.mk.injEq] at hp
    have hrun : Convert exampleWorldABA (some "ref.sdf") none "confs.sdf" exampleConfsABA 1
        ConfabReport.ConfabReport [] [] = some res := hres
    rw [hrun]
    simp only [Option.map_some', hp.1, hp.2]
    rfl
  · decide
  · simp [exampleConfsABA, groupsByTitle, planFrom, AdvanceTo]

/-! ## The scenario of spec section 8 -/

theorem scenario_step1 :
    WriteMolecule scenarioWorld ConfabReport.ConfabReport (OBBase.mol ⟨"A", 2⟩)
        ⟨1, some "ref.sdf", none, "confs.sdf", false⟩ [] [] =
      some ⟨true, scenarioState 1, fileHeader "ref.sdf" "confs.sdf" ++ moleculeHeader 1 "A", []⟩ := by
  simp [WriteMolecule, firstMolBlock, openReference, scenarioWorld, ifstream_open,
    ConfabReport.ConfabReport, processConformer, titleChange, OBMol.empty, Read, skipLoop,
    alignAndFinish, WriteOutput_nil, scenarioState, uincr, fileHeader]
  norm_num

theorem scenario_step2 (ofs : List Item) :
    WriteMolecule scenarioWorld (scenarioState 1) (OBBase.mol ⟨"A", 6⟩)
        ⟨2, some "ref.sdf", none, "confs.sdf", false⟩ ofs [] =
      some ⟨true, scenarioState 2, ofs, []⟩ := by
  simp [WriteMolecule, firstMolBlock, scenarioWorld, processConformer, alignAndFinish,
    scenarioState]
  norm_num

set_option maxRecDepth 8000 in
theorem scenario_step3 :
    WriteMolecule scenarioWorld (scenarioState 2) (OBBase.mol ⟨"B", 1⟩)
        ⟨3, some "ref.sdf", none, "confs.sdf", true⟩
        (fileHeader "ref.sdf" "confs.sdf" ++ moleculeHeader 1 "A") [] =
      some ⟨true, scenarioState 3, scenarioReport, []⟩ := by
  simp only [WriteMolecule, firstMolBlock, processConformer, titleChange]
  simp only [scenarioState, Nat.reduceBEq, Bool.false_eq_true, if_false, if_true, ne_eq,
    String.reduceEq, not_false_eq_true, Bool.not_false, List.length_cons, List.length_nil]
  rw [WriteOutput_pair _ (3 / 10) (7 / 10) _ rfl (by norm_num) (by norm_num)]
  simp [Read, skipLoop, alignAndFinish, scenarioWorld]
  rw [WriteOutput_single _ (10⁻¹) _ rfl (by norm_num)]
  simp only [scenarioReport, Option.map_some', Option.some.injEq]
  norm_num [binvals, binvals_arr, passedLine, countsLine, uincr, moleculeHeader, numConfsLine,
    summaryBlock, zeroConfReport, fileHeader]

/-- C11: the scenario run.  The reference file holds the entries `A` and `B`;
the aligner gives 0.3 and 0.7 for the two conformers of `A` and 0.1 for the
conformer of `B`; the cutoff is 0.5.  The run returns `true` for every conformer
and the report is, item by item: the header, Molecule 1 with title `A`, 2
conformers, minimum 0.3, cumulative counts 0 1 2 2 2 2 2 2, `Yes`; Molecule 2
with title `B`, 1 conformer, minimum 0.1, cumulative counts 1 1 1 1 1 1 1 1,
`Yes`; and the summary with 2 molecules, 2 of them within the cutoff. -/
theorem C11_scenario_report :
    scenarioWorld.files "ref.sdf" = some [⟨"A", 1⟩, ⟨"B", 0⟩] ∧
    scenarioConfs.map (fun c => c.title) = ["A", "A", "B"] ∧
    [scenarioWorld.Align ⟨"A", 1⟩ ⟨"A", 2⟩, scenarioWorld.Align ⟨"A", 1⟩ ⟨"A", 6⟩,
      scenarioWorld.Align ⟨"B", 0⟩ ⟨"B", 1⟩] = [3 / 10, 7 / 10, 1 / 10] ∧
    ConfabReport.ConfabReport.rmsd_cutoff = 1 / 2 ∧
    Convert scenarioWorld (some "ref.sdf") none "confs.sdf" scenarioConfs 1
      ConfabReport.ConfabReport [] [] = some ⟨true, scenarioState 3, scenarioReport, []⟩ := by
  refine ⟨by simp [scenarioWorld], rfl, by norm_num [scenarioWorld], rfl, ?_⟩
  exact Convert_three scenarioWorld (some "ref.sdf") none "confs.sdf" ⟨"A", 2⟩ ⟨"A", 6⟩ ⟨"B", 1⟩
    ConfabReport.ConfabReport [] [] _ _ _ scenario_step1 rfl (scenario_step2 _) rfl
    scenario_step3 rfl

/-! ## A second run on the same object -/

/-- C12 (the code departs from the claim): the scenario run is made twice on
the same object with the same input.  The first run writes the report of the
scenario.  The second run starts from the object the first one left: the
stream `rfs` is still open, so `rfs.open` fails, the first call returns `false`
with the message `Cannot read reference file!`, and nothing is written to the
report; the counters `N` and `cutoff_passed`, the previous title and the RMSD
list of the first run are still in the object. -/
theorem C12_second_run_on_same_object :
    Convert scenarioWorld (some "ref.sdf") none "confs.sdf" scenarioConfs 1
      ConfabReport.ConfabReport [] [] = some ⟨true, scenarioState 3, scenarioReport, []⟩ ∧
    Convert scenarioWorld (some "ref.sdf") none "confs.sdf" scenarioConfs 1
      (scenarioState 3) [] [] =
      some ⟨false,
        { rfs := ⟨true, true, []⟩, rfilename := some "ref.sdf", rmol := ⟨"B", 0⟩,
          align_ref := ⟨"B", 0⟩, cutoff_passed := 2, N := 2, oldtitle := "B", rmsd := [1 / 10],
          rmsd_cutoff := 1 / 2 },
        [], [Item.str "Cannot read reference file!", Item.str "\n"]⟩ := by
  constructor
  · exact Convert_three scenarioWorld (some "ref.sdf") none "confs.sdf" ⟨"A", 2⟩ ⟨"A", 6⟩
      ⟨"B", 1⟩ ConfabReport.ConfabReport [] [] _ _ _ scenario_step1 rfl (scenario_step2 _) rfl
      scenario_step3 rfl
  · simp [scenarioConfs, Convert, WriteMolecule, firstMolBlock, openReference, scenarioWorld,
      ifstream_open, scenarioState]

/-! ## Groups without conformers -/

/-- C13: `WriteOutput` with an empty RMSD list writes nothing and returns the
object unchanged (no counter changes); and the loop that skips reference
entries writes, for each entry it skips, only the molecule number, the title
and the line `number of confs = 0`, and leaves `cutoff_passed` and the RMSD
list as they were. -/
theorem C13_no_conformers_no_closing_report (self : ConfabReport) (ofs : List Item)
    (hempty : self.rmsd = []) (cur : ConfabReport) (title : String) (ofs1 : List Item) :
    WriteOutput self ofs = some (self, ofs) ∧
    (∃ sk, sk <+: cur.rmol :: cur.rfs.pending ∧
      (skipLoop title cur ofs1).2.2 = ofs1 ++ zeroConfReports cur.N sk ∧
      (skipLoop title cur ofs1).2.1.cutoff_passed = cur.cutoff_passed ∧
      (skipLoop title cur ofs1).2.1.rmsd = cur.rmsd) ∧
    (∀ n e es, zeroConfReports n (e :: es) =
      [Item.str "..Molecule ", Item.uint n, Item.str "\n..title = ", Item.str e.title,
        Item.str "\n..number of confs = 0\n"] ++ zeroConfReports (uincr n) es) ∧
    (∀ n, zeroConfReports n [] = []) := by
  refine ⟨WriteOutput_nil self ofs hempty, ?_, fun _ _ _ => rfl, fun _ => rfl⟩
  cases hadv : AdvanceTo title (cur.rmol :: cur.rfs.pending) with
  | none =>
    refine ⟨cur.rmol :: cur.rfs.pending, List.prefix_refl _, ?_, ?_, ?_⟩ <;>
      rw [skipLoop_exhausted title cur.rfs.pending cur ofs1 rfl hadv]
  | some p =>
    obtain ⟨sk, m, rest⟩ := p
    obtain ⟨hsrc, -, -⟩ := AdvanceTo_some _ _ _ _ _ hadv
    refine ⟨sk, ⟨m :: rest, hsrc.symm⟩, ?_, ?_, ?_⟩ <;>
      rw [skipLoop_found title cur.rfs.pending cur ofs1 sk m rest rfl hadv]

/-- C13 at a freshly constructed object and at the skip of the entry `C`. -/
theorem C13_no_conformers_no_closing_report_witness :
    ConfabReport.ConfabReport.rmsd = [] ∧
    (WriteOutput ConfabReport.ConfabReport [] = some (ConfabReport.ConfabReport, []) ∧
    (∃ sk, sk <+: exampleAfterRead.rmol :: exampleAfterRead.rfs.pending ∧
      (skipLoop "B" exampleAfterRead []).2.2 = [] ++ zeroConfReports exampleAfterRead.N sk ∧
      (skipLoop "B" exampleAfterRead []).2.1.cutoff_passed = exampleAfterRead.cutoff_passed ∧
      (skipLoop "B" exampleAfterRead []).2.1.rmsd = exampleAfterRead.rmsd) ∧
    (∀ n e es, zeroConfReports n (e :: es) =
      [Item.str "..Molecule ", Item.uint n, Item.str "\n..title = ", Item.str e.title,
        Item.str "\n..number of confs = 0\n"] ++ zeroConfReports (uincr n) es) ∧
    (∀ n, zeroConfReports n [] = [])) :=
  ⟨rfl, C13_no_conformers_no_closing_report ConfabReport.ConfabReport [] rfl exampleAfterRead
    "B" []⟩

/-! ## The text of a closing report -/

/-- Within the last threshold and the range of `int`, `WriteOutput` writes the
closing report of the group, sorts the list and counts the group when its
minimum is within the cutoff. -/
theorem WriteOutput_text (self : ConfabReport) (ofs : List Item)
    (hle : ∀ x ∈ self.rmsd, x ≤ 100) (hlen : self.rmsd.length < 2 ^ 31) :
    WriteOutput self ofs =
      some ({ self with
                rmsd := List.insertionSort (· ≤ ·) self.rmsd
                cutoff_passed :=
                  if minWithin self.rmsd_cutoff self.rmsd then uincr self.cutoff_passed
                  else self.cutoff_passed },
        ofs ++ closingReport self.rmsd_cutoff self.rmsd) := by
  by_cases hne : self.rmsd = []
  · rw [WriteOutput_nil self ofs hne]
    rcases self with ⟨⟨io, fl, pd⟩, rfn, rmol, aref, cp, n, ot, rmsd, cut⟩
    simp only [] at hne
    subst hne
    simp [minWithin, closingReport]
  · obtain ⟨m, rest, hs⟩ := insertionSort_ne_nil self.rmsd hne
    have hmin := min?_of_sorted self.rmsd m rest hs
    rw [WriteOutput_sorted self ofs m rest hs hle hlen, hs]
    simp only [minWithin, closingReport, hmin, decide_eq_true_eq, List.append_assoc]

/-- When `WriteOutput` returns, no value of the group is above the last
threshold. -/
theorem le_of_WriteOutput_some (self : ConfabReport) (ofs : List Item)
    (p : ConfabReport × List Item) (h : WriteOutput self ofs = some p) :
    ∀ x ∈ self.rmsd, x ≤ 100 := by
  intro x hx
  by_contra hgt
  rw [WriteOutput_none_of_gt self ofs ⟨x, hx, lt_of_not_le hgt⟩] at h
  exact absurd h (by simp)

theorem insertionSort_perm_eq (l1 l2 : List ℚ) (h : l1.Perm l2) :
    List.insertionSort (· ≤ ·) l1 = List.insertionSort (· ≤ ·) l2 :=
  List.eq_of_perm_of_sorted
    (((List.perm_insertionSort _ l1).trans h).trans (List.perm_insertionSort _ l2).symm)
    (List.sorted_insertionSort _ l1) (List.sorted_insertionSort _ l2)

theorem min?_perm_eq (l1 l2 : List ℚ) (h : l1.Perm l2) : l1.min? = l2.min? := by
  cases h1 : List.insertionSort (· ≤ ·) l1 with
  | nil =>
    have e1 : l1 = [] := by
      have := List.length_insertionSort (· ≤ ·) l1
      rw [h1] at this
      exact List.length_eq_zero.mp this.symm
    subst e1
    rw [List.nil_perm.mp h]
  | cons m rest =>
    rw [min?_of_sorted l1 m rest h1,
      min?_of_sorted l2 m rest (by rw [← insertionSort_perm_eq l1 l2 h]; exact h1)]

theorem closingReport_perm (cutoff : ℚ) (l1 l2 : List ℚ) (h : l1.Perm l2) :
    closingReport cutoff l1 = closingReport cutoff l2 := by
  unfold closingReport
  rw [min?_perm_eq l1 l2 h]
  have hc : (fun t : ℚ => (l1.countP (fun x => decide (x ≤ t)) : Int)) =
      (fun t : ℚ => (l2.countP (fun x => decide (x ≤ t)) : Int)) := by
    funext t
    rw [h.countP_eq]
  rw [hc]

/-! ## The order of arrival within a group -/

/-- C20: two RMSD lists that are permutations of each other (values at most
100.0, fewer than 2^31 of them) get the same closing report from `WriteOutput`:
the same text (minimum, cumulative counts, pass/fail line), and the same object
afterwards, so `cutoff_passed` changes by the same amount. -/
theorem C20_closing_report_ignores_order (self : ConfabReport) (ofs : List Item)
    (l1 l2 : List ℚ) (hperm : l1.Perm l2) (hle : ∀ x ∈ l1, x ≤ 100)
    (hlen : l1.length < 2 ^ 31) :
    ∃ self1,
      WriteOutput { self with rmsd := l1 } ofs =
        some (self1, ofs ++ closingReport self.rmsd_cutoff l1) ∧
      WriteOutput { self with rmsd := l2 } ofs =
        some (self1, ofs ++ closingReport self.rmsd_cutoff l1) ∧
      l1.min? = l2.min? ∧
      (∀ t, l1.countP (fun x => decide (x ≤ t)) = l2.countP (fun x => decide (x ≤ t))) ∧
      self1.cutoff_passed =
        (if minWithin self.rmsd_cutoff l1 then uincr self.cutoff_passed
         else self.cutoff_passed) := by
  refine ⟨_, WriteOutput_text { self with rmsd := l1 } ofs hle hlen, ?_,
    min?_perm_eq l1 l2 hperm, fun t => hperm.countP_eq _, rfl⟩
  rw [WriteOutput_text { self with rmsd := l2 } ofs
    (fun x hx => hle x (hperm.mem_iff.mpr hx)) (by rw [← hperm.length_eq]; exact hlen)]
  simp only [← insertionSort_perm_eq l1 l2 hperm, ← closingReport_perm self.rmsd_cutoff l1 l2 hperm,
    minWithin, ← min?_perm_eq l1 l2 hperm]

/-- C20 at the lists `[0.7, 0.5, 0.3]` and `[0.3, 0.7, 0.5]`. -/
theorem C20_closing_report_ignores_order_witness :
    (([7 / 10, 1 / 2, 3 / 10] : List ℚ).Perm [3 / 10, 7 / 10, 1 / 2] ∧
      (∀ x ∈ ([7 / 10, 1 / 2, 3 / 10] : List ℚ), x ≤ 100) ∧
      ([7 / 10, 1 / 2, 3 / 10] : List ℚ).length < 2 ^ 31) ∧
    ∃ self1,
      WriteOutput { ConfabReport.ConfabReport with rmsd := [7 / 10, 1 / 2, 3 / 10] } [] =
        some (self1, [] ++ closingReport ConfabReport.ConfabReport.rmsd_cutoff
          [7 / 10, 1 / 2, 3 / 10]) ∧
      WriteOutput { ConfabReport.ConfabReport with rmsd := [3 / 10, 7 / 10, 1 / 2] } [] =
        some (self1, [] ++ closingReport ConfabReport.ConfabReport.rmsd_cutoff
          [7 / 10, 1 / 2, 3 / 10]) ∧
      ([7 / 10, 1 / 2, 3 / 10] : List ℚ).min? = ([3 / 10, 7 / 10, 1 / 2] : List ℚ).min? ∧
      (∀ t, ([7 / 10, 1 / 2, 3 / 10] : List ℚ).countP (fun x => decide (x ≤ t)) =
        ([3 / 10, 7 / 10, 1 / 2] : List ℚ).countP (fun x => decide (x ≤ t))) ∧
      self1.cutoff_passed =
        (if minWithin ConfabReport.ConfabReport.rmsd_cutoff [7 / 10, 1 / 2, 3 / 10]
         then uincr ConfabReport.ConfabReport.cutoff_passed
         else ConfabReport.ConfabReport.cutoff_passed) :=
  have h1 : ([7 / 10, 1 / 2, 3 / 10] : List ℚ).Perm [3 / 10, 7 / 10, 1 / 2] :=
    ((List.Perm.swap (3 / 10) (1 / 2) []).cons (7 / 10)).trans
      (List.Perm.swap (3 / 10) (7 / 10) [1 / 2])
  have h2 : ∀ x ∈ ([7 / 10, 1 / 2, 3 / 10] : List ℚ), x ≤ 100 := by
    intro x hx
    simp only [List.mem_cons, List.mem_singleton, List.not_mem_nil, or_false] at hx
    rcases hx with rfl | rfl | rfl <;> norm_num
  have h3 : ([7 / 10, 1 / 2, 3 / 10] : List ℚ).length < 2 ^ 31 := by simp
  ⟨⟨h1, h2, h3⟩, C20_closing_report_ignores_order ConfabReport.ConfabReport [] _ _ h1 h2 h3⟩

/-! ## The bin index along a sorted list -/

/-- Where `binLoop` returns, `binTrace` returns the indices it went through:
the running index at the end is the last of them and each counter has grown by
the number of times its index occurs. -/
theorem binLoop_trace (bv : List ℚ) (l : List ℚ) :
    ∀ (i : Nat) (bins : List Int) (r : Nat × List Int), binLoop bv l i bins = some r →
      ∃ idxs, binTrace bv l i = some idxs ∧ r.1 = idxs.getLastD i ∧
        ∀ k, r.2[k]? = (bins[k]?).map (fun (c : Int) => c + (idxs.count k : Int)) := by
  induction l with
  | nil =>
    intro i bins r h
    simp only [binLoop, Option.some.injEq] at h
    subst h
    exact ⟨[], rfl, rfl, fun k => by cases bins[k]? <;> simp⟩
  | cons x rest ih =>
    intro i bins r h
    rw [binLoop] at h
    cases ha : advance bv x i with
    | none => rw [ha] at h; simp at h
    | some j =>
      rw [ha] at h
      simp only [] at h
      cases hb : bins[j]? with
      | none => rw [hb] at h; simp at h
      | some c =>
        rw [hb] at h
        simp only [] at h
        cases hc : iadd c 1 with
        | none => rw [hc] at h; simp at h
        | some c1 =>
          rw [hc] at h
          simp only [] at h
          have hc1 : c1 = c + 1 := by
            unfold iadd at hc
            split at hc
            · exact (Option.some.inj hc).symm
            · simp at hc
          obtain ⟨idxs, ht, hlast, hcount⟩ := ih j (bins.set j c1) r h
          refine ⟨j :: idxs, ?_, ?_, ?_⟩
          · rw [binTrace, ha]
            simp only [ht, Option.map_some']
          · rw [hlast]
            cases idxs <;> rfl
          · intro k
            rw [hcount k, List.getElem?_set]
            have hj : j < bins.length := by
              rcases Nat.lt_or_ge j bins.length with h1 | h1
              · exact h1
              · rw [List.getElem?_eq_none h1] at hb
                simp at hb
            by_cases hjk : j = k
            · subst hjk
              simp only [if_true, hj, hb, Option.map_some', List.count_cons_self, hc1]
              congr 1
              push_cast
              ring
            · rw [if_neg hjk, List.count_cons_of_ne (fun h => hjk h.symm)]

theorem binTrace_sorted (bv : List ℚ) (l : List ℚ) :
    ∀ i : Nat, l.Sorted (· ≤ ·) → (∀ x ∈ l, i ≤ binOf bv x ∧ binOf bv x < bv.length) →
      binTrace bv l i = some (l.map (binOf bv)) := by
  induction l with
  | nil => intro i _ _; rfl
  | cons x rest ih =>
    intro i hs hb
    obtain ⟨h1, h2⟩ := hb x (List.mem_cons_self _ _)
    rw [binTrace, advance_eq_binOf bv x _ i rfl h1 h2]
    simp only []
    rw [ih (binOf bv x) (List.sorted_cons.mp hs).2 (fun y hy =>
      ⟨binOf_mono bv x y ((List.sorted_cons.mp hs).1 y hy)
          (hb y (List.mem_cons_of_mem _ hy)).2,
        (hb y (List.mem_cons_of_mem _ hy)).2⟩)]
    rfl

theorem binOf_binvals_le (x : ℚ) (hx : x ≤ 100) : binOf binvals x ≤ 7 :=
  (binOf_le_iff binvals binvals_sorted x 7 (by decide)).mpr
    (by simpa [binvals, binvals_arr] using hx)

/-- C14: along a sorted RMSD list the binning loop of `WriteOutput` assigns
non-decreasing bin indices.  For every part of the list that comes before a
value above 100.0 (the whole list when there is none), each value is assigned
the index of the first threshold that is at least the value, these indices are
at most 7, and the index of a value is at most the index of every later
value. -/
theorem C14_bin_index_monotone (l p : List ℚ) (hsorted : l.Sorted (· ≤ ·)) (hp : p <+: l)
    (hle : ∀ x ∈ p, x ≤ 100) :
    ∃ idxs, binTrace binvals p 0 = some idxs ∧ idxs = p.map (binOf binvals) ∧
      idxs.Pairwise (· ≤ ·) ∧ ∀ k ∈ idxs, k ≤ 7 := by
  have hps : p.Sorted (· ≤ ·) := hsorted.sublist hp.sublist
  refine ⟨p.map (binOf binvals), ?_, rfl, ?_, ?_⟩
  · exact binTrace_sorted binvals p 0 hps (fun x hx =>
      ⟨Nat.zero_le _, by
        have := binOf_binvals_le x (hle x hx)
        rw [binvals_length]
        omega⟩)
  · rw [List.pairwise_map]
    exact hps.imp_of_mem (fun {a b} _ hb hab => binOf_mono binvals a b hab (by
      have := binOf_binvals_le b (hle b hb)
      rw [binvals_length]
      omega))
  · intro k hk
    obtain ⟨x, hx, rfl⟩ := List.mem_map.mp hk
    exact binOf_binvals_le x (hle x hx)

/-- C14 at the sorted list `[0.3, 0.5, 0.7, 150.0]` and its part before
150.0. -/
theorem C14_bin_index_monotone_witness :
    (([3 / 10, 1 / 2, 7 / 10, 150] : List ℚ).Sorted (· ≤ ·) ∧
      ([3 / 10, 1 / 2, 7 / 10] : List ℚ) <+: [3 / 10, 1 / 2, 7 / 10, 150] ∧
      (∀ x ∈ ([3 / 10, 1 / 2, 7 / 10] : List ℚ), x ≤ 100)) ∧
    ∃ idxs, binTrace binvals [3 / 10, 1 / 2, 7 / 10] 0 = some idxs ∧
      idxs = ([3 / 10, 1 / 2, 7 / 10] : List ℚ).map (binOf binvals) ∧
      idxs.Pairwise (· ≤ ·) ∧ ∀ k ∈ idxs, k ≤ 7 :=
  have h1 : ([3 / 10, 1 / 2, 7 / 10, 150] : List ℚ).Sorted (· ≤ ·) := by
    simp only [List.Sorted, List.pairwise_cons, List.mem_cons, List.mem_singleton,
      List.not_mem_nil, or_false, forall_eq_or_imp, forall_eq, List.Pairwise.nil, and_true,
      false_implies, implies_true]
    norm_num
  have h2 : ([3 / 10, 1 / 2, 7 / 10] : List ℚ) <+: [3 / 10, 1 / 2, 7 / 10, 150] :=
    ⟨[150], rfl⟩
  have h3 : ∀ x ∈ ([3 / 10, 1 / 2, 7 / 10] : List ℚ), x ≤ 100 := by
    intro x hx
    simp only [List.mem_cons, List.mem_singleton, List.not_mem_nil, or_false] at hx
    rcases hx with rfl | rfl | rfl <;> norm_num
  ⟨⟨h1, h2, h3⟩, C14_bin_index_monotone _ _ h1 h2 h3⟩

/-! ## A run whose first conformer has the empty title -/

set_option maxRecDepth 8000 in
theorem untitledRun_eq :
    Convert exampleWorldUntitled (some "ref.sdf") none "confs.sdf" [⟨"", 3⟩] 1
      ConfabReport.ConfabReport [] [] = some exampleUntitledResult := by
  simp [Convert, WriteMolecule, firstMolBlock, openReference, exampleWorldUntitled,
    ifstream_open, ConfabReport.ConfabReport, processConformer, OBMol.empty, alignAndFinish]
  rw [WriteOutput_single _ (3 / 10) _ (by norm_num) (by norm_num)]
  simp only [exampleUntitledResult, Option.map_some', Option.some.injEq]
  norm_num [binvals, binvals_arr, passedLine, countsLine, uincr, numConfsLine, summaryBlock,
    OBMol.empty]

/-- C15 (the code departs from the claim): a run over one conformer that has
the empty title.  The first conformer is not treated as a title change: the
two entries of the reference file are still unread afterwards, `N` is 0,
the reference of the aligner is the default-constructed molecule, and the
report has no `Molecule` header, only the count of conformers, the closing
report and the summary. -/
theorem C15_untitled_first_conformer_is_no_title_change :
    exampleWorldUntitled.files "ref.sdf" = some [⟨"", 9⟩, ⟨"A", 1⟩] ∧
    Convert exampleWorldUntitled (some "ref.sdf") none "confs.sdf" [⟨"", 3⟩] 1
      ConfabReport.ConfabReport [] [] = some exampleUntitledResult ∧
    exampleUntitledResult.self.rfs.pending = [⟨"", 9⟩, ⟨"A", 1⟩] ∧
    exampleUntitledResult.self.N = 0 ∧
    exampleUntitledResult.self.align_ref = OBMol.empty ∧
    Item.str "..Molecule " ∉ exampleUntitledResult.ofs :=
  ⟨by simp [exampleWorldUntitled], untitledRun_eq, rfl, rfl, rfl, by
    simp [exampleUntitledResult, cutoffsLine, binvals, binvals_arr]⟩

/-- C19 (the code departs from the claim): after the only call of the run over
one conformer with the empty title, `cutoff_passed` is 1 and `N` is 0. -/
theorem C19_passed_exceeds_molecule_count :
    (Convert exampleWorldUntitled (some "ref.sdf") none "confs.sdf" [⟨"", 3⟩] 1
        ConfabReport.ConfabReport [] []).map
      (fun x => (x.ret, x.self.cutoff_passed, x.self.N)) = some (true, 1, 0) ∧
    ¬ (exampleUntitledResult.self.cutoff_passed ≤ exampleUntitledResult.self.N) := by
  rw [untitledRun_eq]
  exact ⟨rfl, by decide⟩

/-! ## The text of a complete run -/

theorem closeRun_text (self : ConfabReport) (ofs cerr : List Item) (res : Ret)
    (h : closeRun self ofs cerr = some res) (hlen : self.rmsd.length < 2 ^ 31) :
    res.ofs = ofs ++ numConfsLine self.rmsd.length
      ++ closingReport self.rmsd_cutoff self.rmsd ++ summaryBlock res.self := by
  unfold closeRun at h
  cases hw : WriteOutput self (ofs ++ numConfsLine self.rmsd.length) with
  | none => rw [hw] at h; simp at h
  | some p =>
    have hle := le_of_WriteOutput_some _ _ _ hw
    rw [WriteOutput_text self _ hle hlen] at h
    simp only [Option.some.injEq] at h
    subst h
    rfl

theorem openReference_ofs (W : World) (self : ConfabReport) (pConv : OBConversion)
    (ofs cerr : List Item) (f : String) (hf : pConv.opt_f = some f)
    (h : (openReference W self pConv ofs cerr).ret = true) :
    (openReference W self pConv ofs cerr).ofs = ofs ++ fileHeader f pConv.InFilename := by
  unfold openReference at h ⊢
  rw [hf] at h ⊢
  simp only [] at h ⊢
  cases hfmt : W.FormatFromExt f with
  | none => rw [hfmt] at h; simp at h
  | some fmt =>
    rw [hfmt] at h
    simp only [] at h ⊢
    split
    · next hfail =>
      rw [if_pos hfail] at h
      simp at h
    · rfl

/-- Entering a group, with the text written on the way. -/
theorem runBody_enter_text (W : World) (c : OBMol) (rest0 : List OBMol) (fm : Bool)
    (self : ConfabReport) (ofs cerr : List Item) (res : Ret)
    (hrun : runBody W (c :: rest0) fm self ofs cerr = some res) (hret : res.ret = true)
    (hsame : self.oldtitle = c.title → self.rmsd = [])
    (hlen : self.rmsd.length < 2 ^ 31) :
    ∃ self1 ofs1 sk, self1.rmsd = [] ∧
      (match (alignAndFinish W self1 c c.title rest0.isEmpty ofs1).map
          (fun r => (⟨true, r.1, r.2, cerr⟩ : Ret)) with
        | none => none
        | some r => if r.ret then runBody W rest0 false r.self r.ofs r.cerr else some r)
        = some res ∧
      (self.oldtitle = c.title →
        sk = [] ∧ self1.align_ref = self.align_ref ∧ self1.rfs.pending = self.rfs.pending ∧
          self1.N = self.N ∧ ofs1 = ofs) ∧
      (self.oldtitle ≠ c.title →
        AdvanceTo c.title self.rfs.pending = some (sk, self1.align_ref, self1.rfs.pending) ∧
          self1.N = uincr^[sk.length + 1] self.N ∧
          ofs1 = ofs ++ (if fm then [] else numConfsLine self.rmsd.length)
            ++ closingReport self.rmsd_cutoff self.rmsd
            ++ zeroConfReports (uincr self.N) sk
            ++ moleculeHeader (uincr^[sk.length + 1] self.N) self1.align_ref.title) ∧
      self1.rmsd_cutoff = self.rmsd_cutoff := by
  rw [runBody] at hrun
  by_cases ht : self.oldtitle = c.title
  · have hpc : processConformer W self c fm rest0.isEmpty ofs cerr =
        (alignAndFinish W self c c.title rest0.isEmpty ofs).map
          (fun r => (⟨true, r.1, r.2, cerr⟩ : Ret)) := by
      unfold processConformer
      rw [if_neg (by simp [ht])]
    rw [hpc] at hrun
    exact ⟨self, ofs, [], hsame ht, hrun, fun _ => ⟨rfl, rfl, rfl, rfl, rfl⟩,
      fun h => absurd ht h, rfl⟩
  · unfold processConformer at hrun
    rw [if_pos ht] at hrun
    cases htc : titleChange self c.title fm ofs with
    | none =>
      rw [htc] at hrun
      simp at hrun
    | some p =>
      obtain ⟨b, self1, ofs1⟩ := p
      rw [htc] at hrun
      cases b with
      | false =>
        simp only [Bool.false_eq_true, if_false, Option.some.injEq] at hrun
        rw [← hrun] at hret
        simp at hret
      | true =>
        simp only [] at hrun
        cases hw : WriteOutput self
            (if !fm then ofs ++ numConfsLine self.rmsd.length else ofs) with
        | none =>
          unfold titleChange at htc
          simp only [hw] at htc
          simp at htc
        | some q =>
          obtain ⟨sA, oA⟩ := q
          have hle := le_of_WriteOutput_some _ _ _ hw
          have hw1 := hw
          rw [WriteOutput_text self _ hle hlen] at hw1
          simp only [Option.some.injEq, Prod.mk.injEq] at hw1
          obtain ⟨hsA, hoA⟩ := hw1
          cases ha : AdvanceTo c.title self.rfs.pending with
          | none =>
            rw [titleChange_exhausted self c.title fm ofs sA oA hw ha] at htc
            simp at htc
          | some q2 =>
            obtain ⟨sk, m, rest⟩ := q2
            rw [titleChange_found self c.title fm ofs sA oA sk m rest hw ha] at htc
            simp only [Option.some.injEq, Prod.mk.injEq, true_and] at htc
            obtain ⟨h1, h2⟩ := htc
            subst h1 h2
            refine ⟨_, _, sk, rfl, hrun, fun h => absurd h ht, fun _ => ⟨rfl, rfl, ?_⟩, ?_⟩
            · rw [← hoA]
              cases fm <;> simp
            · rw [← hsA]

/-- A successful run writes, after what the stream holds, the closing report of
the group that is open at its start (when the first conformer has another
title), the reports of its own groups and the summary. -/
theorem runBody_report (W : World) (n : Nat) :
    ∀ (c : OBMol) (rest0 : List OBMol) (fm : Bool) (self : ConfabReport) (ofs cerr : List Item)
      (res : Ret),
      rest0.length < n →
      (self.oldtitle = c.title → self.rmsd = []) →
      self.align_ref.title = self.oldtitle →
      self.rmsd.length < 2 ^ 31 → rest0.length + 1 < 2 ^ 31 →
      runBody W (c :: rest0) fm self ofs cerr = some res → res.ret = true →
      ∃ plan,
        planFrom W self.oldtitle self.align_ref self.rfs.pending (groupsByTitle (c :: rest0))
          = some plan ∧
        (self.oldtitle ≠ c.title → allHeaded self.oldtitle plan = true) ∧
        res.ofs = ofs
          ++ (if self.oldtitle = c.title then []
              else (if fm then [] else numConfsLine self.rmsd.length)
                ++ closingReport self.rmsd_cutoff self.rmsd)
          ++ runReport self.rmsd_cutoff self.oldtitle self.N plan
          ++ summaryBlock res.self := by
  induction n with
  | zero =>
    intro c rest0 fm self ofs cerr res hlen
    exact absurd hlen (Nat.not_lt_zero _)
  | succ n ih =>
    intro c rest0 fm self ofs cerr res hlen hsame hinv hrl hcl hrun hret
    obtain ⟨g, rest, hsplit, hg, hhead, hgroups⟩ := groupsByTitle_cons c rest0
    subst hsplit
    obtain ⟨s1, o1, sk, hr1, hmatch, hA1, hA2, hcut1⟩ :=
      runBody_enter_text W c (g ++ rest) fm self ofs cerr res hrun hret hsame hrl
    replace hmatch := (runBody_group W s1 c g rest o1 cerr hr1 hg).symm.trans hmatch
    have hplan : ∀ gs, planFrom W self.oldtitle self.align_ref self.rfs.pending
        ((c :: g) :: gs) =
        (planFrom W c.title s1.align_ref s1.rfs.pending gs).map
          (fun p => ⟨sk, s1.align_ref, (c :: g).map (W.Align s1.align_ref)⟩ :: p) := by
      intro gs
      rw [planFrom_cons]
      by_cases ht : self.oldtitle = c.title
      · obtain ⟨h1, h2, h3, -⟩ := hA1 ht
        rw [if_pos ht.symm, h1, h2, h3]
      · obtain ⟨h1, -⟩ := hA2 ht
        rw [if_neg (fun h => ht h.symm), h1]
    have href : s1.align_ref.title = c.title := by
      by_cases ht : self.oldtitle = c.title
      · rw [(hA1 ht).2.1, hinv, ht]
      · exact (AdvanceTo_some _ _ _ _ _ (hA2 ht).1).2.2
    have hglen : ((c :: g).map (W.Align s1.align_ref)).length < 2 ^ 31 := by
      simp only [List.length_map, List.length_cons]
      simp only [List.length_append] at hcl
      omega
    -- the text of this group, in both cases
    have htext : ∀ ps tail,
        o1 ++ numConfsLine ((c :: g).map (W.Align s1.align_ref)).length
          ++ closingReport self.rmsd_cutoff ((c :: g).map (W.Align s1.align_ref))
          ++ runReport self.rmsd_cutoff c.title s1.N ps ++ tail =
        ofs
          ++ (if self.oldtitle = c.title then []
              else (if fm then [] else numConfsLine self.rmsd.length)
                ++ closingReport self.rmsd_cutoff self.rmsd)
          ++ runReport self.rmsd_cutoff self.oldtitle self.N
              (⟨sk, s1.align_ref, (c :: g).map (W.Align s1.align_ref)⟩ :: ps)
          ++ tail := by
      intro ps tail
      by_cases ht : self.oldtitle = c.title
      · obtain ⟨-, -, -, hN, ho⟩ := hA1 ht
        have hr : (⟨sk, s1.align_ref, (c :: g).map (W.Align s1.align_ref)⟩ :
            GroupPlan).reference.title = self.oldtitle := by
          show s1.align_ref.title = self.oldtitle
          rw [href, ht]
        rw [runReport, if_pos hr, if_pos ht, ho, hN, ← ht]
        simp only [List.append_assoc, List.append_nil]
      · obtain ⟨-, hN, ho⟩ := hA2 ht
        have hr : ¬ (⟨sk, s1.align_ref, (c :: g).map (W.Align s1.align_ref)⟩ :
            GroupPlan).reference.title = self.oldtitle := by
          show ¬ s1.align_ref.title = self.oldtitle
          rw [href]
          exact fun h => ht h.symm
        rw [runReport, if_neg hr, if_neg ht, ho, hN]
        simp only [href, List.append_assoc]
    rw [hgroups, hplan]
    by_cases hrest : rest = []
    · subst hrest
      rw [if_pos rfl] at hmatch
      have hofs := closeRun_text _ _ _ _ hmatch hglen
      simp only [] at hofs
      refine ⟨[⟨sk, s1.align_ref, (c :: g).map (W.Align s1.align_ref)⟩], ?_, ?_, ?_⟩
      · rw [groupsByTitle]
        rfl
      · intro ht
        simp only [allHeaded, href, Bool.and_true, decide_eq_true_eq]
        exact fun h => ht h.symm
      · rw [hofs, hcut1]
        have := htext [] (summaryBlock res.self)
        simp only [runReport, List.append_nil] at this ⊢
        exact this
    · rw [if_neg hrest] at hmatch
      obtain ⟨c2, rest2, hrest2⟩ := List.exists_cons_of_ne_nil hrest
      subst hrest2
      have hne2 : c.title ≠ c2.title := fun h => hhead c2 (by simp) h.symm
      obtain ⟨plan, hp, hhd, hofs⟩ := ih c2 rest2 false
        { s1 with rmsd := (c :: g).map (W.Align s1.align_ref), oldtitle := c.title } o1 cerr res
        (by
          simp only [List.length_cons, List.length_append] at hlen
          omega)
        (fun h => absurd h hne2) href hglen
        (by
          simp only [List.length_cons, List.length_append] at hcl
          omega)
        hmatch hret
      simp only [] at hp hhd hofs
      refine ⟨⟨sk, s1.align_ref, (c :: g).map (W.Align s1.align_ref)⟩ :: plan, ?_, ?_, ?_⟩
      · rw [hp]
        rfl
      · intro ht
        simp only [allHeaded, href, Bool.and_eq_true, decide_eq_true_eq]
        exact ⟨fun h => ht h.symm, hhd hne2⟩
      · rw [hofs, if_neg hne2, hcut1]
        have := htext plan (summaryBlock res.self)
        simp only [Bool.false_eq_true, if_false, List.append_assoc] at this ⊢
        exact this

/-- The report of a successful run from a freshly constructed object: the
header, the reports of the groups and the summary. -/
theorem Convert_report (W : World) (f r : Option String) (inF : String) (confs : List OBMol)
    (res : Ret)
    (hrun : Convert W f r inF confs 1 ConfabReport.ConfabReport [] [] = some res)
    (hret : res.ret = true) (hne : confs ≠ []) (hlen : confs.length < 2 ^ 31) :
    ∃ fname src plan, f = some fname ∧ W.files fname = some src ∧
      planFrom W "" OBMol.empty src (groupsByTitle confs) = some plan ∧
      ((∀ c ∈ confs.head?, c.title ≠ "") → allHeaded "" plan = true) ∧
      res.ofs = fileHeader fname inF ++ runReport (1 / 2) "" 0 plan ++ summaryBlock res.self := by
  cases confs with
  | nil => exact absurd rfl hne
  | cons c rest =>
    rw [Convert_first] at hrun
    by_cases h0 : (openReference W ConfabReport.ConfabReport
        ⟨1, f, r, inF, rest.isEmpty⟩ [] []).ret = true
    · rw [if_pos h0] at hrun
      obtain ⟨fname, src, hf, hfile, hself⟩ := openReference_ok W _ [] [] h0
      have hofs0 := openReference_ofs W _ _ [] [] fname hf h0
      rw [hself, hofs0] at hrun
      obtain ⟨plan, hp, hhd, hofs⟩ := runBody_report W (rest.length + 1) c rest true
        { ConfabReport.ConfabReport with rfilename := some fname, rfs := ⟨true, false, src⟩ }
        _ _ res (Nat.lt_succ_self _) (fun _ => rfl) rfl (by simp [ConfabReport.ConfabReport])
        (by simpa using hlen) hrun hret
      refine ⟨fname, src, plan, hf, hfile, hp, ?_, ?_⟩
      · intro hfirst
        exact hhd (fun h => hfirst c (by simp) h.symm)
      · rw [hofs]
        simp [ConfabReport.ConfabReport, closingReport]
    · rw [if_neg h0] at hrun
      simp only [Option.some.injEq] at hrun
      rw [← hrun] at hret
      exact absurd hret h0

/-- The RMSD list of each group of a plan holds the aligner's results for the
conformers of the group against the reference of the group, in order. -/
theorem planFrom_rmsd (W : World) (gs : List (List OBMol)) :
    ∀ (title : String) (ref : OBMol) (src : List OBMol) (plan : List GroupPlan),
      planFrom W title ref src gs = some plan →
      List.Forall₂ (fun p g => p.rmsd = g.map (W.Align p.reference)) plan gs := by
  induction gs with
  | nil =>
    intro title ref src plan h
    simp only [planFrom, Option.some.injEq] at h
    subst h
    exact List.Forall₂.nil
  | cons g gs ih =>
    intro title ref src plan h
    rw [planFrom] at h
    split at h
    · cases hp : planFrom W ((g.head?.map (fun c => c.title)).getD "") ref src gs with
      | none => rw [hp] at h; simp at h
      | some p =>
        rw [hp] at h
        simp only [Option.map_some', Option.some.injEq] at h
        rw [← h]
        exact List.Forall₂.cons rfl (ih _ _ _ _ hp)
    · split at h
      · simp at h
      · next sk m rest _ =>
        cases hp : planFrom W ((g.head?.map (fun c => c.title)).getD "") m rest gs with
        | none => rw [hp] at h; simp at h
        | some p =>
          rw [hp] at h
          simp only [Option.map_some', Option.some.injEq] at h
          rw [← h]
          exact List.Forall₂.cons rfl (ih _ _ _ _ hp)

/-! ## Claims about the groups of a run -/

/-- The title-change block when the source holds an entry with the title: the
text it writes and the object it leaves. -/
theorem titleChange_text (self : ConfabReport) (title : String) (firstMol : Bool)
    (ofs : List Item) (sk : List OBMol) (m : OBMol) (rest : List OBMol)
    (hle : ∀ x ∈ self.rmsd, x ≤ 100) (hlen : self.rmsd.length < 2 ^ 31)
    (hadv : AdvanceTo title self.rfs.pending = some (sk, m, rest)) :
    titleChange self title firstMol ofs =
      some (true,
        { self with
            cutoff_passed :=
              if minWithin self.rmsd_cutoff self.rmsd then uincr self.cutoff_passed
              else self.cutoff_passed
            N := uincr^[sk.length + 1] self.N, rmol := m, align_ref := m, rmsd := [],
            rfs := { self.rfs with pending := rest } },
        ofs ++ (if firstMol then [] else numConfsLine self.rmsd.length)
          ++ closingReport self.rmsd_cutoff self.rmsd
          ++ zeroConfReports (uincr self.N) sk
          ++ moleculeHeader (uincr^[sk.length + 1] self.N) m.title) := by
  rw [titleChange_found self title firstMol ofs _ _ sk m rest
    (WriteOutput_text self _ hle hlen) hadv]
  cases firstMol <;> simp

/-- C16: in a successful run from a freshly constructed object (fewer than
2^31 conformers) the report is the header, the reports of the molecule groups
(the maximal runs of consecutive conformers with one title) in order, and the
summary; the RMSD list reported for a group holds the aligner's results for
the conformers of that group and no others, so the count in its
`number of confs` line is the number of conformers of the group.  And a title
change (values at most 100.0, fewer than 2^31 of them) first writes the count
and the closing report of the list it finds and then leaves the list empty for
the next group. -/
theorem C16_conformer_count_of_each_group (W : World) (f r : Option String) (inF : String)
    (confs : List OBMol) (res : Ret)
    (hrun : Convert W f r inF confs 1 ConfabReport.ConfabReport [] [] = some res)
    (hret : res.ret = true) (hne : confs ≠ []) (hsize : confs.length < 2 ^ 31)
    (self : ConfabReport) (title : String) (ofs : List Item)
    (sk : List OBMol) (m : OBMol) (rest : List OBMol)
    (hle : ∀ x ∈ self.rmsd, x ≤ 100) (hlen : self.rmsd.length < 2 ^ 31)
    (hadv : AdvanceTo title self.rfs.pending = some (sk, m, rest)) :
    (∃ fname src plan, f = some fname ∧ W.files fname = some src ∧
      planFrom W "" OBMol.empty src (groupsByTitle confs) = some plan ∧
      List.Forall₂ (fun p g => p.rmsd = g.map (W.Align p.reference) ∧ p.rmsd.length = g.length)
        plan (groupsByTitle confs) ∧
      res.ofs = fileHeader fname inF ++ runReport (1 / 2) "" 0 plan ++ summaryBlock res.self) ∧
    (∃ self1 tail, self1.rmsd = [] ∧
      titleChange self title false ofs =
        some (true, self1,
          ofs ++ numConfsLine self.rmsd.length ++ closingReport self.rmsd_cutoff self.rmsd
            ++ tail)) := by
  constructor
  · obtain ⟨fname, src, plan, hf, hfile, hp, -, hofs⟩ :=
      Convert_report W f r inF confs res hrun hret hne hsize
    refine ⟨fname, src, plan, hf, hfile, hp, ?_, hofs⟩
    exact (planFrom_rmsd W _ _ _ _ _ hp).imp (fun {p g} h => ⟨h, by rw [h, List.length_map]⟩)
  · refine ⟨{ self with
                cutoff_passed :=
                  if minWithin self.rmsd_cutoff self.rmsd then uincr self.cutoff_passed
                  else self.cutoff_passed
                N := uincr^[sk.length + 1] self.N, rmol := m, align_ref := m, rmsd := [],
                rfs := { self.rfs with pending := rest } },
      zeroConfReports (uincr self.N) sk
        ++ moleculeHeader (uincr^[sk.length + 1] self.N) m.title, rfl, ?_⟩
    rw [titleChange_text self title false ofs sk m rest hle hlen hadv]
    simp only [Bool.false_eq_true, if_false, List.append_assoc]

/-- C16 at the example run and at its title change from `A` to `B`. -/
theorem C16_conformer_count_of_each_group_witness :
    (Convert exampleWorld (some "ref.sdf") none "confs.sdf" exampleConfs 1
        ConfabReport.ConfabReport [] [] = some exampleRunResult ∧
      exampleRunResult.ret = true ∧ exampleConfs ≠ [] ∧ exampleConfs.length < 2 ^ 31 ∧
      (∀ x ∈ exampleMidRun.rmsd, x ≤ 100) ∧ exampleMidRun.rmsd.length < 2 ^ 31 ∧
      AdvanceTo "B" exampleMidRun.rfs.pending = some ([⟨"C", 5⟩], ⟨"B", 2⟩, [])) ∧
    ((∃ fname src plan, some "ref.sdf" = some fname ∧ exampleWorld.files fname = some src ∧
      planFrom exampleWorld "" OBMol.empty src (groupsByTitle exampleConfs) = some plan ∧
      List.Forall₂
        (fun p g => p.rmsd = g.map (exampleWorld.Align p.reference) ∧ p.rmsd.length = g.length)
        plan (groupsByTitle exampleConfs) ∧
      exampleRunResult.ofs =
        fileHeader fname "confs.sdf" ++ runReport (1 / 2) "" 0 plan
          ++ summaryBlock exampleRunResult.self) ∧
    (∃ self1 tail, self1.rmsd = [] ∧
      titleChange exampleMidRun "B" false [] =
        some (true, self1,
          [] ++ numConfsLine exampleMidRun.rmsd.length
            ++ closingReport exampleMidRun.rmsd_cutoff exampleMidRun.rmsd ++ tail))) :=
  have h1 := exampleRun_eq none
  have h2 : exampleConfs ≠ [] := by simp [exampleConfs]
  have h3 : exampleConfs.length < 2 ^ 31 := by simp [exampleConfs]
  have h4 : ∀ x ∈ exampleMidRun.rmsd, x ≤ 100 := by
    intro x hx
    simp only [exampleMidRun, List.mem_cons, List.mem_singleton, List.not_mem_nil,
      or_false] at hx
    rcases hx with rfl | rfl <;> norm_num
  have h5 : exampleMidRun.rmsd.length < 2 ^ 31 := by simp [exampleMidRun]
  have h6 : AdvanceTo "B" exampleMidRun.rfs.pending = some ([⟨"C", 5⟩], ⟨"B", 2⟩, []) := by
    simp [exampleMidRun, AdvanceTo]
  ⟨⟨h1, rfl, h2, h3, h4, h5, h6⟩,
    C16_conformer_count_of_each_group exampleWorld (some "ref.sdf") none "confs.sdf"
      exampleConfs exampleRunResult h1 rfl h2 h3 exampleMidRun "B" [] [⟨"C", 5⟩] ⟨"B", 2⟩ [] h4
      h5 h6⟩

/-! ## The molecule numbers of a report -/

theorem moleculeNumbers_label (s : String) (n : Nat) (l : List Item) :
    moleculeNumbers (Item.str s :: Item.uint n :: l) =
      if s = "..Molecule " then n :: moleculeNumbers l else moleculeNumbers l := by
  rw [moleculeNumbers]

theorem moleculeNumbers_uint (n : Nat) (l : List Item) :
    moleculeNumbers (Item.uint n :: l) = moleculeNumbers l := by
  rw [moleculeNumbers]
  intro s m rest h
  cases h

theorem moleculeNumbers_dbl (x : ℚ) (l : List Item) :
    moleculeNumbers (Item.dbl x :: l) = moleculeNumbers l := by
  rw [moleculeNumbers]
  intro s m rest h
  cases h

theorem moleculeNumbers_int (x : Int) (l : List Item) :
    moleculeNumbers (Item.int x :: l) = moleculeNumbers l := by
  rw [moleculeNumbers]
  intro s m rest h
  cases h

theorem moleculeNumbers_str (s : String) (y : Item) (l : List Item)
    (hy : ∀ n, y ≠ Item.uint n) :
    moleculeNumbers (Item.str s :: y :: l) = moleculeNumbers (y :: l) := by
  rw [moleculeNumbers]
  intro s1 m rest _ h2
  exact hy m (List.cons.inj h2).1

theorem moleculeNumbers_str_ne (s : String) (l : List Item) (hs : s ≠ "..Molecule ") :
    moleculeNumbers (Item.str s :: l) = moleculeNumbers l := by
  cases l with
  | nil => simp [moleculeNumbers]
  | cons y l =>
    cases y with
    | uint n => rw [moleculeNumbers_label, if_neg hs, moleculeNumbers_uint]
    | str t => exact moleculeNumbers_str s _ l (fun n h => by cases h)
    | dbl x => exact moleculeNumbers_str s _ l (fun n h => by cases h)
    | int x => exact moleculeNumbers_str s _ l (fun n h => by cases h)

/-- A stretch of report text without unsigned numbers that does not end in the
label `..Molecule ` prints no molecule number. -/
theorem moleculeNumbers_skip (piece : List Item) :
    ∀ l : List Item, (∀ x ∈ piece, ∀ n, x ≠ Item.uint n) →
      piece.getLast? ≠ some (Item.str "..Molecule ") →
      moleculeNumbers (piece ++ l) = moleculeNumbers l := by
  induction piece with
  | nil => intro l _ _; rfl
  | cons x xs ih =>
    intro l h1 h2
    cases xs with
    | nil =>
      cases x with
      | uint n => exact absurd rfl (h1 _ (List.mem_cons_self _ _) n)
      | dbl y => exact moleculeNumbers_dbl y l
      | int y => exact moleculeNumbers_int y l
      | str s =>
        refine moleculeNumbers_str_ne s l (fun hs => h2 ?_)
        rw [hs]
        rfl
    | cons y ys =>
      have hrec := ih l (fun z hz => h1 z (List.mem_cons_of_mem _ hz))
        (by rw [List.getLast?_cons_cons] at h2; exact h2)
      have hy : ∀ n, y ≠ Item.uint n := h1 y (by simp)
      cases x with
      | uint n => exact absurd rfl (h1 _ (List.mem_cons_self _ _) n)
      | dbl z => exact (moleculeNumbers_dbl z _).trans hrec
      | int z => exact (moleculeNumbers_int z _).trans hrec
      | str s => exact (moleculeNumbers_str s y (ys ++ l) hy).trans hrec

theorem moleculeNumbers_fileHeader (f inF : String) (l : List Item) :
    moleculeNumbers (fileHeader f inF ++ l) = moleculeNumbers l := by
  apply moleculeNumbers_skip
  · intro x hx n
    simp only [fileHeader, List.mem_cons, List.mem_singleton, List.not_mem_nil, or_false] at hx
    rcases hx with rfl | rfl | rfl | rfl | rfl | rfl | rfl | rfl <;> simp
  · simp [fileHeader]

theorem moleculeNumbers_numConfsLine (k : Nat) (l : List Item) :
    moleculeNumbers (numConfsLine k ++ l) = moleculeNumbers l := by
  simp only [numConfsLine, List.cons_append, List.nil_append]
  rw [moleculeNumbers_label, if_neg (by decide), moleculeNumbers_str_ne _ _ (by decide)]

theorem moleculeNumbers_closingReport (cutoff : ℚ) (rmsd : List ℚ) (l : List Item) :
    moleculeNumbers (closingReport cutoff rmsd ++ l) = moleculeNumbers l := by
  apply moleculeNumbers_skip
  · intro x hx n
    unfold closingReport at hx
    split at hx
    · simp at hx
    · simp only [passedLine, cutoffsLine, countsLine, binvals, binvals_arr, List.map_cons,
        List.map_nil, List.mem_append, List.mem_cons, List.mem_singleton, List.not_mem_nil,
        or_false, List.mem_flatMap] at hx
      rcases hx with ((hx | hx) | hx) | hx
      · rcases hx with rfl | rfl | rfl <;> simp
      · rcases hx with (hx | ⟨t, -, hx⟩) | hx
        · rcases hx with rfl | rfl <;> simp
        · rcases hx with rfl | rfl <;> simp
        · rw [hx]; simp
      · rcases hx with (hx | ⟨t, -, hx⟩) | hx
        · rcases hx with rfl | rfl <;> simp
        · rcases hx with rfl | rfl <;> simp
        · rw [hx]; simp
      · rcases hx with (hx | hx) | hx
        · rcases hx with rfl | rfl | rfl <;> simp
        · split at hx <;> simp at hx <;> rw [hx] <;> simp
        · rw [hx]; simp
  · unfold closingReport
    split
    · simp
    · rw [passedLine, ← List.append_assoc, List.getLast?_concat]
      simp

theorem moleculeNumbers_zeroConfReport (n : Nat) (t : String) (l : List Item) :
    moleculeNumbers (zeroConfReport n t ++ l) = n :: moleculeNumbers l := by
  simp only [zeroConfReport, List.cons_append, List.nil_append]
  rw [moleculeNumbers_label, if_pos rfl,
    moleculeNumbers_str _ _ _ (fun n h => by cases h),
    moleculeNumbers_str _ _ _ (fun n h => by cases h),
    moleculeNumbers_str_ne _ _ (by decide)]

theorem moleculeNumbers_moleculeHeader (n : Nat) (t : String) (l : List Item) :
    moleculeNumbers (moleculeHeader n t ++ l) = n :: moleculeNumbers l := by
  simp only [moleculeHeader, List.cons_append, List.nil_append]
  rw [moleculeNumbers_label, if_pos rfl,
    moleculeNumbers_str _ _ _ (fun n h => by cases h),
    moleculeNumbers_str _ _ _ (fun n h => by cases h),
    moleculeNumbers_str_ne _ _ (by decide)]

theorem moleculeNumbers_summaryBlock (self : ConfabReport) :
    moleculeNumbers (summaryBlock self) = [] := by
  simp only [summaryBlock]
  rw [moleculeNumbers_label, if_neg (by decide),
    moleculeNumbers_str _ _ _ (fun n h => by cases h), moleculeNumbers_dbl,
    moleculeNumbers_label, if_neg (by decide), moleculeNumbers_str_ne _ _ (by decide)]
  rfl

theorem moleculeNumbers_zeroConfReports (sk : List OBMol) :
    ∀ (m : Nat) (l : List Item), m + sk.length < 2 ^ 32 →
      moleculeNumbers (zeroConfReports m sk ++ l) = List.range' m sk.length ++ moleculeNumbers l := by
  induction sk with
  | nil => intro m l _; rfl
  | cons e es ih =>
    intro m l hm
    simp only [List.length_cons] at hm
    have hu : uincr m = m + 1 := by
      unfold uincr
      omega
    rw [zeroConfReports, List.append_assoc, moleculeNumbers_zeroConfReport, hu,
      ih (m + 1) l (by omega)]
    rfl

/-- The molecule numbers of the reports of the groups of a plan in which every
group has a header, without wrap-around of the counter: the numbers that follow
the counter at the start, one for each reference entry read. -/
theorem moleculeNumbers_runReport (cutoff : ℚ) (plan : List GroupPlan) :
    ∀ (title : String) (n : Nat) (l : List Item), allHeaded title plan = true →
      n + entriesRead plan < 2 ^ 32 →
      moleculeNumbers (runReport cutoff title n plan ++ l) =
        List.range' (n + 1) (entriesRead plan) ++ moleculeNumbers l := by
  induction plan with
  | nil => intro title n l _ _; rfl
  | cons p ps ih =>
    intro title n l hh hn
    simp only [allHeaded, Bool.and_eq_true, decide_eq_true_eq] at hh
    have he : entriesRead (p :: ps) = p.skipped.length + 1 + entriesRead ps := by
      simp only [entriesRead, List.length_cons, List.map_cons, List.sum_cons]
      omega
    rw [he] at hn ⊢
    have hu : uincr n = n + 1 := by
      unfold uincr
      omega
    have hN : uincr^[p.skipped.length + 1] n = n + p.skipped.length + 1 := by
      rw [uincr_iterate]
      omega
    rw [runReport, if_neg hh.1, hN, hu]
    simp only [List.append_assoc]
    rw [moleculeNumbers_zeroConfReports _ _ _ (by omega), moleculeNumbers_moleculeHeader,
      moleculeNumbers_numConfsLine, moleculeNumbers_closingReport,
      ih _ _ l hh.2 (by omega)]
    have h2 : List.range' (n + 1) (p.skipped.length + 1 + entriesRead ps) =
        List.range' (n + 1) p.skipped.length
          ++ List.range' (n + p.skipped.length + 1) (entriesRead ps + 1) := by
      rw [show n + p.skipped.length + 1 = n + 1 + p.skipped.length by omega,
        List.range'_append_1]
      congr 1
      omega
    rw [h2, List.append_assoc]
    rfl

/-- C18: in a run from a freshly constructed object that completes without
error and whose first conformer has a non-empty title (fewer than 2^32
reference entries, fewer than 2^31 conformers), the molecule numbers printed
after the label `..Molecule `, for matched groups and skipped entries together,
are 1, 2, ..., N in this order, N being the counter that the summary prints,
which is at least 1 and is the last number printed. -/
theorem C18_molecule_numbers_consecutive (W : World) (f : String) (r : Option String)
    (inF : String) (c : OBMol) (rest : List OBMol) (src : List OBMol) (res : Ret)
    (hrun : Convert W (some f) r inF (c :: rest) 1 ConfabReport.ConfabReport [] [] = some res)
    (hret : res.ret = true) (hfile : W.files f = some src) (hsize : src.length < 2 ^ 32)
    (hlen : (c :: rest).length < 2 ^ 31) (hfirst : c.title ≠ "") :
    moleculeNumbers res.ofs = List.range' 1 res.self.N ∧
    1 ≤ res.self.N ∧
    (moleculeNumbers res.ofs).getLast? = some res.self.N ∧
    ∃ pre, res.ofs = pre ++
      [Item.str "\n**Summary\n..number of molecules = ", Item.uint res.self.N,
        Item.str "\n..less than cutoff(", Item.dbl res.self.rmsd_cutoff, Item.str ") = ",
        Item.uint res.self.cutoff_passed, Item.str "\n"] := by
  have hne : c :: rest ≠ [] := List.cons_ne_nil _ _
  have hhead : ∀ d ∈ (c :: rest).head?, d.title ≠ "" := by
    intro d hd
    simp only [List.head?_cons, Option.mem_def, Option.some.injEq] at hd
    rw [← hd]
    exact hfirst
  obtain ⟨fname, src1, plan, hf, hfile1, hp, hhd, hofs⟩ :=
    Convert_report W (some f) r inF (c :: rest) res hrun hret hne hlen
  obtain ⟨fname2, src2, plan2, hf2, hfile2, hp2, -, hN, -, -⟩ :=
    Convert_plan W (some f) r inF (c :: rest) res hrun hret hne
  simp only [Option.some.injEq] at hf hf2
  subst hf hf2
  rw [hfile] at hfile1 hfile2
  simp only [Option.some.injEq] at hfile1 hfile2
  subst hfile1 hfile2
  rw [hp] at hp2
  simp only [Option.some.injEq] at hp2
  subst hp2
  obtain ⟨hN1, hN2⟩ := hN hhead
  have hent : entriesRead plan < 2 ^ 32 := by
    unfold entriesRead
    omega
  have hNval : res.self.N = entriesRead plan := by
    rw [hN1]
    exact uincr_iterate_zero _ hent
  have hpos : 1 ≤ entriesRead plan := by
    have h1 := planFrom_length W _ _ _ _ _ hp
    obtain ⟨g, rest1, -, -, -, hgroups⟩ := groupsByTitle_cons c rest
    rw [hgroups, List.length_cons] at h1
    unfold entriesRead
    omega
  have hnums : moleculeNumbers res.ofs = List.range' 1 res.self.N := by
    rw [hofs, List.append_assoc, moleculeNumbers_fileHeader,
      moleculeNumbers_runReport (1 / 2) plan "" 0 _ (hhd hhead) (by omega),
      moleculeNumbers_summaryBlock, hNval]
    simp
  refine ⟨hnums, by omega, ?_, fileHeader f inF ++ runReport (1 / 2) "" 0 plan, hofs⟩
  rw [hnums, hNval]
  obtain ⟨k, hk⟩ : ∃ k, entriesRead plan = k + 1 := ⟨entriesRead plan - 1, by omega⟩
  rw [hk, List.range'_1_concat, List.getLast?_concat]
  congr 1
  omega

/-- C18 at the example run: the numbers printed are 1, 2, 3. -/
theorem C18_molecule_numbers_consecutive_witness :
    (Convert exampleWorld (some "ref.sdf") none "confs.sdf" (⟨"A", 2⟩ :: [⟨"A", 6⟩, ⟨"B", 3⟩]) 1
        ConfabReport.ConfabReport [] [] = some exampleRunResult ∧
      exampleRunResult.ret = true ∧
      exampleWorld.files "ref.sdf" = some [⟨"A", 1⟩, ⟨"C", 5⟩, ⟨"B", 2⟩] ∧
      [(⟨"A", 1⟩ : OBMol), ⟨"C", 5⟩, ⟨"B", 2⟩].length < 2 ^ 32 ∧
      ((⟨"A", 2⟩ : OBMol) :: [⟨"A", 6⟩, ⟨"B", 3⟩]).length < 2 ^ 31 ∧
      (⟨"A", 2⟩ : OBMol).title ≠ "") ∧
    (moleculeNumbers exampleRunResult.ofs = List.range' 1 exampleRunResult.self.N ∧
    1 ≤ exampleRunResult.self.N ∧
    (moleculeNumbers exampleRunResult.ofs).getLast? = some exampleRunResult.self.N ∧
    ∃ pre, exampleRunResult.ofs = pre ++
      [Item.str "\n**Summary\n..number of molecules = ", Item.uint exampleRunResult.self.N,
        Item.str "\n..less than cutoff(", Item.dbl exampleRunResult.self.rmsd_cutoff,
        Item.str ") = ", Item.uint exampleRunResult.self.cutoff_passed, Item.str "\n"]) :=
  have h1 : Convert exampleWorld (some "ref.sdf") none "confs.sdf"
      (⟨"A", 2⟩ :: [⟨"A", 6⟩, ⟨"B", 3⟩]) 1 ConfabReport.ConfabReport [] [] =
      some exampleRunResult := exampleRun_eq none
  have h2 : exampleWorld.files "ref.sdf" = some [⟨"A", 1⟩, ⟨"C", 5⟩, ⟨"B", 2⟩] := by
    simp [exampleWorld]
  have h3 : [(⟨"A", 1⟩ : OBMol), ⟨"C", 5⟩, ⟨"B", 2⟩].length < 2 ^ 32 := by simp
  have h4 : ((⟨"A", 2⟩ : OBMol) :: [⟨"A", 6⟩, ⟨"B", 3⟩]).length < 2 ^ 31 := by simp
  have h5 : (⟨"A", 2⟩ : OBMol).title ≠ "" := by decide
  ⟨⟨h1, rfl, h2, h3, h4, h5⟩,
    C18_molecule_numbers_consecutive exampleWorld "ref.sdf" none "confs.sdf" ⟨"A", 2⟩
      [⟨"A", 6⟩, ⟨"B", 3⟩] [⟨"A", 1⟩, ⟨"C", 5⟩, ⟨"B", 2⟩] exampleRunResult h1 rfl h2 h3 h4 h5⟩

/-! ## The end of a report -/

theorem runReport_getLast (cutoff : ℚ) (plan : List GroupPlan) :
    ∀ (title : String) (n : Nat) (lastp : GroupPlan), plan.getLast? = some lastp →
      ∃ pre, runReport cutoff title n plan =
        pre ++ numConfsLine lastp.rmsd.length ++ closingReport cutoff lastp.rmsd := by
  induction plan with
  | nil => intro title n lastp h; simp at h
  | cons p ps ih =>
    intro title n lastp h
    cases ps with
    | nil =>
      simp only [List.getLast?_singleton, Option.some.injEq] at h
      subst h
      rw [runReport]
      split
      · exact ⟨[], by simp [runReport]⟩
      · exact ⟨zeroConfReports (uincr n) p.skipped
          ++ moleculeHeader (uincr^[p.skipped.length + 1] n) p.reference.title,
          by simp [runReport]⟩
    | cons q qs =>
      rw [List.getLast?_cons_cons] at h
      rw [runReport]
      split
      · obtain ⟨pre, hpre⟩ := ih title n lastp h
        exact ⟨numConfsLine p.rmsd.length ++ closingReport cutoff p.rmsd ++ pre, by
          rw [hpre]
          simp only [List.append_assoc]⟩
      · obtain ⟨pre, hpre⟩ := ih p.reference.title (uincr^[p.skipped.length + 1] n) lastp h
        exact ⟨zeroConfReports (uincr n) p.skipped
          ++ moleculeHeader (uincr^[p.skipped.length + 1] n) p.reference.title
          ++ numConfsLine p.rmsd.length ++ closingReport cutoff p.rmsd ++ pre, by
          rw [hpre]
          simp only [List.append_assoc]⟩

/-- The last molecule group of a conformer stream ends with its last
conformer. -/
theorem groupsByTitle_getLast (n : Nat) :
    ∀ l : List OBMol, l.length ≤ n → l ≠ [] →
      ∃ gl, (groupsByTitle l).getLast? = some gl ∧ gl.getLast? = l.getLast? := by
  induction n with
  | zero =>
    intro l hl hne
    exact absurd (List.length_eq_zero.mp (Nat.le_zero.mp hl)) hne
  | succ n ih =>
    intro l hl hne
    cases l with
    | nil => exact absurd rfl hne
    | cons c rest0 =>
      obtain ⟨g, rest, hsplit, -, -, hgroups⟩ := groupsByTitle_cons c rest0
      subst hsplit
      rw [hgroups]
      by_cases hrest : rest = []
      · subst hrest
        refine ⟨c :: g, ?_, ?_⟩
        · rw [groupsByTitle]
          rfl
        · rw [List.append_nil]
      · obtain ⟨gl, h1, h2⟩ := ih rest (by
          simp only [List.length_cons, List.length_append] at hl
          omega) hrest
        refine ⟨gl, ?_, ?_⟩
        · obtain ⟨g2, gs2, hg2⟩ : ∃ g2 gs2, groupsByTitle rest = g2 :: gs2 := by
            cases hgr : groupsByTitle rest with
            | nil => rw [hgr] at h1; simp at h1
            | cons g2 gs2 => exact ⟨g2, gs2, rfl⟩
          rw [hg2, List.getLast?_cons_cons, ← hg2]
          exact h1
        · rw [h2, ← List.cons_append, List.getLast?_append_of_ne_nil _ hrest]

theorem forall₂_getLast {α β : Type} (R : α → β → Prop) (l1 : List α) (l2 : List β)
    (h : List.Forall₂ R l1 l2) (b : β) (hb : l2.getLast? = some b) :
    ∃ a, l1.getLast? = some a ∧ R a b := by
  induction h with
  | nil => simp at hb
  | @cons a1 b1 t1 t2 hab ht ih =>
    cases ht with
    | nil =>
      simp only [List.getLast?_singleton, Option.some.injEq] at hb
      subst hb
      exact ⟨a1, rfl, hab⟩
    | @cons a2 b2 t3 t4 hab2 ht2 =>
      rw [List.getLast?_cons_cons] at hb ⊢
      exact ih hb

/-- The entries a plan skips and the references it finds are entries of the
source; the reference of a group that reads no entry is the reference in
force. -/
theorem planFrom_mem (W : World) (gs : List (List OBMol)) :
    ∀ (title : String) (ref : OBMol) (src : List OBMol) (plan : List GroupPlan),
      planFrom W title ref src gs = some plan →
      ∀ p ∈ plan, (∀ e ∈ p.skipped, e ∈ src) ∧ (p.reference ∈ src ∨ p.reference = ref) := by
  induction gs with
  | nil =>
    intro title ref src plan h
    simp only [planFrom, Option.some.injEq] at h
    subst h
    simp
  | cons g gs ih =>
    intro title ref src plan h
    rw [planFrom] at h
    split at h
    · cases hp : planFrom W ((g.head?.map (fun c => c.title)).getD "") ref src gs with
      | none => rw [hp] at h; simp at h
      | some p =>
        rw [hp] at h
        simp only [Option.map_some', Option.some.injEq] at h
        rw [← h]
        intro q hq
        rcases List.mem_cons.mp hq with rfl | hq
        · exact ⟨by simp, Or.inr rfl⟩
        · exact ih _ _ _ _ hp q hq
    · split at h
      · simp at h
      · next sk m rest hadv =>
        cases hp : planFrom W ((g.head?.map (fun c => c.title)).getD "") m rest gs with
        | none => rw [hp] at h; simp at h
        | some p =>
          rw [hp] at h
          simp only [Option.map_some', Option.some.injEq] at h
          rw [← h]
          obtain ⟨hsrc, -, -⟩ := AdvanceTo_some _ _ _ _ _ hadv
          intro q hq
          rcases List.mem_cons.mp hq with rfl | hq
          · refine ⟨fun e he => ?_, Or.inl ?_⟩
            · rw [hsrc]
              exact List.mem_append_left _ he
            · rw [hsrc]
              simp
          · obtain ⟨h1, h2⟩ := ih _ _ _ _ hp q hq
            refine ⟨fun e he => ?_, Or.inl ?_⟩
            · rw [hsrc]
              exact List.mem_append_right _ (List.mem_cons_of_mem _ (h1 e he))
            · rw [hsrc]
              rcases h2 with h2 | h2
              · exact List.mem_append_right _ (List.mem_cons_of_mem _ h2)
              · rw [h2]
                simp

/-! ## Where the summary label occurs -/

theorem summaryLabel_mem_zeroConfReports (sk : List OBMol) :
    ∀ n : Nat, Item.str "\n**Summary\n..number of molecules = " ∈ zeroConfReports n sk →
      ∃ e ∈ sk, e.title = "\n**Summary\n..number of molecules = " := by
  induction sk with
  | nil => intro n h; simp [zeroConfReports] at h
  | cons e es ih =>
    intro n h
    rw [zeroConfReports, List.mem_append] at h
    rcases h with h | h
    · simp only [zeroConfReport, List.mem_cons, Item.str.injEq, List.not_mem_nil, or_false] at h
      rcases h with h | h | h | h | h
      · exact absurd h (by decide)
      · cases h
      · exact absurd h (by decide)
      · exact ⟨e, List.mem_cons_self _ _, h.symm⟩
      · exact absurd h (by decide)
    · obtain ⟨e1, he1, ht⟩ := ih _ h
      exact ⟨e1, List.mem_cons_of_mem _ he1, ht⟩

theorem summaryLabel_not_mem_closingReport (cutoff : ℚ) (rmsd : List ℚ) :
    Item.str "\n**Summary\n..number of molecules = " ∉ closingReport cutoff rmsd := by
  intro hx
  unfold closingReport at hx
  split at hx
  · simp at hx
  · simp only [passedLine, cutoffsLine, countsLine, binvals, binvals_arr, List.map_cons,
      List.map_nil, List.mem_append, List.mem_cons, List.mem_singleton, List.not_mem_nil,
      or_false, List.mem_flatMap] at hx
    rcases hx with ((hx | hx) | hx) | hx
    · rcases hx with hx | hx | hx <;> simp at hx
    · rcases hx with (hx | ⟨t, -, hx⟩) | hx
      · rcases hx with hx | hx <;> simp at hx
      · rcases hx with hx | hx <;> simp at hx
      · simp at hx
    · rcases hx with (hx | ⟨t, -, hx⟩) | hx
      · rcases hx with hx | hx <;> simp at hx
      · rcases hx with hx | hx <;> simp at hx
      · simp at hx
    · rcases hx with (hx | hx) | hx
      · rcases hx with hx | hx | hx <;> simp at hx
      · split at hx <;> simp at hx
      · simp at hx

theorem summaryLabel_not_mem_runReport (cutoff : ℚ) (plan : List GroupPlan) :
    ∀ (title : String) (n : Nat),
      (∀ p ∈ plan, (∀ e ∈ p.skipped, e.title ≠ "\n**Summary\n..number of molecules = ") ∧
        p.reference.title ≠ "\n**Summary\n..number of molecules = ") →
      Item.str "\n**Summary\n..number of molecules = " ∉ runReport cutoff title n plan := by
  induction plan with
  | nil => intro title n _ h; simp [runReport] at h
  | cons p ps ih =>
    intro title n hp h
    obtain ⟨hsk, href⟩ := hp p (List.mem_cons_self _ _)
    have hps := fun q hq => hp q (List.mem_cons_of_mem _ hq)
    have hnum : Item.str "\n**Summary\n..number of molecules = " ∉
        numConfsLine p.rmsd.length := by
      simp [numConfsLine]
    rw [runReport] at h
    split at h
    · simp only [List.mem_append] at h
      rcases h with (h | h) | h
      · exact hnum h
      · exact summaryLabel_not_mem_closingReport _ _ h
      · exact ih _ _ hps h
    · simp only [List.mem_append] at h
      rcases h with (((h | h) | h) | h) | h
      · obtain ⟨e, he, ht⟩ := summaryLabel_mem_zeroConfReports _ _ h
        exact hsk e he ht
      · simp only [moleculeHeader, List.mem_cons, Item.str.injEq, List.not_mem_nil,
          or_false] at h
        rcases h with h | h | h | h | h
        · exact absurd h (by decide)
        · cases h
        · exact absurd h (by decide)
        · exact href h.symm
        · exact absurd h (by decide)
      · exact hnum h
      · exact summaryLabel_not_mem_closingReport _ _ h
      · exact ih _ _ hps h

theorem summaryLabel_count_summaryBlock (self : ConfabReport) :
    (summaryBlock self).count (Item.str "\n**Summary\n..number of molecules = ") = 1 := by
  simp [summaryBlock, List.count_cons]

/-- The call for a last conformer that starts a new title: the group that was
open is closed, the entries before the new reference are reported, the new
group is opened, closed with its one conformer, and the summary follows. -/
theorem WriteMolecule_last_change (W : World) (self : ConfabReport) (pmol : OBMol)
    (pConv : OBConversion) (ofs cerr : List Item) (sk : List OBMol) (m : OBMol)
    (rest : List OBMol) (hidx : pConv.OutputIndex ≠ 1) (hlast : pConv.IsLast = true)
    (hchange : self.oldtitle ≠ pmol.title)
    (hle : ∀ x ∈ self.rmsd, x ≤ 100) (hlen : self.rmsd.length < 2 ^ 31)
    (hadv : AdvanceTo pmol.title self.rfs.pending = some (sk, m, rest))
    (hx : W.Align m pmol ≤ 100) :
    ∃ self1,
      WriteMolecule W self (OBBase.mol pmol) pConv ofs cerr =
        some ⟨true, self1,
          ofs ++ numConfsLine self.rmsd.length ++ closingReport self.rmsd_cutoff self.rmsd
            ++ zeroConfReports (uincr self.N) sk
            ++ moleculeHeader (uincr^[sk.length + 1] self.N) m.title
            ++ numConfsLine 1 ++ closingReport self.rmsd_cutoff [W.Align m pmol]
            ++ summaryBlock self1, cerr⟩ ∧
      self1.N = uincr^[sk.length + 1] self.N ∧
      self1.cutoff_passed =
        uincr^[(if minWithin self.rmsd_cutoff self.rmsd then 1 else 0)
          + (if W.Align m pmol ≤ self.rmsd_cutoff then 1 else 0)] self.cutoff_passed ∧
      self1.rmsd_cutoff = self.rmsd_cutoff := by
  have h1 : (pConv.OutputIndex == 1) = false := by simpa using hidx
  refine ⟨{ self with
              cutoff_passed :=
                if minWithin self.rmsd_cutoff [W.Align m pmol] then
                  uincr (if minWithin self.rmsd_cutoff self.rmsd then uincr self.cutoff_passed
                    else self.cutoff_passed)
                else
                  (if minWithin self.rmsd_cutoff self.rmsd then uincr self.cutoff_passed
                    else self.cutoff_passed)
              N := uincr^[sk.length + 1] self.N, rmol := m, align_ref := m,
              rmsd := List.insertionSort (· ≤ ·) [W.Align m pmol],
              oldtitle := pmol.title,
              rfs := { self.rfs with pending := rest } }, ?_, rfl, ?_, rfl⟩
  · simp only [WriteMolecule, firstMolBlock, h1, Bool.false_eq_true, if_false, if_true,
      processConformer, hlast]
    rw [if_pos hchange, titleChange_text self pmol.title false ofs sk m rest hle hlen hadv]
    simp only [alignAndFinish, List.nil_append, if_true, Bool.false_eq_true, if_false]
    rw [WriteOutput_text _ _ (by simpa using hx) (by simp)]
    simp only [Option.map_some', List.length_singleton, List.append_assoc]
  · have hm : minWithin self.rmsd_cutoff [W.Align m pmol] =
        decide (W.Align m pmol ≤ self.rmsd_cutoff) := by
      simp [minWithin]
    simp only [hm, decide_eq_true_eq]
    by_cases ha : W.Align m pmol ≤ self.rmsd_cutoff <;>
      by_cases hb : minWithin self.rmsd_cutoff self.rmsd = true <;>
      simp [ha, hb, Function.iterate_succ_apply]

/-- C17: in a successful run from a freshly constructed object (fewer than
2^31 conformers; no file name and no reference title is itself the text of the
summary label) the report ends with the count of conformers and the closing
report of the last group, whose RMSD list ends with the value of the last
conformer, followed by the summary block; the summary label occurs once in the
report; and `cutoff_passed` in the summary counts every group, the last one
included.  And the call for a last conformer that starts a new title first
closes the group that was open, then opens the new group, closes it with its
one conformer and writes the summary. -/
theorem C17_summary_once_after_last_group (W : World) (fname : String) (r : Option String)
    (inF : String) (init : List OBMol) (last : OBMol) (src : List OBMol) (res : Ret)
    (hrun : Convert W (some fname) r inF (init ++ [last]) 1 ConfabReport.ConfabReport [] [] =
      some res)
    (hret : res.ret = true) (hfile : W.files fname = some src)
    (hsize : (init ++ [last]).length < 2 ^ 31)
    (hf : fname ≠ "\n**Summary\n..number of molecules = ")
    (hin : inF ≠ "\n**Summary\n..number of molecules = ")
    (htitles : ∀ e ∈ src, e.title ≠ "\n**Summary\n..number of molecules = ")
    (self : ConfabReport) (pmol : OBMol) (pConv : OBConversion) (ofs cerr : List Item)
    (sk : List OBMol) (m : OBMol) (rest : List OBMol)
    (hidx : pConv.OutputIndex ≠ 1) (hlast : pConv.IsLast = true)
    (hchange : self.oldtitle ≠ pmol.title)
    (hle : ∀ x ∈ self.rmsd, x ≤ 100) (hlen : self.rmsd.length < 2 ^ 31)
    (hadv : AdvanceTo pmol.title self.rfs.pending = some (sk, m, rest))
    (hx : W.Align m pmol ≤ 100) :
    (∃ plan lastp pre,
      planFrom W "" OBMol.empty src (groupsByTitle (init ++ [last])) = some plan ∧
      plan.getLast? = some lastp ∧
      lastp.rmsd.getLast? = some (W.Align lastp.reference last) ∧
      res.ofs = pre ++ numConfsLine lastp.rmsd.length ++ closingReport (1 / 2) lastp.rmsd
        ++ summaryBlock res.self ∧
      pre ++ numConfsLine lastp.rmsd.length ++ closingReport (1 / 2) lastp.rmsd =
        fileHeader fname inF ++ runReport (1 / 2) "" 0 plan ∧
      res.ofs.count (Item.str "\n**Summary\n..number of molecules = ") = 1 ∧
      res.self.cutoff_passed = plan.countP (fun p => minWithin (1 / 2) p.rmsd)) ∧
    (∃ self1,
      WriteMolecule W self (OBBase.mol pmol) pConv ofs cerr =
        some ⟨true, self1,
          ofs ++ numConfsLine self.rmsd.length ++ closingReport self.rmsd_cutoff self.rmsd
            ++ zeroConfReports (uincr self.N) sk
            ++ moleculeHeader (uincr^[sk.length + 1] self.N) m.title
            ++ numConfsLine 1 ++ closingReport self.rmsd_cutoff [W.Align m pmol]
            ++ summaryBlock self1, cerr⟩ ∧
      self1.N = uincr^[sk.length + 1] self.N ∧
      self1.cutoff_passed =
        uincr^[(if minWithin self.rmsd_cutoff self.rmsd then 1 else 0)
          + (if W.Align m pmol ≤ self.rmsd_cutoff then 1 else 0)] self.cutoff_passed ∧
      self1.rmsd_cutoff = self.rmsd_cutoff) := by
  refine ⟨?_, WriteMolecule_last_change W self pmol pConv ofs cerr sk m rest hidx hlast hchange
    hle hlen hadv hx⟩
  have hne : init ++ [last] ≠ [] := by simp
  obtain ⟨fname1, src1, plan, hf1, hfile1, hp, -, hofs⟩ :=
    Convert_report W (some fname) r inF (init ++ [last]) res hrun hret hne hsize
  obtain ⟨fname2, src2, plan2, hf2, hfile2, hp2, hcp, -, -, -⟩ :=
    Convert_plan W (some fname) r inF (init ++ [last]) res hrun hret hne
  simp only [Option.some.injEq] at hf1 hf2
  subst hf1 hf2
  rw [hfile] at hfile1 hfile2
  simp only [Option.some.injEq] at hfile1 hfile2
  subst hfile1 hfile2
  rw [hp] at hp2
  simp only [Option.some.injEq] at hp2
  subst hp2
  obtain ⟨gl, hgl1, hgl2⟩ := groupsByTitle_getLast _ (init ++ [last]) (le_refl _) hne
  rw [List.getLast?_concat] at hgl2
  obtain ⟨lastp, hlp, hlr⟩ := forall₂_getLast _ _ _ (planFrom_rmsd W _ _ _ _ _ hp) gl hgl1
  obtain ⟨pre0, hpre⟩ := runReport_getLast (1 / 2) plan "" 0 lastp hlp
  refine ⟨plan, lastp, fileHeader fname inF ++ pre0, hp, hlp, ?_, ?_, ?_, ?_, ?_⟩
  · rw [hlr, List.getLast?_map, hgl2]
    rfl
  · rw [hofs, hpre]
    simp only [List.append_assoc]
  · rw [hpre]
    simp only [List.append_assoc]
  · rw [hofs, List.count_append, List.count_append, summaryLabel_count_summaryBlock]
    have h1 : (fileHeader fname inF).count
        (Item.str "\n**Summary\n..number of molecules = ") = 0 := by
      apply List.count_eq_zero.mpr
      intro h
      simp only [fileHeader, List.mem_cons, Item.str.injEq, List.not_mem_nil, or_false] at h
      rcases h with h | h | h | h | h | h | h | h
      · exact absurd h (by decide)
      · exact absurd h (by decide)
      · exact absurd h (by decide)
      · exact hf h.symm
      · exact absurd h (by decide)
      · exact absurd h (by decide)
      · exact hin h.symm
      · exact absurd h (by decide)
    have h2 : (runReport (1 / 2) "" 0 plan).count
        (Item.str "\n**Summary\n..number of molecules = ") = 0 := by
      apply List.count_eq_zero.mpr
      apply summaryLabel_not_mem_runReport
      intro p hpm
      obtain ⟨hs, href⟩ := planFrom_mem W _ _ _ _ _ hp p hpm
      refine ⟨fun e he => htitles e (hs e he), ?_⟩
      rcases href with href | href
      · exact htitles _ href
      · rw [href]
        decide
    rw [h1, h2]
  · rw [hcp]
    apply uincr_iterate_zero
    have h1 : plan.countP (fun p => minWithin (1 / 2) p.rmsd) ≤ plan.length :=
      List.countP_le_length _
    have h2 := planFrom_length W _ _ _ _ _ hp
    have h3 := groupsByTitle_length_le _ (init ++ [last]) (le_refl _)
    omega

/-- C17 at the example run and at its last call, which starts the title `B`. -/
theorem C17_summary_once_after_last_group_witness :
    (Convert exampleWorld (some "ref.sdf") none "confs.sdf" ([⟨"A", 2⟩, ⟨"A", 6⟩] ++ [⟨"B", 3⟩]) 1
        ConfabReport.ConfabReport [] [] = some exampleRunResult ∧
      exampleRunResult.ret = true ∧
      exampleWorld.files "ref.sdf" = some [⟨"A", 1⟩, ⟨"C", 5⟩, ⟨"B", 2⟩] ∧
      ([(⟨"A", 2⟩ : OBMol), ⟨"A", 6⟩] ++ [(⟨"B", 3⟩ : OBMol)]).length < 2 ^ 31 ∧
      "ref.sdf" ≠ "\n**Summary\n..number of molecules = " ∧
      "confs.sdf" ≠ "\n**Summary\n..number of molecules = " ∧
      (∀ e ∈ [(⟨"A", 1⟩ : OBMol), ⟨"C", 5⟩, ⟨"B", 2⟩],
        e.title ≠ "\n**Summary\n..number of molecules = ") ∧
      exampleConvLast.OutputIndex ≠ 1 ∧ exampleConvLast.IsLast = true ∧
      exampleMidRun.oldtitle ≠ (⟨"B", 3⟩ : OBMol).title ∧
      (∀ x ∈ exampleMidRun.rmsd, x ≤ 100) ∧ exampleMidRun.rmsd.length < 2 ^ 31 ∧
      AdvanceTo (⟨"B", 3⟩ : OBMol).title exampleMidRun.rfs.pending =
        some ([⟨"C", 5⟩], ⟨"B", 2⟩, []) ∧
      exampleWorld.Align ⟨"B", 2⟩ ⟨"B", 3⟩ ≤ 100) ∧
    ((∃ plan lastp pre,
      planFrom exampleWorld "" OBMol.empty [⟨"A", 1⟩, ⟨"C", 5⟩, ⟨"B", 2⟩]
        (groupsByTitle ([⟨"A", 2⟩, ⟨"A", 6⟩] ++ [⟨"B", 3⟩])) = some plan ∧
      plan.getLast? = some lastp ∧
      lastp.rmsd.getLast? = some (exampleWorld.Align lastp.reference ⟨"B", 3⟩) ∧
      exampleRunResult.ofs =
        pre ++ numConfsLine lastp.rmsd.length ++ closingReport (1 / 2) lastp.rmsd
          ++ summaryBlock exampleRunResult.self ∧
      pre ++ numConfsLine lastp.rmsd.length ++ closingReport (1 / 2) lastp.rmsd =
        fileHeader "ref.sdf" "confs.sdf" ++ runReport (1 / 2) "" 0 plan ∧
      exampleRunResult.ofs.count (Item.str "\n**Summary\n..number of molecules = ") = 1 ∧
      exampleRunResult.self.cutoff_passed = plan.countP (fun p => minWithin (1 / 2) p.rmsd)) ∧
    (∃ self1,
      WriteMolecule exampleWorld exampleMidRun (OBBase.mol ⟨"B", 3⟩) exampleConvLast [] [] =
        some ⟨true, self1,
          [] ++ numConfsLine exampleMidRun.rmsd.length
            ++ closingReport exampleMidRun.rmsd_cutoff exampleMidRun.rmsd
            ++ zeroConfReports (uincr exampleMidRun.N) [⟨"C", 5⟩]
            ++ moleculeHeader (uincr^[[(⟨"C", 5⟩ : OBMol)].length + 1] exampleMidRun.N)
                (⟨"B", 2⟩ : OBMol).title
            ++ numConfsLine 1
            ++ closingReport exampleMidRun.rmsd_cutoff [exampleWorld.Align ⟨"B", 2⟩ ⟨"B", 3⟩]
            ++ summaryBlock self1, []⟩ ∧
      self1.N = uincr^[[(⟨"C", 5⟩ : OBMol)].length + 1] exampleMidRun.N ∧
      self1.cutoff_passed =
        uincr^[(if minWithin exampleMidRun.rmsd_cutoff exampleMidRun.rmsd then 1 else 0)
          + (if exampleWorld.Align ⟨"B", 2⟩ ⟨"B", 3⟩ ≤ exampleMidRun.rmsd_cutoff then 1 else 0)]
          exampleMidRun.cutoff_passed ∧
      self1.rmsd_cutoff = exampleMidRun.rmsd_cutoff)) :=
  have h1 : Convert exampleWorld (some "ref.sdf") none "confs.sdf"
      ([⟨"A", 2⟩, ⟨"A", 6⟩] ++ [⟨"B", 3⟩]) 1 ConfabReport.ConfabReport [] [] =
      some exampleRunResult := exampleRun_eq none
  have h2 : exampleWorld.files "ref.sdf" = some [⟨"A", 1⟩, ⟨"C", 5⟩, ⟨"B", 2⟩] := by
    simp [exampleWorld]
  have h3 : ([(⟨"A", 2⟩ : OBMol), ⟨"A", 6⟩] ++ [(⟨"B", 3⟩ : OBMol)]).length < 2 ^ 31 := by simp
  have h4 : "ref.sdf" ≠ "\n**Summary\n..number of molecules = " := by decide
  have h5 : "confs.sdf" ≠ "\n**Summary\n..number of molecules = " := by decide
  have h6 : ∀ e ∈ [(⟨"A", 1⟩ : OBMol), ⟨"C", 5⟩, ⟨"B", 2⟩],
      e.title ≠ "\n**Summary\n..number of molecules = " := by decide
  have h7 : exampleConvLast.OutputIndex ≠ 1 := by decide
  have h8 : exampleMidRun.oldtitle ≠ (⟨"B", 3⟩ : OBMol).title := by decide
  have h9 : ∀ x ∈ exampleMidRun.rmsd, x ≤ 100 := by
    intro x hx
    simp only [exampleMidRun, List.mem_cons, List.mem_singleton, List.not_mem_nil,
      or_false] at hx
    rcases hx with rfl | rfl <;> norm_num
  have h10 : exampleMidRun.rmsd.length < 2 ^ 31 := by simp [exampleMidRun]
  have h11 : AdvanceTo (⟨"B", 3⟩ : OBMol).title exampleMidRun.rfs.pending =
      some ([⟨"C", 5⟩], ⟨"B", 2⟩, []) := by
    simp [exampleMidRun, AdvanceTo]
  have h12 : exampleWorld.Align ⟨"B", 2⟩ ⟨"B", 3⟩ ≤ 100 := by norm_num [exampleWorld]
  ⟨⟨h1, rfl, h2, h3, h4, h5, h6, h7, rfl, h8, h9, h10, h11, h12⟩,
    C17_summary_once_after_last_group exampleWorld "ref.sdf" none "confs.sdf"
      [⟨"A", 2⟩, ⟨"A", 6⟩] ⟨"B", 3⟩ [⟨"A", 1⟩, ⟨"C", 5⟩, ⟨"B", 2⟩] exampleRunResult h1 rfl h2 h3
      h4 h5 h6 exampleMidRun ⟨"B", 3⟩ exampleConvLast [] [] [⟨"C", 5⟩] ⟨"B", 2⟩ [] h7 rfl h8 h9
      h10 h11 h12⟩

end OpenBabel
